import Mathlib

/-!
Verification of the `autore` regular-expression / finite-automaton toolkit.

The definitions below are a shallow embedding of `src/lib.rs`,
`src/finite_automaton/mod.rs` and `src/regular_expression/mod.rs`.
`BTreeSet` is modelled as a strictly sorted list, `BTreeMap` as a sorted
association list; `usize` is modelled as `Nat`, with subtraction underflow
(a Rust panic) made explicit where it is reachable.  Fallible code
(`unwrap` on a lookup) is modelled with `Option`/`Except`.
-/

namespace Autore

/-- `AutomatonTransition` (src/lib.rs): an edge label, either `Epsilon` or a
single code point. -/
inductive AutomatonTransition where
  | epsilon : AutomatonTransition
  | symbol (c : Char) : AutomatonTransition
deriving Repr

/-- Injection of labels into `Nat` realising the derived Rust `Ord`:
`Epsilon` is smallest, symbols are ordered by code point. -/
def AutomatonTransition.toNat : AutomatonTransition → Nat
  | .epsilon => 0
  | .symbol c => c.toNat + 1

theorem charToNat_injective : Function.Injective Char.toNat := fun a b h => by
  have ha := Char.ofNat_toNat a
  have hb := Char.ofNat_toNat b
  rw [← ha, ← hb, h]

theorem transitionToNat_injective :
    Function.Injective AutomatonTransition.toNat := by
  intro a b h
  cases a <;> cases b <;> simp [AutomatonTransition.toNat] at h ⊢
  exact charToNat_injective h

instance : LinearOrder AutomatonTransition :=
  LinearOrder.lift' AutomatonTransition.toNat transitionToNat_injective

/-- Sorted insert into a strictly increasing list; models `BTreeSet::insert`. -/
def setInsert {α : Type} [LinearOrder α] (x : α) : List α → List α
  | [] => [x]
  | y :: ys =>
    if x < y then x :: y :: ys
    else if x = y then y :: ys
    else y :: setInsert x ys

/-- Insert every element of `xs` into `acc`; models `BTreeSet::extend`. -/
def setUnion {α : Type} [LinearOrder α] (acc xs : List α) : List α :=
  xs.foldl (fun a x => setInsert x a) acc

/-- Collect a sequence into a `BTreeSet`. -/
def setFromList {α : Type} [LinearOrder α] (l : List α) : List α :=
  l.foldl (fun acc x => setInsert x acc) []

/-- Lookup in an association list; models `BTreeMap::get` (also used for the
hash maps, whose iteration order is never observed). -/
def mapGet? {κ β : Type} [DecidableEq κ] (k : κ) : List (κ × β) → Option β
  | [] => none
  | (k', v) :: rest => if k = k' then some v else mapGet? k rest

/-- Insert-or-modify at a key, keeping keys strictly sorted; models
`BTreeMap::entry(k).or_insert(d)` followed by applying `f` in place. -/
def mapUpdate {κ β : Type} [LinearOrder κ] (k : κ) (d : β) (f : β → β) :
    List (κ × β) → List (κ × β)
  | [] => [(k, f d)]
  | (k', v) :: rest =>
    if k < k' then (k, f d) :: (k', v) :: rest
    else if k = k' then (k', f v) :: rest
    else (k', v) :: mapUpdate k d f rest

/-- Insert-or-replace; models `BTreeMap::insert`. -/
def mapInsert {κ β : Type} [LinearOrder κ] (k : κ) (v : β) (m : List (κ × β)) :
    List (κ × β) :=
  mapUpdate k v (fun _ => v) m

/-- Remove a key; models `BTreeMap::remove` (keys are unique in a `BTreeMap`,
so removing the unique occurrence is removing every occurrence). -/
def mapRemove {κ β : Type} [DecidableEq κ] (k : κ) (m : List (κ × β)) :
    List (κ × β) :=
  m.filter (fun p => p.1 ≠ k)

abbrev AutomatonState := Nat

/-- A row of the transition table: `label → set of target states`. -/
abbrev AutomatonTransitionList := List (AutomatonTransition × List Nat)

/-- `FiniteAutomaton` (src/lib.rs). -/
structure FiniteAutomaton where
  last_state : Nat
  start_states : List Nat
  accept_states : List Nat
  transitions : List (Nat × AutomatonTransitionList)
deriving DecidableEq, Repr

namespace FiniteAutomaton

/-- `FiniteAutomaton::default()`. -/
def empty : FiniteAutomaton := ⟨0, [], [], []⟩

/-- `FiniteAutomaton::add_transition`. -/
def addTransition (fa : FiniteAutomaton) (src : Nat)
    (lbl : AutomatonTransition) (dst : Nat) : FiniteAutomaton :=
  let ts := mapUpdate src []
    (fun row => mapUpdate lbl [] (fun tos => setInsert dst tos) row) fa.transitions
  { fa with transitions := ts }

/-- `FiniteAutomaton::add_state`.  Rust uses `saturating_add`; the saturation
point `usize::MAX` is unreachable for any automaton the program can build, so
the counter is modelled as a plain successor. -/
def addState (fa : FiniteAutomaton) : FiniteAutomaton × Nat :=
  let n := fa.last_state
  ({ fa with last_state := n + 1, transitions := mapInsert n [] fa.transitions }, n)

/-- `FiniteAutomaton::remove_state`. -/
def removeState (fa : FiniteAutomaton) (s : Nat) : FiniteAutomaton :=
  { fa with
    start_states := fa.start_states.filter (fun x => x ≠ s),
    accept_states := fa.accept_states.filter (fun x => x ≠ s),
    transitions := fa.transitions.filter (fun p => p.1 ≠ s) }

/-- `FiniteAutomaton::get_alphabet`. -/
def getAlphabet (fa : FiniteAutomaton) : List AutomatonTransition :=
  fa.transitions.foldl
    (fun al p => p.2.foldl (fun al2 e => setInsert e.1 al2) al) []

/-- The body of the inner loop of `accepts_word`: extend `next` with the
`sym`-targets of `s`; `None` models the panic of
`transitions.get(state).unwrap()` when `s` is not a key. -/
def wordFun (fa : FiniteAutomaton) (sym : Char) (next : List Nat)
    (s : Nat) : Option (List Nat) :=
  match mapGet? s fa.transitions with
  | none => none
  | some row =>
    match mapGet? (AutomatonTransition.symbol sym) row with
    | none => some next
    | some tos => some (setUnion next tos)

/-- One character of `accepts_word`: the union of `δ(s, sym)` over the current
set. -/
def wordStep (fa : FiniteAutomaton) (curr : List Nat) (sym : Char) :
    Option (List Nat) :=
  curr.foldlM (wordFun fa sym) []

/-- The loop of `FiniteAutomaton::accepts_word`, starting from `curr`. -/
def acceptsWordFrom (fa : FiniteAutomaton) : List Char → List Nat → Option Bool
  | [], curr => some (curr.any (fun s => fa.accept_states.contains s))
  | c :: rest, curr =>
    match wordStep fa curr c with
    | none => none
    | some next => if next.isEmpty then some false else acceptsWordFrom fa rest next

/-- `FiniteAutomaton::accepts_word`.  `None` models a panic. -/
def acceptsWord (fa : FiniteAutomaton) (w : List Char) : Option Bool :=
  acceptsWordFrom fa w fa.start_states

/-- Total (panic-free) variant of the inner-loop body, used to state what the
simulation computes: targets of absent states or labels are empty. -/
def stepFun (fa : FiniteAutomaton) (c : Char) (next : List Nat)
    (s : Nat) : List Nat :=
  match mapGet? (AutomatonTransition.symbol c) ((mapGet? s fa.transitions).getD []) with
  | none => next
  | some tos => setUnion next tos

/-- Total (panic-free) variant of one simulation step. -/
def stepSet (fa : FiniteAutomaton) (curr : List Nat) (c : Char) :
    List Nat :=
  curr.foldl (stepFun fa c) []

/-- The state set reached after consuming `w` from `curr`. -/
def runSet (fa : FiniteAutomaton) (curr : List Nat) (w : List Char) :
    List Nat :=
  w.foldl (stepSet fa) curr

/-- `FiniteAutomaton::to_complement`: the accept set becomes the set of
transition-map keys that were not accepting. -/
def toComplement (fa : FiniteAutomaton) : FiniteAutomaton :=
  { fa with accept_states :=
      setFromList ((fa.transitions.map Prod.fst).filter
        (fun s => ¬ fa.accept_states.contains s)) }

/-- The body of the outer loop of `to_full`: for every alphabet symbol absent
from the snapshot row `p`, add an edge from `p.1` to the trap. -/
def toFullRow (alphabet : List AutomatonTransition) (drain : Nat)
    (acc : FiniteAutomaton) (p : Nat × AutomatonTransitionList) :
    FiniteAutomaton :=
  alphabet.foldl
    (fun acc2 sym =>
      if (mapGet? sym p.2).isSome then acc2
      else acc2.addTransition p.1 sym drain)
    acc

/-- `FiniteAutomaton::to_full`: allocate a trap state, then give every state of
the snapshot (trap included) an edge to the trap on each missing alphabet
symbol. -/
def toFull (fa : FiniteAutomaton) : FiniteAutomaton :=
  let alphabet := fa.getAlphabet
  let (fa1, drain) := fa.addState
  fa1.transitions.foldl (toFullRow alphabet drain) fa1

/-- The id the trap state of `to_full` receives. -/
def drainOf (fa : FiniteAutomaton) : Nat := fa.last_state

/-- No key `Epsilon` anywhere in `transitions` (invariant I4). -/
def EpsFree (fa : FiniteAutomaton) : Prop :=
  ∀ p ∈ fa.transitions, ∀ e ∈ p.2, e.1 ≠ AutomatonTransition.epsilon

instance (fa : FiniteAutomaton) : Decidable fa.EpsFree := by
  unfold EpsFree; infer_instance

/-- Every start state is a key of the transition map. -/
def StartsClosed (fa : FiniteAutomaton) : Prop :=
  ∀ s ∈ fa.start_states, (mapGet? s fa.transitions).isSome = true

instance (fa : FiniteAutomaton) : Decidable fa.StartsClosed := by
  unfold StartsClosed; infer_instance

/-- Every transition target is a key of the transition map. -/
def TargetsClosed (fa : FiniteAutomaton) : Prop :=
  ∀ p ∈ fa.transitions, ∀ e ∈ p.2, ∀ t ∈ e.2, (mapGet? t fa.transitions).isSome = true

instance (fa : FiniteAutomaton) : Decidable fa.TargetsClosed := by
  unfold TargetsClosed; infer_instance

/-- Invariant I3: `last_state` is a strict upper bound on every id that occurs
in the automaton. -/
def LastStateBound (fa : FiniteAutomaton) : Prop :=
  (∀ s ∈ fa.start_states, s < fa.last_state) ∧
  (∀ s ∈ fa.accept_states, s < fa.last_state) ∧
  (∀ p ∈ fa.transitions, p.1 < fa.last_state ∧ ∀ e ∈ p.2, ∀ t ∈ e.2, t < fa.last_state)

instance (fa : FiniteAutomaton) : Decidable fa.LastStateBound := by
  unfold LastStateBound; infer_instance

/-- The representation invariant of Rust's `BTreeMap`: the transition table
and each of its rows are strictly sorted by key. -/
def SortedTrans (fa : FiniteAutomaton) : Prop :=
  ((fa.transitions.map Prod.fst).Sorted (· < ·)) ∧
    ∀ p ∈ fa.transitions, (p.2.map Prod.fst).Sorted (· < ·)

instance (fa : FiniteAutomaton) : Decidable fa.SortedTrans := by
  unfold SortedTrans; infer_instance

/-- Invariant I5: exactly one start state, no ε-edges, and at most one target
per `(state, symbol)` pair. -/
def IsDfa (fa : FiniteAutomaton) : Prop :=
  fa.start_states.length = 1 ∧ fa.EpsFree ∧
    ∀ p ∈ fa.transitions, ∀ e ∈ p.2, e.2.length ≤ 1

instance (fa : FiniteAutomaton) : Decidable fa.IsDfa := by
  unfold IsDfa; infer_instance

end FiniteAutomaton

/-- The ε-closure matrix of `eliminate_epsilon`:
`BTreeMap<State, BTreeMap<State, bool>>`. -/
abbrev ClosureMatrix := List (Nat × List (Nat × Bool))

/-- Read `matrix[i][j]`, defaulting to `false`.  The Rust code reads through
`entry(..).or_default()`, which also inserts the default; since every read of
the matrix defaults missing entries to `false` and the materialisation step
skips `false` entries, the inserted defaults are unobservable and are not
modelled. -/
def matGet (m : ClosureMatrix) (i j : Nat) : Bool :=
  ((mapGet? j ((mapGet? i m).getD [])).getD false)

/-- Write `matrix[i][j] := b`. -/
def matSet (m : ClosureMatrix) (i j : Nat) (b : Bool) : ClosureMatrix :=
  mapUpdate i [] (fun row => mapUpdate j false (fun _ => b) row) m

/-- The `BTreeMap` representation invariant for the closure matrix: the outer
map and every row are strictly sorted by key. -/
def MatSorted (m : ClosureMatrix) : Prop :=
  ((m.map Prod.fst).Sorted (· < ·)) ∧ ∀ p ∈ m, (p.2.map Prod.fst).Sorted (· < ·)

/-- Reachability in at least one step through a boolean base relation, with
every intermediate state satisfying `P`: the relation Floyd–Warshall closes. -/
inductive FWReach (base : Nat → Nat → Bool) (P : Nat → Prop) : Nat → Nat → Prop where
  | base {i j} : base i j = true → FWReach base P i j
  | trans {i k j} : FWReach base P i k → P k → FWReach base P k j → FWReach base P i j

/-- Step 1a of `eliminate_epsilon`: mark every direct ε-edge in the matrix. -/
def closureInit (fa : FiniteAutomaton) : ClosureMatrix :=
  fa.transitions.foldl
    (fun m p =>
      ((mapGet? AutomatonTransition.epsilon p.2).getD []).foldl
        (fun m2 t => matSet m2 p.1 t true) m)
    []

/-- `FiniteAutomaton::floyd_warshall`: in-place transitive closure over the
key set of `transitions`. -/
def floydWarshall (keys : List Nat) (m0 : ClosureMatrix) : ClosureMatrix :=
  keys.foldl
    (fun mk k =>
      keys.foldl
        (fun mi i =>
          keys.foldl
            (fun mj j => matSet mj i j (matGet mj i j || (matGet mj i k && matGet mj k j)))
            mi)
        mk)
    m0

/-- Step 1b of `eliminate_epsilon`: materialise every `true` matrix entry as an
ε-edge. -/
def materializeClosure (fa : FiniteAutomaton) (m : ClosureMatrix) : FiniteAutomaton :=
  m.foldl
    (fun fa1 row =>
      row.2.foldl
        (fun fa2 e =>
          if e.2 then fa2.addTransition row.1 AutomatonTransition.epsilon e.1 else fa2)
        fa1)
    fa

/-- Step 2 of `eliminate_epsilon`: mark every state with an ε-edge into an
accept state as accepting.  The Rust loop consults the live `accept_states`
set while inserting into it, which the fold accumulator reproduces. -/
def liftAccepts (fa : FiniteAutomaton) : FiniteAutomaton :=
  let acc := fa.transitions.foldl
    (fun acc p =>
      ((mapGet? AutomatonTransition.epsilon p.2).getD []).foldl
        (fun acc2 t => if acc2.contains t then setInsert p.1 acc2 else acc2)
        acc)
    fa.accept_states
  { fa with accept_states := acc }

/-- Step 3 of `eliminate_epsilon`: for `u --ε--> v` and `v --l--> w` in the
cloned snapshot, add `u --l--> w`.  `None` models the panic of
`cloned_transitions.get(epsilon_transition).unwrap()` when an ε-target is not
a key of the transition map. -/
def bypassEpsilon (fa : FiniteAutomaton) : Option FiniteAutomaton :=
  let snap := fa.transitions
  snap.foldlM
    (fun fa1 p =>
      ((mapGet? AutomatonTransition.epsilon p.2).getD []).foldlM
        (fun fa2 t =>
          match mapGet? t snap with
          | none => none
          | some row2 =>
            some (row2.foldl
              (fun fa3 e => e.2.foldl (fun fa4 d => fa4.addTransition p.1 e.1 d) fa3)
              fa2))
        fa1)
    fa

/-- Step 4 of `eliminate_epsilon`: drop the `Epsilon` key from every row. -/
def stripEpsilon (fa : FiniteAutomaton) : FiniteAutomaton :=
  { fa with transitions :=
      fa.transitions.map (fun p => (p.1, mapRemove AutomatonTransition.epsilon p.2)) }

/-- The incoming-reference counts of `eliminate_dead`: start states count once,
plus one per occurrence as a transition target. -/
def refCounts (fa : FiniteAutomaton) : List (Nat × Nat) :=
  let m0 := fa.start_states.foldl (fun m s => mapUpdate s 0 (fun n => n + 1) m) []
  fa.transitions.foldl
    (fun m p =>
      p.2.foldl
        (fun m2 e => e.2.foldl (fun m3 d => mapUpdate d 0 (fun n => n + 1) m3) m2)
        m)
    m0

/-- `FiniteAutomaton::eliminate_dead`: remove every state whose reference
count is zero. -/
def eliminateDead (fa : FiniteAutomaton) : FiniteAutomaton :=
  let rc := refCounts fa
  ((fa.transitions.map Prod.fst).filter
      (fun s => (mapGet? s rc).getD 0 = 0)).foldl
    FiniteAutomaton.removeState fa

/-- `FiniteAutomaton::eliminate_epsilon`: the five phases in order.  `None`
models the panic in step 3. -/
def eliminateEpsilon (fa : FiniteAutomaton) : Option FiniteAutomaton :=
  let m := floydWarshall (fa.transitions.map Prod.fst) (closureInit fa)
  let fa1 := materializeClosure fa m
  let fa2 := liftAccepts fa1
  match bypassEpsilon fa2 with
  | none => none
  | some fa3 => some (eliminateDead (stripEpsilon fa3))

/-! ### Subset construction (`to_dfa`) -/

/-- One popped subset of `to_dfa`: decide whether it is accepting and collect
`dfa_nfa_trans`, the per-symbol union of NFA targets.  `None` models the panic
of `nfa.transitions.get(nfa_state).unwrap()`. -/
def collectTrans (nfa : FiniteAutomaton) (subset : List Nat) :
    Option (Bool × AutomatonTransitionList) :=
  subset.foldlM
    (fun st s =>
      match mapGet? s nfa.transitions with
      | none => none
      | some row =>
        some (st.1 || nfa.accept_states.contains s,
          row.foldl (fun d e => mapUpdate e.1 [] (fun cur => setUnion cur e.2) d) st.2))
    (false, [])

/-- The loop state of `to_dfa` besides the DFA being built: the worklist, the
processed set, and the two subset maps (hash maps in Rust; their iteration
order is never observed, so plain association lists are used). -/
structure ToDfaState where
  dfa : FiniteAutomaton
  queue : List Nat
  used : List Nat
  mapping : List (Nat × List Nat)
  reverse : List (List Nat × Nat)

/-- Process the collected `dfa_nfa_trans` of `curr`: look up or allocate a DFA
id for each target subset and add the corresponding DFA edge. -/
def toDfaEdges (curr : Nat) (dnt : AutomatonTransitionList)
    (st : ToDfaState) : ToDfaState :=
  dnt.foldl
    (fun st1 e =>
      match mapGet? e.2 st1.reverse with
      | some d => { st1 with dfa := st1.dfa.addTransition curr e.1 d }
      | none =>
        let (dfa1, nd) := st1.dfa.addState
        { st1 with
          dfa := dfa1.addTransition curr e.1 nd,
          queue := st1.queue ++ [nd],
          mapping := (nd, e.2) :: st1.mapping,
          reverse := (e.2, nd) :: st1.reverse })
    st

/-- The `while` loop of `to_dfa`, with explicit fuel. -/
def toDfaLoop (nfa : FiniteAutomaton) : Nat → ToDfaState → Option FiniteAutomaton
  | 0, _ => none
  | fuel + 1, st =>
    match st.queue with
    | [] => some st.dfa
    | curr :: rest =>
      if st.used.contains curr then
        toDfaLoop nfa fuel { st with queue := rest }
      else
        match mapGet? curr st.mapping with
        | none => none
        | some subset =>
          match collectTrans nfa subset with
          | none => none
          | some (isAcc, dnt) =>
            let dfa1 :=
              if isAcc then
                { st.dfa with accept_states := setInsert curr st.dfa.accept_states }
              else st.dfa
            let st1 := toDfaEdges curr dnt { st with dfa := dfa1, queue := rest }
            toDfaLoop nfa fuel { st1 with used := curr :: st1.used }

/-- The initial loop state of `to_dfa`: one DFA state mapped to
`nfa.start_states`. -/
def toDfaInit (nfa : FiniteAutomaton) : ToDfaState :=
  let (dfa0, s0) := FiniteAutomaton.empty.addState
  { dfa := { dfa0 with start_states := [s0] },
    queue := [s0],
    used := [],
    mapping := [(s0, nfa.start_states)],
    reverse := [(nfa.start_states, s0)] }

/-- `FiniteAutomaton::to_dfa`.  The Rust loop always terminates because at
most one DFA state is allocated per distinct subset of NFA states; the fuel
`2 ^ |transitions| + 2` dominates that bound (proved below for the inputs the
claims quantify over). -/
def toDfa (nfa : FiniteAutomaton) : Option FiniteAutomaton :=
  toDfaLoop nfa (2 ^ nfa.transitions.length + 2) (toDfaInit nfa)

/-! ### Minimisation (`to_minimal`) -/

/-- Lexicographic comparison of sorted member lists: the `Ord` of
`BTreeSet<Nat>`. -/
def classLt : List Nat → List Nat → Bool
  | [], [] => false
  | [], _ :: _ => true
  | _ :: _, [] => false
  | x :: xs, y :: ys => if x < y then true else if y < x then false else classLt xs ys

/-- Sorted insert of a block into a partition (a `BTreeSet` of `BTreeSet`s). -/
def partInsert (c : List Nat) : List (List Nat) → List (List Nat)
  | [] => [c]
  | d :: ds => if classLt c d then c :: d :: ds else if c = d then d :: ds else d :: partInsert c ds

/-- Does `state` reach the splitter set on `symbol`?  The predicate of the
refinement split. -/
def reachesSplitter (fa : FiniteAutomaton) (splitter : List Nat)
    (symbol : AutomatonTransition) (s : Nat) : Bool :=
  (((mapGet? symbol ((mapGet? s fa.transitions).getD [])).getD []).any
    (fun d => splitter.contains d))

/-- One pass of the refinement loop body: split every block of the partition
snapshot against `(splitter, symbol)`, pushing both halves of each split for
every alphabet symbol. -/
def refineStep (fa : FiniteAutomaton) (alphabet : List AutomatonTransition)
    (splitter : List Nat) (symbol : AutomatonTransition)
    (partition : List (List Nat))
    (queue : List (List Nat × AutomatonTransition)) :
    List (List Nat) × List (List Nat × AutomatonTransition) :=
  partition.foldl
    (fun st c =>
      let reach := c.filter (fun s => reachesSplitter fa splitter symbol s)
      let unreach := c.filter (fun s => ¬ reachesSplitter fa splitter symbol s)
      if ¬ reach.isEmpty ∧ ¬ unreach.isEmpty then
        let q := alphabet.foldl (fun q2 sym => q2 ++ [(reach, sym), (unreach, sym)]) st.2
        (partInsert unreach (partInsert reach (st.1.filter (fun d => d ≠ c))), q)
      else st)
    (partition, queue)

/-- The refinement `while` loop of `to_minimal`, with explicit fuel. -/
def refineLoop (fa : FiniteAutomaton) (alphabet : List AutomatonTransition) :
    Nat → List (List Nat) →
    List (List Nat × AutomatonTransition) →
    Option (List (List Nat))
  | 0, _, _ => none
  | fuel + 1, partition, queue =>
    match queue with
    | [] => some partition
    | (splitter, symbol) :: rest =>
      let (p2, q2) := refineStep fa alphabet splitter symbol partition rest
      refineLoop fa alphabet fuel p2 q2

/-- The rebuild phase of `to_minimal`: allocate one fresh state per block,
remap accept and start states, copy every old state's transitions through the
block map, and remove all old states.  `None` models the `unwrap` panics on
states that belong to no block. -/
def rebuildMinimal (fa : FiniteAutomaton) (partition : List (List Nat)) :
    Option FiniteAutomaton := do
  let (fa1, maps) := partition.foldl
    (fun st c =>
      let (fa2, ns) := st.1.addState
      ((fa2, ((st.2.1 ++ [(c, ns)]), c.foldl (fun m s => (s, ns) :: m) st.2.2)) : _))
    (fa, (([], []) : List (List Nat × Nat) ×
      List (Nat × Nat)))
  let classToState := maps.1
  let stateToClass := maps.2
  let acc ← fa1.accept_states.foldlM
    (fun a s => (mapGet? s stateToClass).map (fun ns => setInsert ns a))
    fa1.accept_states
  let fa2 := { fa1 with accept_states := acc }
  let sts ← fa2.start_states.foldlM
    (fun a s => (mapGet? s stateToClass).map (fun ns => setInsert ns a))
    fa2.start_states
  let fa3 := { fa2 with start_states := sts }
  partition.foldlM
    (fun fa4 c => do
      let cs ← mapGet? c classToState
      c.foldlM
        (fun fa5 old => do
          let row ← mapGet? old fa5.transitions
          let fa6 ← row.foldlM
            (fun fa6 e =>
              e.2.foldlM
                (fun fa7 t =>
                  (mapGet? t stateToClass).map (fun ct => fa7.addTransition cs e.1 ct))
                fa6)
            fa5
          pure (fa6.removeState old))
        fa4)
    fa3

/-- `FiniteAutomaton::to_minimal`, with explicit fuel for the refinement
loop.  `None` models either fuel exhaustion or one of the `unwrap` panics. -/
def toMinimal (fa : FiniteAutomaton) (fuel : Nat) : Option FiniteAutomaton := do
  let alphabet := fa.getAlphabet
  let acceptClass := fa.accept_states
  let nonAcceptClass := (fa.transitions.map Prod.fst).filter
    (fun s => ¬ fa.accept_states.contains s)
  let queue0 := alphabet.foldl
    (fun q sym => q ++ [(acceptClass, sym), (nonAcceptClass, sym)]) []
  let partition0 := partInsert nonAcceptClass (partInsert acceptClass [])
  let partition ← refineLoop fa alphabet fuel partition0 queue0
  rebuildMinimal fa partition

/-! ### The counting query (`min_word_len_exactly_symbol_count`) -/

/-- The result of `min_word_len_exactly_symbol_count`.  The three `panic`
variants model the reachable `usize` underflows (`curr_level -= 1` and the
final `depth - 1`) and the `unwrap` on a missing transition row; `fuelOut`
is exhaustion of the explicit fuel. -/
inductive MwRes where
  | ok (found : Bool) (len : Nat)
  | panicLevel
  | panicDepth
  | panicGet
  | fuelOut
deriving DecidableEq, Repr

/-- A BFS search state: automaton state, incoming label, running count,
hops since the counted symbol was last seen. -/
abbrev MwNode := Nat × AutomatonTransition × Nat × Nat

/-- The loop state of the BFS: queue plus the level bookkeeping counters. -/
structure MwState where
  queue : List MwNode
  currLevel : Nat
  nextLevel : Nat
  depth : Nat

/-- The final `(is_found, depth - 1)` of the query; `depth = 0` underflows. -/
def mwFinal (found : Bool) (depth : Nat) : MwRes :=
  if depth = 0 then MwRes.panicDepth else MwRes.ok found (depth - 1)

/-- The BFS loop of `min_word_len_exactly_symbol_count`. -/
def mwLoop (fa : FiniteAutomaton) (x : Char) (k : Nat) : Nat → MwState → MwRes
  | 0, _ => MwRes.fuelOut
  | fuel + 1, st =>
    match st.queue with
    | [] => mwFinal false st.depth
    | (s, lbl, count0, lastMet0) :: rest =>
      if st.currLevel = 0 then MwRes.panicLevel else
      let currLevel := st.currLevel - 1
      let lastMet1 := lastMet0 + 1
      let cl : Nat × Nat :=
        match lbl with
        | AutomatonTransition.symbol c => if c = x then (count0 + 1, 0) else (count0, lastMet1)
        | AutomatonTransition.epsilon => (count0, lastMet1)
      let count := cl.1
      let lastMet := cl.2
      if count > k ∨ lastMet > fa.transitions.length then
        mwLoop fa x k fuel { st with queue := rest, currLevel := currLevel }
      else if count = k ∧ fa.accept_states.contains s then
        mwFinal true (st.depth + (if currLevel = 0 then 1 else 0))
      else
        match mapGet? s fa.transitions with
        | none => MwRes.panicGet
        | some row =>
          let pushes := row.foldl
            (fun acc e => acc ++ e.2.map (fun t => ((t, e.1, count, lastMet) : MwNode))) []
          let nextLevel := st.nextLevel + pushes.length
          if currLevel = 0 then
            mwLoop fa x k fuel ⟨rest ++ pushes, nextLevel, 0, st.depth + 1⟩
          else
            mwLoop fa x k fuel ⟨rest ++ pushes, currLevel, nextLevel, st.depth⟩

/-- `min_word_len_exactly_symbol_count` (src/lib.rs), with explicit fuel. -/
def minWordLen (fa : FiniteAutomaton) (x : Char) (k : Nat) (fuel : Nat) : MwRes :=
  mwLoop fa x k fuel
    ⟨fa.start_states.map (fun s => ((s, AutomatonTransition.epsilon, 0, 0) : MwNode)),
      fa.start_states.length, 0, 0⟩

/-! ### Regex AST, Thompson construction and the infix parser -/

/-- `RegexOps` (src/lib.rs). -/
inductive RegexOps where
  | either (l r : RegexOps)
  | consecutive (l r : RegexOps)
  | noneOrMore (x : RegexOps)
  | noneOrOnce (x : RegexOps)
  | onceOrMore (x : RegexOps)
  | symbol (c : Char)
  | epsilon
deriving DecidableEq, Repr

/-- `Regex` (src/lib.rs): an optional root. -/
structure Regex where
  root : Option RegexOps
deriving DecidableEq, Repr

/-- `FiniteAutomaton::traverse_regex`: wire the transitions of `op` between
the two existing endpoints, allocating fresh inner states. -/
def traverseRegex (fa : FiniteAutomaton) :
    RegexOps → Nat → Nat → FiniteAutomaton
  | RegexOps.either l r, s, a =>
    let (fa1, ls) := fa.addState
    let (fa2, la) := fa1.addState
    let fa3 := (fa2.addTransition s AutomatonTransition.epsilon ls).addTransition
      la AutomatonTransition.epsilon a
    let fa4 := traverseRegex fa3 l ls la
    let (fa5, rs) := fa4.addState
    let (fa6, ra) := fa5.addState
    let fa7 := (fa6.addTransition s AutomatonTransition.epsilon rs).addTransition
      ra AutomatonTransition.epsilon a
    traverseRegex fa7 r rs ra
  | RegexOps.consecutive l r, s, a =>
    let (fa1, m) := fa.addState
    let fa2 := traverseRegex fa1 l s m
    traverseRegex fa2 r m a
  | RegexOps.noneOrMore x, s, a =>
    let (fa1, rs) := fa.addState
    let (fa2, ra) := fa1.addState
    let fa3 := (((fa2.addTransition s AutomatonTransition.epsilon rs).addTransition
      s AutomatonTransition.epsilon a).addTransition
      ra AutomatonTransition.epsilon a).addTransition ra AutomatonTransition.epsilon rs
    traverseRegex fa3 x rs ra
  | RegexOps.noneOrOnce x, s, a =>
    let (fa1, rs) := fa.addState
    let (fa2, ra) := fa1.addState
    let fa3 := ((fa2.addTransition s AutomatonTransition.epsilon rs).addTransition
      s AutomatonTransition.epsilon a).addTransition ra AutomatonTransition.epsilon a
    traverseRegex fa3 x rs ra
  | RegexOps.onceOrMore x, s, a =>
    let (fa1, rs) := fa.addState
    let (fa2, ra) := fa1.addState
    let fa3 := ((fa2.addTransition s AutomatonTransition.epsilon rs).addTransition
      ra AutomatonTransition.epsilon a).addTransition ra AutomatonTransition.epsilon rs
    traverseRegex fa3 x rs ra
  | RegexOps.symbol c, s, a => fa.addTransition s (AutomatonTransition.symbol c) a
  | RegexOps.epsilon, s, a => fa.addTransition s AutomatonTransition.epsilon a

/-- `FiniteAutomaton::from_regex`. -/
def fromRegex (r : Regex) : FiniteAutomaton :=
  match r.root with
  | some root =>
    let (fa1, s) := FiniteAutomaton.empty.addState
    let fa2 := { fa1 with start_states := [s] }
    let (fa3, a) := fa2.addState
    let fa4 := { fa3 with accept_states := setInsert a fa3.accept_states }
    traverseRegex fa4 root s a
  | none => FiniteAutomaton.empty

/-- A labelled edge, as used to describe the Thompson fragment compositionally. -/
abbrev FragEdge := Nat × AutomatonTransition × Nat

/-- Install a list of edges with `add_transition`, in order. -/
def addEdges (es : List FragEdge) (fa : FiniteAutomaton) : FiniteAutomaton :=
  es.foldl (fun g e => g.addTransition e.1 e.2.1 e.2.2) fa

/-- The ε-edges the materialisation step of `eliminate_epsilon` installs: one
edge per `true` entry of the closure matrix, in iteration order. -/
def matEdges (m : ClosureMatrix) : List FragEdge :=
  m.foldr (fun row acc => row.2.foldr (fun e acc2 =>
    if e.2 then (row.1, AutomatonTransition.epsilon, e.1) :: acc2 else acc2) acc) []

/-- The edges the ε-bypass step of `eliminate_epsilon` installs, read from the
snapshot `snap`: for `u --ε--> v` and `v --l--> d`, the edge `u --l--> d`. -/
def bypassEdges (snap : List (Nat × AutomatonTransitionList)) : List FragEdge :=
  snap.flatMap (fun p =>
    ((mapGet? AutomatonTransition.epsilon p.2).getD []).flatMap (fun t =>
      ((mapGet? t snap).getD []).flatMap (fun e =>
        e.2.map (fun d => (p.1, e.1, d)))))

/-- One branch of the `Either` wiring of `traverse_regex`: allocate the two
branch endpoints, connect them to `s` and `a` by ε-edges and recurse.  Both
halves of the `Either` case are instances of this shape. -/
def trEitherL (fa : FiniteAutomaton) (x : RegexOps) (s a : Nat) : FiniteAutomaton :=
  traverseRegex ((((fa.addState).1.addState).1.addTransition s AutomatonTransition.epsilon fa.last_state).addTransition (fa.last_state + 1) AutomatonTransition.epsilon a) x fa.last_state (fa.last_state + 1)

/-- The `NoneOrMore` wiring of `traverse_regex`, written as one application. -/
def trStar (fa : FiniteAutomaton) (x : RegexOps) (s a : Nat) : FiniteAutomaton :=
  traverseRegex ((((((fa.addState).1.addState).1.addTransition s AutomatonTransition.epsilon fa.last_state).addTransition s AutomatonTransition.epsilon a).addTransition (fa.last_state + 1) AutomatonTransition.epsilon a).addTransition (fa.last_state + 1) AutomatonTransition.epsilon fa.last_state) x fa.last_state (fa.last_state + 1)

/-- The `NoneOrOnce` wiring of `traverse_regex`, written as one application. -/
def trOpt (fa : FiniteAutomaton) (x : RegexOps) (s a : Nat) : FiniteAutomaton :=
  traverseRegex (((((fa.addState).1.addState).1.addTransition s AutomatonTransition.epsilon fa.last_state).addTransition s AutomatonTransition.epsilon a).addTransition (fa.last_state + 1) AutomatonTransition.epsilon a) x fa.last_state (fa.last_state + 1)

/-- The `OnceOrMore` wiring of `traverse_regex`, written as one application. -/
def trPlus (fa : FiniteAutomaton) (x : RegexOps) (s a : Nat) : FiniteAutomaton :=
  traverseRegex (((((fa.addState).1.addState).1.addTransition s AutomatonTransition.epsilon fa.last_state).addTransition (fa.last_state + 1) AutomatonTransition.epsilon a).addTransition (fa.last_state + 1) AutomatonTransition.epsilon fa.last_state) x fa.last_state (fa.last_state + 1)

/-- Outcome of the recursive-descent parser: `parse` collapses the two
`report_error` panics (by message), `fuelOut` is exhaustion of the explicit
fuel (never hit with the fuel `from_string` supplies). -/
inductive ParseErr where
  | unexpectedEnd
  | expectedParen
  | fuelOut
deriving DecidableEq, Repr

/-- `RegexParser::parse_symbol`: `1` is ε, any other code point is a literal,
end of input is an error. -/
def parseSymbol (e : List Char) (pos : Nat) : Except ParseErr (RegexOps × Nat) :=
  match e.get? pos with
  | some c => if c = '1' then Except.ok (RegexOps.epsilon, pos + 1)
      else Except.ok (RegexOps.symbol c, pos + 1)
  | none => Except.error ParseErr.unexpectedEnd

/-- The postfix-operator loop of `RegexParser::parse_repeat`. -/
def parseRepeatSuffix (e : List Char) : Nat → RegexOps → Nat → RegexOps × Nat
  | 0, ret, pos => (ret, pos)
  | fuel + 1, ret, pos =>
    match e.get? pos with
    | some '*' => parseRepeatSuffix e fuel (RegexOps.noneOrMore ret) (pos + 1)
    | some '?' => parseRepeatSuffix e fuel (RegexOps.noneOrOnce ret) (pos + 1)
    | some '+' => parseRepeatSuffix e fuel (RegexOps.onceOrMore ret) (pos + 1)
    | _ => (ret, pos)

mutual

/-- `RegexParser::parse_either`. -/
def parseEither (e : List Char) (pos : Nat) (fuel : Nat) : Except ParseErr (RegexOps × Nat) :=
  match fuel with
  | 0 => Except.error ParseErr.fuelOut
  | fuel + 1 => do
    let (left, pos1) ← parseConsecutive e pos fuel
    parseEitherLoop e left pos1 fuel
termination_by structural fuel

/-- The `'|'` loop of `parse_either`. -/
def parseEitherLoop (e : List Char) (left : RegexOps) (pos : Nat) (fuel : Nat) :
    Except ParseErr (RegexOps × Nat) :=
  match fuel with
  | 0 => Except.error ParseErr.fuelOut
  | fuel + 1 =>
    match e.get? pos with
    | some '|' => do
      let (right, pos1) ← parseConsecutive e (pos + 1) fuel
      parseEitherLoop e (RegexOps.either left right) pos1 fuel
    | _ => Except.ok (left, pos)
termination_by structural fuel

/-- `RegexParser::parse_consecutive`. -/
def parseConsecutive (e : List Char) (pos : Nat) (fuel : Nat) :
    Except ParseErr (RegexOps × Nat) :=
  match fuel with
  | 0 => Except.error ParseErr.fuelOut
  | fuel + 1 => do
    let (left, pos1) ← parseRepeat e pos fuel
    parseConsecutiveLoop e left pos1 fuel
termination_by structural fuel

/-- The implicit-concatenation loop of `parse_consecutive`: continue only on
an alphabetic code point or `'('`. -/
def parseConsecutiveLoop (e : List Char) (left : RegexOps) (pos : Nat) (fuel : Nat) :
    Except ParseErr (RegexOps × Nat) :=
  match fuel with
  | 0 => Except.error ParseErr.fuelOut
  | fuel + 1 =>
    match e.get? pos with
    | some c =>
      if c.isAlpha ∨ c = '(' then do
        let (right, pos1) ← parseRepeat e pos fuel
        parseConsecutiveLoop e (RegexOps.consecutive left right) pos1 fuel
      else Except.ok (left, pos)
    | none => Except.ok (left, pos)
termination_by structural fuel

/-- `RegexParser::parse_repeat`. -/
def parseRepeat (e : List Char) (pos : Nat) (fuel : Nat) : Except ParseErr (RegexOps × Nat) :=
  match fuel with
  | 0 => Except.error ParseErr.fuelOut
  | fuel + 1 => do
    let (ret, pos1) ← parsePriority e pos fuel
    Except.ok (parseRepeatSuffix e (e.length + 1) ret pos1)
termination_by structural fuel

/-- `RegexParser::parse_priority`: a parenthesised group or a symbol.  A
missing `')'` is the `report_error` panic. -/
def parsePriority (e : List Char) (pos : Nat) (fuel : Nat) : Except ParseErr (RegexOps × Nat) :=
  match fuel with
  | 0 => Except.error ParseErr.fuelOut
  | fuel + 1 =>
    match e.get? pos with
    | some '(' => do
      let (ret, pos1) ← parseEither e (pos + 1) fuel
      match e.get? pos1 with
      | some ')' => Except.ok (ret, pos1 + 1)
      | _ => Except.error ParseErr.expectedParen
    | _ => parseSymbol e pos
termination_by structural fuel

end

/-- `Regex::from_string`: strip whitespace, then `get_regex` wraps the result
of `parse_either` as the root; trailing unconsumed input is ignored.  Rust
`char::is_whitespace` agrees with `Char.isWhitespace` on the ASCII inputs
considered here. -/
def Regex.fromString (s : String) : Except ParseErr Regex :=
  let e := s.data.filter (fun c => ¬ c.isWhitespace)
  (parseEither e 0 (4 * e.length + 16)).map (fun r => { root := some r.1 })

/-! ### Semantic definitions -/

/-- The targets of state `s` under label `l` (empty when absent). -/
def tgts (fa : FiniteAutomaton) (s : Nat) (l : AutomatonTransition) :
    List Nat :=
  (mapGet? l ((mapGet? s fa.transitions).getD [])).getD []

/-- Modelled from the spec: which words a regex node matches.  `Either` is
union, `Consecutive` concatenation, `NoneOrMore` zero or more copies,
`NoneOrOnce` zero or one copy, `OnceOrMore` one or more copies, `Symbol c`
exactly that code point and `Epsilon` the empty word. -/
inductive Matches : RegexOps → List Char → Prop where
  | eitherL {l r w} : Matches l w → Matches (RegexOps.either l r) w
  | eitherR {l r w} : Matches r w → Matches (RegexOps.either l r) w
  | consecutive {l r w1 w2} : Matches l w1 → Matches r w2 →
      Matches (RegexOps.consecutive l r) (w1 ++ w2)
  | starNil {x} : Matches (RegexOps.noneOrMore x) []
  | starCons {x w1 w2} : Matches x w1 → Matches (RegexOps.noneOrMore x) w2 →
      Matches (RegexOps.noneOrMore x) (w1 ++ w2)
  | optNone {x} : Matches (RegexOps.noneOrOnce x) []
  | optOne {x w} : Matches x w → Matches (RegexOps.noneOrOnce x) w
  | plus {x w1 w2} : Matches x w1 → Matches (RegexOps.noneOrMore x) w2 →
      Matches (RegexOps.onceOrMore x) (w1 ++ w2)
  | symbol {c} : Matches (RegexOps.symbol c) [c]
  | epsilon : Matches RegexOps.epsilon []

/-- Reachability in an automaton under the standard NFA-with-ε semantics:
`EReach fa s w t` holds when some path from `s` to `t` spells `w`, ε-edges
contributing nothing. -/
inductive EReach (fa : FiniteAutomaton) : Nat → List Char → Nat → Prop where
  | refl (s : Nat) : EReach fa s [] s
  | eps {s t u w} : t ∈ tgts fa s AutomatonTransition.epsilon →
      EReach fa t w u → EReach fa s w u
  | sym {s t u c w} : t ∈ tgts fa s (AutomatonTransition.symbol c) →
      EReach fa t w u → EReach fa s (c :: w) u

/-- Acceptance under the standard NFA-with-ε semantics. -/
def EAccepts (fa : FiniteAutomaton) (w : List Char) : Prop :=
  ∃ s ∈ fa.start_states, ∃ t ∈ fa.accept_states, EReach fa s w t

/-- The edges `traverse_regex` wires for `op` between endpoints `s` and `a`
when the allocation counter stands at `c`, together with the new counter.
This is the compositional description of `traverseRegex`; the two are related
by `traverseRegex_eq_frag` below. -/
def frag : RegexOps → Nat → Nat → Nat →
    List FragEdge × Nat
  | RegexOps.either l r, s, a, c =>
    let ls := c
    let la := c + 1
    let (el, c1) := frag l ls la (c + 2)
    let rs := c1
    let ra := c1 + 1
    let (er, c2) := frag r rs ra (c1 + 2)
    ((s, AutomatonTransition.epsilon, ls) :: (la, AutomatonTransition.epsilon, a) :: el ++
      (s, AutomatonTransition.epsilon, rs) :: (ra, AutomatonTransition.epsilon, a) :: er, c2)
  | RegexOps.consecutive l r, s, a, c =>
    let m := c
    let (el, c1) := frag l s m (c + 1)
    let (er, c2) := frag r m a c1
    (el ++ er, c2)
  | RegexOps.noneOrMore x, s, a, c =>
    let rs := c
    let ra := c + 1
    let (ex, c1) := frag x rs ra (c + 2)
    ((s, AutomatonTransition.epsilon, rs) :: (s, AutomatonTransition.epsilon, a) ::
      (ra, AutomatonTransition.epsilon, a) :: (ra, AutomatonTransition.epsilon, rs) :: ex, c1)
  | RegexOps.noneOrOnce x, s, a, c =>
    let rs := c
    let ra := c + 1
    let (ex, c1) := frag x rs ra (c + 2)
    ((s, AutomatonTransition.epsilon, rs) :: (s, AutomatonTransition.epsilon, a) ::
      (ra, AutomatonTransition.epsilon, a) :: ex, c1)
  | RegexOps.onceOrMore x, s, a, c =>
    let rs := c
    let ra := c + 1
    let (ex, c1) := frag x rs ra (c + 2)
    ((s, AutomatonTransition.epsilon, rs) :: (ra, AutomatonTransition.epsilon, a) ::
      (ra, AutomatonTransition.epsilon, rs) :: ex, c1)
  | RegexOps.symbol ch, s, a, c => ([(s, AutomatonTransition.symbol ch, a)], c)
  | RegexOps.epsilon, s, a, c => ([(s, AutomatonTransition.epsilon, a)], c)

/-- Path spelling `w` inside an explicit edge list. -/
inductive PathIn (E : List FragEdge) : Nat → List Char → Nat → Prop where
  | refl (s : Nat) : PathIn E s [] s
  | eps {s t u w} : (s, AutomatonTransition.epsilon, t) ∈ E →
      PathIn E t w u → PathIn E s w u
  | sym {s t u c w} : (s, AutomatonTransition.symbol c, t) ∈ E →
      PathIn E t w u → PathIn E s (c :: w) u

/-- `PathIn` with an explicit step count, for well-founded descent through
ε-cycles of the Thompson fragment. -/
inductive PathInN (E : List FragEdge) : Nat → Nat → List Char → Nat → Prop where
  | refl (s : Nat) : PathInN E 0 s [] s
  | eps {n s t u w} : (s, AutomatonTransition.epsilon, t) ∈ E →
      PathInN E n t w u → PathInN E (n + 1) s w u
  | sym {n s t u c w} : (s, AutomatonTransition.symbol c, t) ∈ E →
      PathInN E n t w u → PathInN E (n + 1) s (c :: w) u

/-- How a call of `traverseRegex` (or one of its building blocks) extends the
automaton it is given: endpoint data untouched, the allocation counter only
grows, the fresh keys fill exactly the allocated interval, and the transition
relation gains exactly the edges `E`. -/
structure TRExt (fa fa' : FiniteAutomaton) (E : List FragEdge) : Prop where
  sorted : fa'.SortedTrans
  kb : ∀ u ∈ fa'.transitions.map Prod.fst, u < fa'.last_state
  last_ge : fa.last_state ≤ fa'.last_state
  starts : fa'.start_states = fa.start_states
  accepts : fa'.accept_states = fa.accept_states
  keys : ∀ u, u ∈ fa'.transitions.map Prod.fst ↔
    u ∈ fa.transitions.map Prod.fst ∨ (fa.last_state ≤ u ∧ u < fa'.last_state)
  tg : ∀ u l t, t ∈ tgts fa' u l ↔ t ∈ tgts fa u l ∨ (u, l, t) ∈ E

/-- An ε-path of at least one edge whose intermediate states all satisfy `P`;
this is the path shape the Floyd–Warshall closure computes. -/
inductive EVia (fa : FiniteAutomaton) (P : Nat → Prop) :
    Nat → Nat → Prop where
  | single {i j} : j ∈ tgts fa i AutomatonTransition.epsilon → EVia fa P i j
  | cons {i k j} : k ∈ tgts fa i AutomatonTransition.epsilon → P k →
      EVia fa P k j → EVia fa P i j

/-- The pure step of `collectTrans` (its `foldlM` body once the row lookup is
known to succeed): update the accept flag and merge the row into
`dfa_nfa_trans`. -/
def collectStep (nfa : FiniteAutomaton) (st : Bool × AutomatonTransitionList)
    (s : Nat) : Bool × AutomatonTransitionList :=
  (st.1 || nfa.accept_states.contains s,
    ((mapGet? s nfa.transitions).getD []).foldl
      (fun d e => mapUpdate e.1 [] (fun cur => setUnion cur e.2) d) st.2)

/-- Does some state of `S` have an entry for symbol `c`?  Exactly when this
holds does `dfa_nfa_trans` carry a `c`-entry for the popped subset `S`. -/
def KeyExists (nfa : FiniteAutomaton) (S : List Nat) (c : Char) : Prop :=
  ∃ s ∈ S, (mapGet? (AutomatonTransition.symbol c)
    ((mapGet? s nfa.transitions).getD [])).isSome = true

instance (nfa : FiniteAutomaton) (S : List Nat) (c : Char) :
    Decidable (KeyExists nfa S c) := by
  unfold KeyExists; infer_instance

/-- The loop invariant of `to_dfa` relating the DFA under construction, the
worklist and the two subset maps to the input NFA. -/
structure DfaInv (N : FiniteAutomaton) (st : ToDfaState) : Prop where
  start_eq : st.dfa.start_states = [0]
  map_keys : st.mapping.map Prod.fst = (List.range st.dfa.last_state).reverse
  map_rev : ∀ i S, (i, S) ∈ st.mapping ↔ (S, i) ∈ st.reverse
  subs_sorted : ∀ p ∈ st.mapping, (p.2 : List Nat).Sorted (· < ·)
  subs_closed : ∀ p ∈ st.mapping, ∀ s ∈ p.2, (mapGet? s N.transitions).isSome = true
  subs_nodup : (st.mapping.map Prod.snd).Nodup
  start_mapped : ((0 : Nat), N.start_states) ∈ st.mapping
  queue_bound : ∀ i ∈ st.queue, i < st.dfa.last_state
  covered : ∀ i, i < st.dfa.last_state → i ∈ st.used ∨ i ∈ st.queue
  used_bound : ∀ i ∈ st.used, i < st.dfa.last_state
  dfa_sorted : st.dfa.SortedTrans
  dfa_keys : ∀ i, i < st.dfa.last_state → (mapGet? i st.dfa.transitions).isSome = true
  dfa_keys_bound : ∀ i ∈ st.dfa.transitions.map Prod.fst, i < st.dfa.last_state
  dfa_entries : ∀ p ∈ st.dfa.transitions, ∀ e ∈ p.2,
    (∃ c, e.1 = AutomatonTransition.symbol c) ∧ ∃ d, e.2 = [d] ∧ d < st.dfa.last_state
  unprocessed_empty : ∀ i, i ∉ st.used → ∀ l, tgts st.dfa i l = []
  unprocessed_nonacc : ∀ i, i ∉ st.used → i ∉ st.dfa.accept_states
  processed : ∀ i ∈ st.used, ∃ S, (i, S) ∈ st.mapping ∧
    ((i ∈ st.dfa.accept_states) ↔ ∃ s ∈ S, s ∈ N.accept_states) ∧
    ∀ c : Char,
      (KeyExists N S c →
        ∃ d, tgts st.dfa i (AutomatonTransition.symbol c) = [d] ∧
          (d, N.stepSet S c) ∈ st.mapping) ∧
      (¬ KeyExists N S c → tgts st.dfa i (AutomatonTransition.symbol c) = [])

/-- What survives of the invariant once the worklist is empty: everything the
language and determinism arguments need about the finished DFA. -/
structure DfaPost (N D : FiniteAutomaton)
    (mapping : List (Nat × List Nat)) : Prop where
  start_eq : D.start_states = [0]
  start_mapped : ((0 : Nat), N.start_states) ∈ mapping
  map_nodup : (mapping.map Prod.fst).Nodup
  dfa_keys : ∀ p ∈ mapping, (mapGet? p.1 D.transitions).isSome = true
  dfa_entries : ∀ p ∈ D.transitions, ∀ e ∈ p.2,
    (∃ c, e.1 = AutomatonTransition.symbol c) ∧
    ∃ d, e.2 = [d] ∧ (mapGet? d D.transitions).isSome = true
  processed : ∀ p ∈ mapping, ((p.1 ∈ D.accept_states) ↔ ∃ s ∈ p.2, s ∈ N.accept_states) ∧
    ∀ c : Char,
      (KeyExists N p.2 c →
        ∃ d, tgts D p.1 (AutomatonTransition.symbol c) = [d] ∧
          (d, N.stepSet p.2 c) ∈ mapping) ∧
      (¬ KeyExists N p.2 c → tgts D p.1 (AutomatonTransition.symbol c) = [])

/-- The invariant of the inner `toDfaEdges` fold while the edges of the popped
state `curr` are being installed; `base` is the loop state when the fold
started. -/
structure EdgeInv (N : FiniteAutomaton) (curr : Nat)
    (base : ToDfaState) (st : ToDfaState) : Prop where
  map_keys : st.mapping.map Prod.fst = (List.range st.dfa.last_state).reverse
  map_rev : ∀ i S, (i, S) ∈ st.mapping ↔ (S, i) ∈ st.reverse
  subs_sorted : ∀ p ∈ st.mapping, (p.2 : List Nat).Sorted (· < ·)
  subs_closed : ∀ p ∈ st.mapping, ∀ s ∈ p.2, (mapGet? s N.transitions).isSome = true
  subs_nodup : (st.mapping.map Prod.snd).Nodup
  map_mono : ∀ p ∈ base.mapping, p ∈ st.mapping
  ls_mono : base.dfa.last_state ≤ st.dfa.last_state
  curr_lt : curr < st.dfa.last_state
  used_eq : st.used = base.used
  queue_len : st.queue.length + base.dfa.last_state =
    base.queue.length + st.dfa.last_state
  queue_bound : ∀ i ∈ st.queue, i < st.dfa.last_state
  covered : ∀ i, i < st.dfa.last_state → i = curr ∨ i ∈ st.used ∨ i ∈ st.queue
  start_eq : st.dfa.start_states = base.dfa.start_states
  accept_eq : st.dfa.accept_states = base.dfa.accept_states
  dfa_sorted : st.dfa.SortedTrans
  dfa_keys : ∀ i, i < st.dfa.last_state → (mapGet? i st.dfa.transitions).isSome = true
  dfa_keys_bound : ∀ i ∈ st.dfa.transitions.map Prod.fst, i < st.dfa.last_state
  dfa_entries : ∀ p ∈ st.dfa.transitions, ∀ e ∈ p.2,
    (∃ c, e.1 = AutomatonTransition.symbol c) ∧ ∃ d, e.2 = [d] ∧ d < st.dfa.last_state
  others_tgts : ∀ i, i ≠ curr → ∀ l, tgts st.dfa i l = tgts base.dfa i l

/-! ### Concrete automata used as test inputs -/

/-- An ε-free automaton whose start state is a key of `transitions` but whose
transition target `5` is not. -/
def exMissingTarget : FiniteAutomaton :=
  ⟨6, [0], [5], [(0, [(AutomatonTransition.symbol 'a', [5])])]⟩

/-- An ε-free automaton accepting `a a` in which, querying for words without
`'b'`, the pruned branch `0 --b--> 1` ends a BFS level. -/
def exPruneLevel : FiniteAutomaton :=
  ⟨4, [0], [3],
    [(0, [(AutomatonTransition.symbol 'a', [2]), (AutomatonTransition.symbol 'b', [1])]),
     (1, []), (2, [(AutomatonTransition.symbol 'a', [3])]), (3, [])]⟩

/-- Two start states, the first of which is accepting. -/
def exTwoStarts : FiniteAutomaton := ⟨2, [0, 1], [0], [(0, []), (1, [])]⟩

/-- A start state that is not a key of `transitions`. -/
def exLooseStart : FiniteAutomaton := ⟨6, [5], [], []⟩

/-- A DFA (in the sense of invariant I5) with an `'a'`-entry whose target set
is empty. -/
def exEmptyTargets : FiniteAutomaton :=
  ⟨1, [0], [], [(0, [(AutomatonTransition.symbol 'a', [])])]⟩

/-- A well-formed two-state DFA over `{'a'}`. -/
def exSmallDfa : FiniteAutomaton :=
  ⟨2, [0], [1], [(0, [(AutomatonTransition.symbol 'a', [1])]), (1, [])]⟩

/-- A total one-state DFA over `{'a'}` in which every state is accepting. -/
def exAllAccept : FiniteAutomaton :=
  ⟨1, [0], [0], [(0, [(AutomatonTransition.symbol 'a', [0])])]⟩

/-- A one-state automaton with an ε self-loop. -/
def exEpsLoop : FiniteAutomaton :=
  ⟨2, [0], [1], [(0, [(AutomatonTransition.epsilon, [1])]), (1, [])]⟩

/-! ## Lemmas about the ordered-container model -/

theorem mem_setInsert {α : Type} [LinearOrder α] (x a : α) (l : List α) :
    a ∈ setInsert x l ↔ a = x ∨ a ∈ l := by
  induction l with
  | nil => simp [setInsert]
  | cons y ys ih =>
    simp only [setInsert]
    split_ifs with h1 h2
    · simp only [List.mem_cons]
    · subst h2
      simp only [List.mem_cons]
      tauto
    · simp only [List.mem_cons, ih]
      tauto

theorem sorted_setInsert {α : Type} [LinearOrder α] (x : α) (l : List α)
    (h : l.Sorted (· < ·)) : (setInsert x l).Sorted (· < ·) := by
  induction l with
  | nil => simp [setInsert]
  | cons y ys ih =>
    rw [List.sorted_cons] at h
    obtain ⟨hy, hys⟩ := h
    by_cases h1 : x < y
    · simp only [setInsert, if_pos h1]
      refine List.sorted_cons.2 ⟨?_, List.sorted_cons.2 ⟨hy, hys⟩⟩
      intro b hb
      rcases List.mem_cons.1 hb with rfl | hb
      · exact h1
      · exact h1.trans (hy b hb)
    · by_cases h2 : x = y
      · subst h2
        have hrw : setInsert x (x :: ys) = x :: ys := by
          simp only [setInsert, if_neg h1, eq_self_iff_true, if_true]
        rw [hrw]
        exact List.sorted_cons.2 ⟨hy, hys⟩
      · simp only [setInsert, if_neg h1, if_neg h2]
        refine List.sorted_cons.2 ⟨?_, ih hys⟩
        intro b hb
        rcases (mem_setInsert x b ys).1 hb with rfl | hb
        · exact lt_of_le_of_ne (not_lt.1 h1) (Ne.symm h2)
        · exact hy b hb

theorem setUnion_cons {α : Type} [LinearOrder α] (acc : List α) (x : α) (xs : List α) :
    setUnion acc (x :: xs) = setUnion (setInsert x acc) xs := rfl

theorem mem_setUnion {α : Type} [LinearOrder α] (acc xs : List α) (a : α) :
    a ∈ setUnion acc xs ↔ a ∈ acc ∨ a ∈ xs := by
  induction xs generalizing acc with
  | nil => simp [setUnion]
  | cons x xs ih =>
    rw [setUnion_cons, ih, mem_setInsert]
    simp only [List.mem_cons]
    tauto

theorem sorted_setUnion {α : Type} [LinearOrder α] (acc xs : List α)
    (h : acc.Sorted (· < ·)) : (setUnion acc xs).Sorted (· < ·) := by
  induction xs generalizing acc with
  | nil => exact h
  | cons x xs ih => exact setUnion_cons acc x xs ▸ ih _ (sorted_setInsert x acc h)

theorem setFromList_eq_setUnion {α : Type} [LinearOrder α] (l : List α) :
    setFromList l = setUnion [] l := rfl

theorem mem_setFromList {α : Type} [LinearOrder α] (l : List α) (a : α) :
    a ∈ setFromList l ↔ a ∈ l := by
  rw [setFromList_eq_setUnion, mem_setUnion]
  simp

theorem sorted_setFromList {α : Type} [LinearOrder α] (l : List α) :
    (setFromList l).Sorted (· < ·) := by
  rw [setFromList_eq_setUnion]
  exact sorted_setUnion [] l (by simp)

/-- Two strictly sorted lists with the same members are equal. -/
theorem sorted_ext {α : Type} [LinearOrder α] {l1 l2 : List α}
    (h1 : l1.Sorted (· < ·)) (h2 : l2.Sorted (· < ·))
    (h : ∀ a, a ∈ l1 ↔ a ∈ l2) : l1 = l2 :=
  List.eq_of_perm_of_sorted ((List.perm_ext_iff_of_nodup h1.nodup h2.nodup).2 h) h1 h2

theorem setFromList_eq_self {α : Type} [LinearOrder α] {l : List α}
    (h : l.Sorted (· < ·)) : setFromList l = l :=
  sorted_ext (sorted_setFromList l) h (fun a => mem_setFromList l a)

/-- Field-wise extensionality for the automaton structure. -/
theorem faExt {a b : FiniteAutomaton} (h1 : a.last_state = b.last_state)
    (h2 : a.start_states = b.start_states) (h3 : a.accept_states = b.accept_states)
    (h4 : a.transitions = b.transitions) : a = b := by
  cases a; cases b; simp_all

/-! ## Claim C6: complement -/

/-- Claim C6: for every automaton whose accept states are a subset of its
transition-map keys, `to_complement` replaces `accept_states` with the set of
non-accepting states, leaves `start_states`, `transitions` and `last_state`
unchanged, and applying it twice restores the automaton exactly.  The two
sortedness hypotheses are the representation invariants of Rust's `BTreeSet`
and `BTreeMap`. -/
theorem toComplement_involutive (fa : FiniteAutomaton)
    (hacc : fa.accept_states.Sorted (· < ·))
    (hsub : ∀ s ∈ fa.accept_states, s ∈ fa.transitions.map Prod.fst) :
    (∀ a, a ∈ fa.toComplement.accept_states ↔
      a ∈ fa.transitions.map Prod.fst ∧ a ∉ fa.accept_states) ∧
    fa.toComplement.start_states = fa.start_states ∧
    fa.toComplement.transitions = fa.transitions ∧
    fa.toComplement.last_state = fa.last_state ∧
    fa.toComplement.toComplement = fa := by
  have hmem1 : ∀ a, a ∈ fa.toComplement.accept_states ↔
      a ∈ fa.transitions.map Prod.fst ∧ a ∉ fa.accept_states := by
    intro a
    simp only [FiniteAutomaton.toComplement, mem_setFromList, List.mem_filter,
      decide_not, Bool.not_eq_true', List.elem_iff, decide_eq_false_iff_not]
  have hsorted1 : fa.toComplement.accept_states.Sorted (· < ·) := by
    simp only [FiniteAutomaton.toComplement]
    exact sorted_setFromList _
  refine ⟨hmem1, rfl, rfl, rfl, ?_⟩
  refine faExt rfl rfl ?_ rfl
  have hmem2 : ∀ a, a ∈ fa.toComplement.toComplement.accept_states ↔ a ∈ fa.accept_states := by
    intro a
    have h3 : ∀ b, b ∈ fa.toComplement.toComplement.accept_states ↔
        b ∈ fa.toComplement.transitions.map Prod.fst ∧
          b ∉ fa.toComplement.accept_states := by
      intro b
      simp only [FiniteAutomaton.toComplement, mem_setFromList, List.mem_filter,
        decide_not, Bool.not_eq_true', List.elem_iff, decide_eq_false_iff_not]
    rw [h3 a]
    show a ∈ fa.transitions.map Prod.fst ∧ ¬ (a ∈ fa.toComplement.accept_states) ↔ _
    rw [hmem1 a]
    constructor
    · rintro ⟨hk, hn⟩
      by_contra hna
      exact hn ⟨hk, hna⟩
    · intro ha
      exact ⟨hsub a ha, fun h => h.2 ha⟩
  exact sorted_ext (by
    simp only [FiniteAutomaton.toComplement]
    exact sorted_setFromList _) hacc hmem2

/-- Witness for C6: the double complement of a concrete automaton is itself. -/
theorem toComplement_involutive_witness :
    exSmallDfa.toComplement.toComplement = exSmallDfa ∧
      exSmallDfa.toComplement.accept_states = [0] :=
  ⟨(toComplement_involutive exSmallDfa (by decide) (by decide)).2.2.2.2, by decide⟩

/-! ## The membership simulation (`accepts_word`) -/

theorem mapGet?_eq_some_mem {κ β : Type} [DecidableEq κ] {k : κ} {v : β}
    {m : List (κ × β)} (h : mapGet? k m = some v) : (k, v) ∈ m := by
  induction m with
  | nil => simp [mapGet?] at h
  | cons p rest ih =>
    obtain ⟨k', v'⟩ := p
    by_cases hk : k = k'
    · subst hk
      simp only [mapGet?, eq_self_iff_true, if_true, Option.some.injEq] at h
      subst h
      exact List.mem_cons_self _ _
    · simp only [mapGet?, if_neg hk] at h
      exact List.mem_cons_of_mem _ (ih h)

/-- Members of a target list are transition targets, hence keys when the
automaton is target-closed. -/
theorem tgts_closed {fa : FiniteAutomaton} (htgt : fa.TargetsClosed)
    {s t : Nat} {l : AutomatonTransition} (h : t ∈ tgts fa s l) :
    (mapGet? t fa.transitions).isSome = true := by
  unfold tgts at h
  cases hrow : mapGet? s fa.transitions with
  | none => rw [hrow] at h; simp [mapGet?] at h
  | some row =>
    rw [hrow] at h
    simp only [Option.getD_some] at h
    cases htos : mapGet? l row with
    | none => rw [htos] at h; simp at h
    | some tos =>
      rw [htos] at h
      simp only [Option.getD_some] at h
      exact htgt _ (mapGet?_eq_some_mem hrow) _ (mapGet?_eq_some_mem htos) _ h

theorem mem_stepFun {fa : FiniteAutomaton} {c : Char} {next : List Nat}
    {s t : Nat} :
    t ∈ fa.stepFun c next s ↔ t ∈ next ∨ t ∈ tgts fa s (AutomatonTransition.symbol c) := by
  unfold FiniteAutomaton.stepFun tgts
  cases h : mapGet? (AutomatonTransition.symbol c) ((mapGet? s fa.transitions).getD []) with
  | none => simp
  | some tos => simp [mem_setUnion]

theorem mem_foldl_stepFun (fa : FiniteAutomaton) (c : Char) :
    ∀ (curr acc : List Nat) (t : Nat),
      t ∈ curr.foldl (fa.stepFun c) acc ↔
        t ∈ acc ∨ ∃ s ∈ curr, t ∈ tgts fa s (AutomatonTransition.symbol c) := by
  intro curr
  induction curr with
  | nil => simp
  | cons s rest ih =>
    intro acc t
    rw [List.foldl_cons, ih, mem_stepFun]
    simp only [List.mem_cons]
    constructor
    · rintro (((h | h) | ⟨u, hu, ht⟩))
      · exact Or.inl h
      · exact Or.inr ⟨s, Or.inl rfl, h⟩
      · exact Or.inr ⟨u, Or.inr hu, ht⟩
    · rintro (h | ⟨u, (rfl | hu), ht⟩)
      · exact Or.inl (Or.inl h)
      · exact Or.inl (Or.inr ht)
      · exact Or.inr ⟨u, hu, ht⟩

theorem mem_stepSet {fa : FiniteAutomaton} {c : Char} {curr : List Nat}
    {t : Nat} :
    t ∈ fa.stepSet curr c ↔ ∃ s ∈ curr, t ∈ tgts fa s (AutomatonTransition.symbol c) := by
  rw [FiniteAutomaton.stepSet, mem_foldl_stepFun]
  simp

theorem wordFun_eq_stepFun {fa : FiniteAutomaton} {sym : Char}
    {next : List Nat} {s : Nat}
    (h : (mapGet? s fa.transitions).isSome = true) :
    fa.wordFun sym next s = some (fa.stepFun sym next s) := by
  obtain ⟨row, hrow⟩ := Option.isSome_iff_exists.1 h
  unfold FiniteAutomaton.wordFun FiniteAutomaton.stepFun
  rw [hrow]
  simp only [Option.getD_some]
  cases mapGet? (AutomatonTransition.symbol sym) row <;> rfl

theorem wordStep_eq_stepSet (fa : FiniteAutomaton) (sym : Char) :
    ∀ (curr acc : List Nat),
      (∀ s ∈ curr, (mapGet? s fa.transitions).isSome = true) →
      curr.foldlM (fa.wordFun sym) acc = some (curr.foldl (fa.stepFun sym) acc) := by
  intro curr
  induction curr with
  | nil => intro acc _; rfl
  | cons s rest ih =>
    intro acc h
    rw [List.foldlM_cons, wordFun_eq_stepFun (h s (List.mem_cons_self s rest))]
    exact ih _ (fun u hu => h u (List.mem_cons_of_mem s hu))

theorem runSet_nil_start (fa : FiniteAutomaton) (w : List Char) :
    fa.runSet [] w = [] := by
  induction w with
  | nil => rfl
  | cons c rest ih => exact ih

theorem runSet_append (fa : FiniteAutomaton) (curr : List Nat)
    (w1 w2 : List Char) :
    fa.runSet curr (w1 ++ w2) = fa.runSet (fa.runSet curr w1) w2 :=
  List.foldl_append _ _ _ _

/-- What the membership loop computes: under target-closure, starting from a
set of keys, `accepts_word` returns whether the run set after the whole word
meets the accept set. -/
theorem acceptsWordFrom_eq (fa : FiniteAutomaton)
    (htgt : ∀ s l t, t ∈ tgts fa s l → (mapGet? t fa.transitions).isSome = true) :
    ∀ (w : List Char) (curr : List Nat),
      (∀ s ∈ curr, (mapGet? s fa.transitions).isSome = true) →
      fa.acceptsWordFrom w curr =
        some ((fa.runSet curr w).any (fun s => fa.accept_states.contains s)) := by
  intro w
  induction w with
  | nil => intro curr _; rfl
  | cons c rest ih =>
    intro curr h
    have hstep : fa.wordStep curr c = some (fa.stepSet curr c) :=
      wordStep_eq_stepSet fa c curr [] h
    rw [FiniteAutomaton.acceptsWordFrom, hstep]
    dsimp only
    have hclosed : ∀ s ∈ fa.stepSet curr c, (mapGet? s fa.transitions).isSome = true := by
      intro s hs
      obtain ⟨u, _, ht⟩ := mem_stepSet.1 hs
      exact htgt u _ s ht
    by_cases he : (fa.stepSet curr c).isEmpty
    · rw [if_pos he]
      have he' : fa.stepSet curr c = [] := List.isEmpty_iff.1 he
      have : fa.runSet curr (c :: rest) = [] := by
        show fa.runSet (fa.stepSet curr c) rest = []
        rw [he']
        exact runSet_nil_start fa rest
      rw [this]
      rfl
    · rw [if_neg he]
      exact ih (fa.stepSet curr c) hclosed

/-! ## Claim C3: `accepts_word` -/

/-- Counterexample for C3: an ε-free automaton whose start states are all keys
of `transitions`, on which `accepts_word` panics (a transition target is not a
key) instead of simulating the run to `false`. -/
theorem accepts_word_panics_on_missing_target :
    (exMissingTarget.EpsFree ∧ exMissingTarget.StartsClosed) ∧
      exMissingTarget.acceptsWord ['a', 'b'] = none := by
  constructor
  · constructor <;> decide
  · rfl

/-- Claim C3 (amended: the transition targets must also be keys of the
transition map, otherwise the simulation panics): `accepts_word` simulates
the current state set, returns `false` whenever the set is empty before the
end of the input, and accepts exactly when the final set meets
`accept_states`; the empty word is accepted iff a start state accepts. -/
theorem accepts_word_characterisation (fa : FiniteAutomaton) (w : List Char)
    (_heps : fa.EpsFree) (hstart : fa.StartsClosed) (htgt : fa.TargetsClosed) :
    fa.acceptsWord w =
      some ((fa.runSet fa.start_states w).any (fun s => fa.accept_states.contains s)) ∧
    (∀ w1 w2, w = w1 ++ w2 → fa.runSet fa.start_states w1 = [] →
      fa.acceptsWord w = some false) ∧
    fa.acceptsWord [] = some (fa.start_states.any (fun s => fa.accept_states.contains s)) := by
  have hmain : fa.acceptsWord w =
      some ((fa.runSet fa.start_states w).any (fun s => fa.accept_states.contains s)) :=
    acceptsWordFrom_eq fa (fun _ _ _ h => tgts_closed htgt h) w fa.start_states hstart
  refine ⟨hmain, ?_, rfl⟩
  intro w1 w2 hw h1
  rw [hmain, hw, runSet_append, h1, runSet_nil_start]
  rfl

/-- Witness for the amended C3 at a concrete automaton and word. -/
theorem accepts_word_characterisation_witness :
    (exSmallDfa.EpsFree ∧ exSmallDfa.StartsClosed ∧ exSmallDfa.TargetsClosed) ∧
      exSmallDfa.acceptsWord ['a'] = some true := by
  refine ⟨⟨by decide, by decide, by decide⟩, ?_⟩
  rw [(accepts_word_characterisation exSmallDfa ['a'] (by decide) (by decide) (by decide)).1]
  decide

/-! ## Lemmas about `mapUpdate` -/

theorem mapGet?_eq_none_of_not_mem {κ β : Type} [DecidableEq κ] {k : κ}
    {m : List (κ × β)} (h : k ∉ m.map Prod.fst) : mapGet? k m = none := by
  induction m with
  | nil => rfl
  | cons p rest ih =>
    simp only [List.map_cons, List.mem_cons] at h
    push_neg at h
    simp only [mapGet?]
    rw [if_neg]
    · exact ih h.2
    · cases p; exact h.1

theorem mapGet?_isSome_of_mem {κ β : Type} [DecidableEq κ] {k : κ}
    {m : List (κ × β)} (h : k ∈ m.map Prod.fst) : (mapGet? k m).isSome = true := by
  induction m with
  | nil => simp at h
  | cons p rest ih =>
    obtain ⟨k', v⟩ := p
    by_cases hk : k = k'
    · subst hk; simp [mapGet?]
    · simp only [List.map_cons, List.mem_cons] at h
      rcases h with h | h

      · exact absurd h hk
      · simp only [mapGet?, if_neg hk]
        exact ih h

theorem mem_keys_of_isSome {κ β : Type} [DecidableEq κ] {k : κ}
    {m : List (κ × β)} (h : (mapGet? k m).isSome = true) : k ∈ m.map Prod.fst := by
  obtain ⟨v, hv⟩ := Option.isSome_iff_exists.1 h
  exact List.mem_map.2 ⟨(k, v), mapGet?_eq_some_mem hv, rfl⟩

theorem mapGet?_mapUpdate_ne {κ β : Type} [LinearOrder κ] {k' k : κ} (d : β) (f : β → β)
    (m : List (κ × β)) (h : k' ≠ k) : mapGet? k' (mapUpdate k d f m) = mapGet? k' m := by
  induction m with
  | nil => simp [mapUpdate, mapGet?, if_neg h]
  | cons p rest ih =>
    obtain ⟨k0, v⟩ := p
    by_cases h1 : k < k0
    · simp only [mapUpdate, if_pos h1, mapGet?, if_neg h]
    · by_cases h2 : k = k0
      · subst h2
        simp only [mapUpdate, if_neg h1, eq_self_iff_true, if_true, mapGet?, if_neg h]
      · simp only [mapUpdate, if_neg h1, if_neg h2, mapGet?]
        by_cases h3 : k' = k0
        · simp [if_pos h3]
        · simp only [if_neg h3]
          exact ih

theorem mapGet?_mapUpdate_self {κ β : Type} [LinearOrder κ] (k : κ) (d : β) (f : β → β)
    (m : List (κ × β)) (hm : (m.map Prod.fst).Sorted (· < ·)) :
    mapGet? k (mapUpdate k d f m) = some (f ((mapGet? k m).getD d)) := by
  induction m with
  | nil => simp [mapUpdate, mapGet?]
  | cons p rest ih =>
    obtain ⟨k0, v⟩ := p
    simp only [List.map_cons, List.sorted_cons] at hm
    obtain ⟨hk0, hrest⟩ := hm
    by_cases h1 : k < k0
    · have hnm : k ∉ ((k0, v) :: rest).map Prod.fst := by
        simp only [List.map_cons, List.mem_cons]
        push_neg
        refine ⟨ne_of_lt h1, fun hmem => ?_⟩
        exact absurd (h1.trans (hk0 k hmem)) (lt_irrefl k)
      rw [mapGet?_eq_none_of_not_mem hnm]
      simp only [mapUpdate, if_pos h1, mapGet?, eq_self_iff_true, if_true, Option.getD_none]
    · by_cases h2 : k = k0
      · subst h2
        simp only [mapUpdate, if_neg h1, eq_self_iff_true, if_true, mapGet?, Option.getD_some]

      · simp only [mapUpdate, if_neg h1, if_neg h2, mapGet?, if_neg h2]
        exact ih hrest

theorem mem_map_fst_mapUpdate {κ β : Type} [LinearOrder κ] (k a : κ) (d : β) (f : β → β)
    (m : List (κ × β)) :
    a ∈ (mapUpdate k d f m).map Prod.fst ↔ a = k ∨ a ∈ m.map Prod.fst := by
  induction m with
  | nil => simp [mapUpdate]
  | cons p rest ih =>
    obtain ⟨k0, v⟩ := p
    by_cases h1 : k < k0
    · simp only [mapUpdate, if_pos h1, List.map_cons, List.mem_cons]
    · by_cases h2 : k = k0
      · subst h2
        simp only [mapUpdate, if_neg h1, eq_self_iff_true, if_true, List.map_cons,
          List.mem_cons]
        tauto
      · simp only [mapUpdate, if_neg h1, if_neg h2, List.map_cons, List.mem_cons, ih]
        tauto

theorem sorted_map_fst_mapUpdate {κ β : Type} [LinearOrder κ] (k : κ) (d : β) (f : β → β)
    (m : List (κ × β)) (hm : (m.map Prod.fst).Sorted (· < ·)) :
    ((mapUpdate k d f m).map Prod.fst).Sorted (· < ·) := by
  induction m with
  | nil => simp [mapUpdate]
  | cons p rest ih =>
    obtain ⟨k0, v⟩ := p
    simp only [List.map_cons, List.sorted_cons] at hm
    obtain ⟨hk0, hrest⟩ := hm
    by_cases h1 : k < k0
    · simp only [mapUpdate, if_pos h1, List.map_cons, List.sorted_cons]
      refine ⟨?_, hk0, hrest⟩
      intro b hb
      rcases List.mem_cons.1 hb with rfl | hb
      · exact h1
      · exact h1.trans (hk0 b hb)
    · by_cases h2 : k = k0
      · subst h2
        simp only [mapUpdate, if_neg h1, eq_self_iff_true, if_true, List.map_cons,
          List.sorted_cons]
        exact ⟨hk0, hrest⟩
      · simp only [mapUpdate, if_neg h1, if_neg h2, List.map_cons, List.sorted_cons]
        refine ⟨?_, ih hrest⟩
        intro b hb
        rcases (mem_map_fst_mapUpdate k b d f rest).1 hb with rfl | hb
        · exact lt_of_le_of_ne (not_lt.1 h1) (Ne.symm h2)
        · exact hk0 b hb

theorem mem_mapUpdate {κ β : Type} [LinearOrder κ] {k : κ} {d : β} {f : β → β}
    {m : List (κ × β)} {p : κ × β} (hp : p ∈ mapUpdate k d f m) :
    p ∈ m ∨ p.2 = f d ∨ ∃ v, (p.1, v) ∈ m ∧ p.2 = f v := by
  induction m with
  | nil =>
    simp only [mapUpdate, List.mem_singleton] at hp
    subst hp
    exact Or.inr (Or.inl rfl)
  | cons q rest ih =>
    obtain ⟨k0, v⟩ := q
    by_cases h1 : k < k0
    · simp only [mapUpdate, if_pos h1, List.mem_cons] at hp
      rcases hp with rfl | rfl | hp
      · exact Or.inr (Or.inl rfl)
      · exact Or.inl (List.mem_cons_self _ _)
      · exact Or.inl (List.mem_cons_of_mem _ hp)
    · by_cases h2 : k = k0
      · subst h2
        simp only [mapUpdate, if_neg h1, eq_self_iff_true, if_true, List.mem_cons] at hp
        rcases hp with rfl | hp
        · exact Or.inr (Or.inr ⟨v, List.mem_cons_self _ _, rfl⟩)
        · exact Or.inl (List.mem_cons_of_mem _ hp)

      · simp only [mapUpdate, if_neg h1, if_neg h2, List.mem_cons] at hp
        rcases hp with rfl | hp
        · exact Or.inl (List.mem_cons_self _ _)
        · rcases ih hp with h | h | ⟨v', hv', he⟩
          · exact Or.inl (List.mem_cons_of_mem _ h)
          · exact Or.inr (Or.inl h)
          · exact Or.inr (Or.inr ⟨v', List.mem_cons_of_mem _ hv', he⟩)

theorem setInsert_idem {α : Type} [LinearOrder α] (x : α) (l : List α) :
    setInsert x (setInsert x l) = setInsert x l := by
  induction l with
  | nil => simp [setInsert]
  | cons y ys ih =>
    by_cases h1 : x < y
    · simp only [setInsert, if_pos h1, if_neg (lt_irrefl x), eq_self_iff_true, if_true]
    · by_cases h2 : x = y
      · subst h2
        simp only [setInsert, if_neg h1, eq_self_iff_true, if_true]

      · simp only [setInsert, if_neg h1, if_neg h2, ih]

theorem setInsert_ne_nil {α : Type} [LinearOrder α] (x : α) (l : List α) :
    setInsert x l ≠ [] := by
  cases l with
  | nil => simp [setInsert]
  | cons y ys =>
    simp only [setInsert]
    split_ifs <;> simp

/-! ## Lemmas about `addTransition`, `addState` and `toFull` -/

theorem transitions_addTransition (fa : FiniteAutomaton) (u : Nat)
    (l : AutomatonTransition) (v : Nat) :
    (fa.addTransition u l v).transitions =
      mapUpdate u [] (fun row => mapUpdate l [] (fun tos => setInsert v tos) row)
        fa.transitions := rfl

theorem sorted_row_get (fa : FiniteAutomaton) (hs : fa.SortedTrans) (u : Nat) :
    (((mapGet? u fa.transitions).getD []).map Prod.fst).Sorted (· < ·) := by
  cases hr : mapGet? u fa.transitions with
  | none => simp
  | some row => simpa using hs.2 _ (mapGet?_eq_some_mem hr)

theorem tgts_addTransition (fa : FiniteAutomaton) (u : Nat)
    (l : AutomatonTransition) (v : Nat) (hs : fa.SortedTrans)
    (s : Nat) (m : AutomatonTransition) :
    tgts (fa.addTransition u l v) s m =
      if s = u ∧ m = l then setInsert v (tgts fa u l) else tgts fa s m := by
  by_cases hsu : s = u
  · subst hsu
    have h1 : mapGet? s (fa.addTransition s l v).transitions =
        some (mapUpdate l [] (fun tos => setInsert v tos) ((mapGet? s fa.transitions).getD [])) := by
      rw [transitions_addTransition]
      exact mapGet?_mapUpdate_self s [] _ fa.transitions hs.1
    by_cases hml : m = l
    · subst hml
      rw [if_pos ⟨rfl, rfl⟩]
      unfold tgts
      rw [h1]
      simp only [Option.getD_some]
      rw [mapGet?_mapUpdate_self m [] _ _ (sorted_row_get fa hs s)]
      simp
    · rw [if_neg (fun h => hml h.2)]
      unfold tgts
      rw [h1]
      simp only [Option.getD_some]
      rw [mapGet?_mapUpdate_ne [] _ _ hml]
  · rw [if_neg (fun h => hsu h.1)]
    unfold tgts
    rw [transitions_addTransition, mapGet?_mapUpdate_ne [] _ _ hsu]

theorem sortedTrans_addTransition (fa : FiniteAutomaton) (u : Nat)
    (l : AutomatonTransition) (v : Nat) (hs : fa.SortedTrans) :
    (fa.addTransition u l v).SortedTrans := by
  constructor
  · rw [transitions_addTransition]
    exact sorted_map_fst_mapUpdate _ _ _ _ hs.1
  · intro p hp
    rw [transitions_addTransition] at hp
    rcases mem_mapUpdate hp with h | h | ⟨row, hrow, he⟩
    · exact hs.2 p h
    · rw [h]
      exact sorted_map_fst_mapUpdate _ _ _ [] (by simp)
    · rw [he]
      exact sorted_map_fst_mapUpdate _ _ _ row (by simpa using hs.2 (p.1, row) hrow)

theorem isSome_addTransition (fa : FiniteAutomaton) (u : Nat)
    (l : AutomatonTransition) (v : Nat) (hs : fa.SortedTrans)
    (s : Nat) (h : (mapGet? s fa.transitions).isSome = true) :
    (mapGet? s (fa.addTransition u l v).transitions).isSome = true := by
  by_cases hsu : s = u
  · subst hsu
    rw [transitions_addTransition, mapGet?_mapUpdate_self s [] _ fa.transitions hs.1]
    rfl
  · rw [transitions_addTransition, mapGet?_mapUpdate_ne [] _ _ hsu]
    exact h

theorem toFullRow_cons (sym : AutomatonTransition) (rest : List AutomatonTransition)
    (drain : Nat) (g : FiniteAutomaton)
    (p : Nat × AutomatonTransitionList) :
    FiniteAutomaton.toFullRow (sym :: rest) drain g p =
      FiniteAutomaton.toFullRow rest drain
        (if (mapGet? sym p.2).isSome then g else g.addTransition p.1 sym drain) p := rfl

theorem sortedTrans_toFullRow (drain : Nat)
    (p : Nat × AutomatonTransitionList) :
    ∀ (alphabet : List AutomatonTransition) (g : FiniteAutomaton),
      g.SortedTrans → (FiniteAutomaton.toFullRow alphabet drain g p).SortedTrans := by
  intro alphabet
  induction alphabet with
  | nil => intro g hg; exact hg
  | cons sym rest ih =>
    intro g hg
    rw [toFullRow_cons]
    apply ih
    split_ifs
    · exact hg
    · exact sortedTrans_addTransition _ _ _ _ hg

theorem tgts_toFullRow (drain : Nat)
    (p : Nat × AutomatonTransitionList) (s : Nat)
    (l : AutomatonTransition) :
    ∀ (alphabet : List AutomatonTransition) (g : FiniteAutomaton), g.SortedTrans →
      tgts (FiniteAutomaton.toFullRow alphabet drain g p) s l =
        if p.1 = s ∧ l ∈ alphabet ∧ mapGet? l p.2 = none
        then setInsert drain (tgts g s l) else tgts g s l := by
  intro alphabet
  induction alphabet with
  | nil => intro g _; simp [FiniteAutomaton.toFullRow]
  | cons sym rest ih =>
    intro g hg
    rw [toFullRow_cons]
    by_cases hsym : (mapGet? sym p.2).isSome
    · rw [if_pos hsym, ih g hg]
      by_cases hc : p.1 = s ∧ l ∈ rest ∧ mapGet? l p.2 = none
      · rw [if_pos hc, if_pos ⟨hc.1, List.mem_cons_of_mem _ hc.2.1, hc.2.2⟩]
      · rw [if_neg hc, if_neg ?_]
        intro h
        rcases List.mem_cons.1 h.2.1 with rfl | hmem
        · rw [h.2.2] at hsym; simp at hsym
        · exact hc ⟨h.1, hmem, h.2.2⟩
    · have hnone : mapGet? sym p.2 = none := Option.not_isSome_iff_eq_none.1 hsym
      rw [if_neg hsym, ih _ (sortedTrans_addTransition _ _ _ _ hg)]
      have htg := tgts_addTransition g p.1 sym drain hg
      by_cases hcL : p.1 = s ∧ l ∈ rest ∧ mapGet? l p.2 = none
      · rw [if_pos hcL,
          if_pos (show p.1 = s ∧ l ∈ sym :: rest ∧ mapGet? l p.2 = none from
            ⟨hcL.1, List.mem_cons_of_mem _ hcL.2.1, hcL.2.2⟩)]
        rw [htg s l]
        by_cases hsl : s = p.1 ∧ l = sym
        · rw [if_pos hsl]
          rw [show tgts g p.1 sym = tgts g s l by rw [hsl.1, hsl.2], setInsert_idem]
        · rw [if_neg hsl]
      · rw [if_neg hcL]
        by_cases hcR : p.1 = s ∧ l ∈ sym :: rest ∧ mapGet? l p.2 = none
        · have hls : l = sym := by
            rcases List.mem_cons.1 hcR.2.1 with h | h
            · exact h
            · exact absurd ⟨hcR.1, h, hcR.2.2⟩ hcL
          rw [if_pos hcR, htg s l, if_pos ⟨hcR.1.symm, hls⟩]
          rw [show tgts g p.1 sym = tgts g s l by rw [hcR.1, hls]]
        · rw [if_neg hcR, htg s l, if_neg ?_]
          intro h
          refine hcR ⟨h.1.symm, ?_, ?_⟩
          · rw [h.2]; exact List.mem_cons_self _ _
          · rw [h.2]; exact hnone

theorem sortedTrans_foldl_toFullRow (alphabet : List AutomatonTransition)
    (drain : Nat) :
    ∀ (rows : List (Nat × AutomatonTransitionList)) (g : FiniteAutomaton),
      g.SortedTrans →
      (rows.foldl (FiniteAutomaton.toFullRow alphabet drain) g).SortedTrans := by
  intro rows
  induction rows with
  | nil => intro g hg; exact hg
  | cons p rest ih =>
    intro g hg
    exact ih _ (sortedTrans_toFullRow drain p alphabet g hg)

theorem tgts_foldl_toFullRow (alphabet : List AutomatonTransition)
    (drain s : Nat) (l : AutomatonTransition) :
    ∀ (rows : List (Nat × AutomatonTransitionList)) (g : FiniteAutomaton),
      g.SortedTrans →
      tgts (rows.foldl (FiniteAutomaton.toFullRow alphabet drain) g) s l =
        if (∃ p ∈ rows, p.1 = s ∧ mapGet? l p.2 = none) ∧ l ∈ alphabet
        then setInsert drain (tgts g s l) else tgts g s l := by
  intro rows
  induction rows with
  | nil => intro g _; simp
  | cons p rest ih =>
    intro g hg
    rw [List.foldl_cons, ih _ (sortedTrans_toFullRow drain p alphabet g hg),
        tgts_toFullRow drain p s l alphabet g hg]
    by_cases hcP : p.1 = s ∧ l ∈ alphabet ∧ mapGet? l p.2 = none
    · rw [if_pos hcP]
      have hfull : (∃ q ∈ p :: rest, q.1 = s ∧ mapGet? l q.2 = none) ∧ l ∈ alphabet :=
        ⟨⟨p, List.mem_cons_self _ _, hcP.1, hcP.2.2⟩, hcP.2.1⟩
      by_cases hcR : (∃ q ∈ rest, q.1 = s ∧ mapGet? l q.2 = none) ∧ l ∈ alphabet
      · rw [if_pos hcR, if_pos hfull, setInsert_idem]
      · rw [if_neg hcR, if_pos hfull]
    · rw [if_neg hcP]
      by_cases hcR : (∃ q ∈ rest, q.1 = s ∧ mapGet? l q.2 = none) ∧ l ∈ alphabet
      · obtain ⟨⟨q, hq, hq1, hq2⟩, hl⟩ := hcR
        rw [if_pos ⟨⟨q, hq, hq1, hq2⟩, hl⟩,
            if_pos (show (∃ q ∈ p :: rest, q.1 = s ∧ mapGet? l q.2 = none) ∧ l ∈ alphabet from
              ⟨⟨q, List.mem_cons_of_mem _ hq, hq1, hq2⟩, hl⟩)]
      · rw [if_neg hcR, if_neg ?_]
        rintro ⟨⟨q, hq, hq1, hq2⟩, hl⟩
        rcases List.mem_cons.1 hq with rfl | hqr
        · exact hcP ⟨hq1, hl, hq2⟩
        · exact hcR ⟨⟨q, hqr, hq1, hq2⟩, hl⟩

theorem keys_mono_toFullRow (drain : Nat)
    (p : Nat × AutomatonTransitionList) (a : Nat) :
    ∀ (alphabet : List AutomatonTransition) (g : FiniteAutomaton),
      a ∈ g.transitions.map Prod.fst →
      a ∈ (FiniteAutomaton.toFullRow alphabet drain g p).transitions.map Prod.fst := by
  intro alphabet
  induction alphabet with
  | nil => intro g h; exact h
  | cons sym rest ih =>
    intro g h
    rw [toFullRow_cons]
    apply ih
    split_ifs
    · exact h
    · rw [transitions_addTransition]
      exact (mem_map_fst_mapUpdate _ _ _ _ _).2 (Or.inr h)

theorem keys_bound_toFullRow (drain : Nat)
    (p : Nat × AutomatonTransitionList) (a : Nat) :
    ∀ (alphabet : List AutomatonTransition) (g : FiniteAutomaton),
      a ∈ (FiniteAutomaton.toFullRow alphabet drain g p).transitions.map Prod.fst →
      a = p.1 ∨ a ∈ g.transitions.map Prod.fst := by
  intro alphabet
  induction alphabet with
  | nil => intro g h; exact Or.inr h
  | cons sym rest ih =>
    intro g h
    rw [toFullRow_cons] at h
    rcases ih _ h with h1 | h1
    · exact Or.inl h1
    · by_cases hsym : (mapGet? sym p.2).isSome
      · rw [if_pos hsym] at h1; exact Or.inr h1
      · rw [if_neg hsym, transitions_addTransition] at h1
        rcases (mem_map_fst_mapUpdate _ _ _ _ _).1 h1 with h2 | h2
        · exact Or.inl h2
        · exact Or.inr h2

theorem keys_mono_foldl_toFullRow (alphabet : List AutomatonTransition)
    (drain a : Nat) :
    ∀ (rows : List (Nat × AutomatonTransitionList)) (g : FiniteAutomaton),
      a ∈ g.transitions.map Prod.fst →
      a ∈ (rows.foldl (FiniteAutomaton.toFullRow alphabet drain) g).transitions.map Prod.fst := by
  intro rows
  induction rows with
  | nil => intro g h; exact h
  | cons p rest ih =>
    intro g h
    exact ih _ (keys_mono_toFullRow drain p a alphabet g h)

theorem keys_bound_foldl_toFullRow (alphabet : List AutomatonTransition)
    (drain a : Nat) :
    ∀ (rows : List (Nat × AutomatonTransitionList)) (g : FiniteAutomaton),
      a ∈ (rows.foldl (FiniteAutomaton.toFullRow alphabet drain) g).transitions.map Prod.fst →
      a ∈ g.transitions.map Prod.fst ∨ ∃ p ∈ rows, a = p.1 := by
  intro rows
  induction rows with
  | nil => intro g h; exact Or.inl h
  | cons p rest ih =>
    intro g h
    rcases ih _ h with h1 | ⟨q, hq, rfl⟩
    · rcases keys_bound_toFullRow drain p a alphabet g h1 with h2 | h2
      · exact Or.inr ⟨p, List.mem_cons_self _ _, h2⟩
      · exact Or.inl h2
    · exact Or.inr ⟨q, List.mem_cons_of_mem _ hq, rfl⟩

theorem fields_toFullRow (drain : Nat)
    (p : Nat × AutomatonTransitionList) :
    ∀ (alphabet : List AutomatonTransition) (g : FiniteAutomaton),
      (FiniteAutomaton.toFullRow alphabet drain g p).accept_states = g.accept_states ∧
      (FiniteAutomaton.toFullRow alphabet drain g p).start_states = g.start_states ∧
      (FiniteAutomaton.toFullRow alphabet drain g p).last_state = g.last_state := by
  intro alphabet
  induction alphabet with
  | nil => intro g; exact ⟨rfl, rfl, rfl⟩
  | cons sym rest ih =>
    intro g
    rw [toFullRow_cons]
    rcases ih (if (mapGet? sym p.2).isSome then g else g.addTransition p.1 sym drain) with
      ⟨h1, h2, h3⟩
    refine ⟨h1.trans ?_, h2.trans ?_, h3.trans ?_⟩ <;> split_ifs <;> rfl

theorem fields_foldl_toFullRow (alphabet : List AutomatonTransition)
    (drain : Nat) :
    ∀ (rows : List (Nat × AutomatonTransitionList)) (g : FiniteAutomaton),
      (rows.foldl (FiniteAutomaton.toFullRow alphabet drain) g).accept_states = g.accept_states ∧
      (rows.foldl (FiniteAutomaton.toFullRow alphabet drain) g).start_states = g.start_states ∧
      (rows.foldl (FiniteAutomaton.toFullRow alphabet drain) g).last_state = g.last_state := by
  intro rows
  induction rows with
  | nil => intro g; exact ⟨rfl, rfl, rfl⟩
  | cons p rest ih =>
    intro g
    rcases ih (FiniteAutomaton.toFullRow alphabet drain g p) with ⟨h1, h2, h3⟩
    rcases fields_toFullRow drain p alphabet g with ⟨g1, g2, g3⟩
    exact ⟨h1.trans g1, h2.trans g2, h3.trans g3⟩

theorem toFull_def (fa : FiniteAutomaton) :
    fa.toFull = ((fa.addState).1.transitions).foldl
      (FiniteAutomaton.toFullRow fa.getAlphabet fa.last_state) (fa.addState).1 := rfl

theorem addState_transitions (fa : FiniteAutomaton) :
    (fa.addState).1.transitions = mapInsert fa.last_state [] fa.transitions := rfl

theorem sortedTrans_addState (fa : FiniteAutomaton) (hs : fa.SortedTrans) :
    (fa.addState).1.SortedTrans := by
  constructor
  · rw [addState_transitions]
    exact sorted_map_fst_mapUpdate _ _ _ _ hs.1
  · intro p hp
    rw [addState_transitions] at hp
    rcases mem_mapUpdate hp with h | h | ⟨row, _, he⟩
    · exact hs.2 p h
    · rw [h]; simp
    · rw [he]; simp

theorem tgts_addState (fa : FiniteAutomaton) (hs : fa.SortedTrans)
    (s : Nat) (l : AutomatonTransition) :
    tgts (fa.addState).1 s l = if s = fa.last_state then [] else tgts fa s l := by
  by_cases h : s = fa.last_state
  · rw [if_pos h]
    unfold tgts
    rw [addState_transitions, h]
    rw [show mapInsert fa.last_state ([] : AutomatonTransitionList) fa.transitions =
      mapUpdate fa.last_state [] (fun _ => []) fa.transitions from rfl]
    rw [mapGet?_mapUpdate_self fa.last_state [] _ fa.transitions hs.1]
    simp [mapGet?]
  · rw [if_neg h]
    unfold tgts
    rw [addState_transitions]
    rw [show mapInsert fa.last_state ([] : AutomatonTransitionList) fa.transitions =
      mapUpdate fa.last_state [] (fun _ => []) fa.transitions from rfl]
    rw [mapGet?_mapUpdate_ne [] _ _ h]

theorem mem_mapUpdate_of_ne {κ β : Type} [LinearOrder κ] {k : κ} {d : β} {f : β → β}
    {m : List (κ × β)} {p : κ × β} (hp : p ∈ m) (hne : p.1 ≠ k) :
    p ∈ mapUpdate k d f m := by
  induction m with
  | nil => simp at hp
  | cons q rest ih =>
    obtain ⟨k0, v⟩ := q
    rcases List.mem_cons.1 hp with rfl | hp'
    · by_cases h1 : k < k0
      · simp only [mapUpdate, if_pos h1]
        exact List.mem_cons_of_mem _ (List.mem_cons_self _ _)
      · rw [mapUpdate, if_neg h1, if_neg (fun h => hne h.symm)]
        exact List.mem_cons_self _ _
    · by_cases h1 : k < k0
      · simp only [mapUpdate, if_pos h1]
        exact List.mem_cons_of_mem _ (List.mem_cons_of_mem _ hp')
      · by_cases h2 : k = k0
        · rw [mapUpdate, if_neg h1, if_pos h2]
          exact List.mem_cons_of_mem _ hp'
        · rw [mapUpdate, if_neg h1, if_neg h2]
          exact List.mem_cons_of_mem _ (ih hp')

theorem mem_keys_addState (fa : FiniteAutomaton) (a : Nat) :
    a ∈ (fa.addState).1.transitions.map Prod.fst ↔
      a = fa.last_state ∨ a ∈ fa.transitions.map Prod.fst := by
  rw [addState_transitions]
  exact mem_map_fst_mapUpdate _ _ _ _ _

/-! ## Claim C5: completion (`to_full`) -/

/-- Counterexample for C5: a DFA with an `'a'`-entry whose target set is
empty.  The entry makes `to_full` skip the trap edge for `(0, 'a')`, so state
`0` still has no outgoing `'a'`-transition after completion. -/
theorem to_full_counterexample :
    exEmptyTargets.IsDfa ∧ AutomatonTransition.symbol 'a' ∈ exEmptyTargets.getAlphabet ∧
      0 ∈ exEmptyTargets.toFull.transitions.map Prod.fst ∧
      tgts exEmptyTargets.toFull 0 (AutomatonTransition.symbol 'a') = [] := by
  refine ⟨by decide, by decide, by decide, by decide⟩

/-- Claim C5 (amended: every transition entry must carry at least one target
state, which excludes degenerate rows such as the counterexample's): after
`to_full`, every state including the trap has an outgoing transition on every
symbol of the pre-completion alphabet, the trap has self-loops on every
alphabet symbol and is not an accept state, and the accepted language is
unchanged. -/
theorem to_full_total_and_preserves (fa : FiniteAutomaton)
    (hsort : fa.SortedTrans) (hb : fa.LastStateBound)
    (hstart : fa.StartsClosed) (htgt : fa.TargetsClosed)
    (hne : ∀ p ∈ fa.transitions, ∀ e ∈ p.2, e.2 ≠ []) :
    (∀ s ∈ fa.toFull.transitions.map Prod.fst, ∀ l ∈ fa.getAlphabet,
      tgts fa.toFull s l ≠ []) ∧
    (∀ l ∈ fa.getAlphabet, tgts fa.toFull fa.drainOf l = [fa.drainOf]) ∧
    fa.drainOf ∉ fa.toFull.accept_states ∧
    (∀ w, fa.toFull.acceptsWord w = fa.acceptsWord w) := by
  have hsort1 := sortedTrans_addState fa hsort
  have hdrainkey : mapGet? fa.last_state fa.transitions = none := by
    apply mapGet?_eq_none_of_not_mem
    intro hmem
    obtain ⟨p, hp, hp1⟩ := List.mem_map.1 hmem
    exact absurd (hp1 ▸ (hb.2.2 p hp).1) (lt_irrefl _)
  have htgts_drain : ∀ l, tgts fa fa.last_state l = [] := by
    intro l
    unfold tgts
    rw [hdrainkey]
    simp [mapGet?]
  have htgts1 : ∀ s l, tgts (fa.addState).1 s l = tgts fa s l := by
    intro s l
    rw [tgts_addState fa hsort s l]
    by_cases h : s = fa.last_state
    · rw [if_pos h, h, htgts_drain]
    · rw [if_neg h]
  have hmain : ∀ s l, tgts fa.toFull s l =
      if (∃ p ∈ (fa.addState).1.transitions, p.1 = s ∧ mapGet? l p.2 = none) ∧
          l ∈ fa.getAlphabet
      then setInsert fa.last_state (tgts fa s l) else tgts fa s l := by
    intro s l
    rw [toFull_def, tgts_foldl_toFullRow _ _ _ _ _ _ hsort1, htgts1]
  have hdrow : ((fa.last_state, []) : Nat × AutomatonTransitionList) ∈
      (fa.addState).1.transitions := by
    apply mapGet?_eq_some_mem (m := (fa.addState).1.transitions)
    rw [addState_transitions]
    exact mapGet?_mapUpdate_self _ _ _ _ hsort.1
  have part2 : ∀ l ∈ fa.getAlphabet, tgts fa.toFull fa.drainOf l = [fa.drainOf] := by
    intro l hl
    rw [show fa.drainOf = fa.last_state from rfl, hmain,
      if_pos ⟨⟨(fa.last_state, []), hdrow, rfl, rfl⟩, hl⟩, htgts_drain]
    rfl
  have haccfields := fields_foldl_toFullRow fa.getAlphabet fa.last_state
    (fa.addState).1.transitions (fa.addState).1
  have hacc : fa.toFull.accept_states = fa.accept_states := by
    rw [toFull_def]
    exact haccfields.1
  have hstarteq : fa.toFull.start_states = fa.start_states := by
    rw [toFull_def]
    exact haccfields.2.1
  have part3 : fa.drainOf ∉ fa.toFull.accept_states := by
    rw [hacc]
    intro hmem
    exact absurd (hb.2.1 _ hmem) (lt_irrefl _)
  have part1 : ∀ s ∈ fa.toFull.transitions.map Prod.fst, ∀ l ∈ fa.getAlphabet,
      tgts fa.toFull s l ≠ [] := by
    intro s hsmem l hl
    rw [hmain]
    split_ifs with hc
    · exact setInsert_ne_nil _ _
    · have hkeys : s ∈ (fa.addState).1.transitions.map Prod.fst := by
        rw [toFull_def] at hsmem
        rcases keys_bound_foldl_toFullRow _ _ _ _ _ hsmem with h | ⟨p, hp, rfl⟩
        · exact h
        · exact List.mem_map.2 ⟨p, hp, rfl⟩
      rcases (mem_keys_addState fa s).1 hkeys with rfl | hold
      · exact absurd ⟨⟨(fa.last_state, []), hdrow, rfl, rfl⟩, hl⟩ hc
      · obtain ⟨row, hrow⟩ := Option.isSome_iff_exists.1 (mapGet?_isSome_of_mem hold)
        have hrowmem : (s, row) ∈ fa.transitions := mapGet?_eq_some_mem hrow
        have hsne : s ≠ fa.last_state := fun h =>
          absurd (h ▸ (hb.2.2 _ hrowmem).1) (lt_irrefl _)
        have hrow1 : (s, row) ∈ (fa.addState).1.transitions := by
          rw [addState_transitions]
          exact mem_mapUpdate_of_ne hrowmem hsne
        have hlook : mapGet? l row ≠ none := by
          intro hno
          exact hc ⟨⟨(s, row), hrow1, rfl, hno⟩, hl⟩
        obtain ⟨tos, htos⟩ := Option.ne_none_iff_exists'.1 hlook
        have htg : tgts fa s l = tos := by
          unfold tgts
          rw [hrow, Option.getD_some, htos]
          rfl
        rw [htg]
        exact hne _ hrowmem _ (mapGet?_eq_some_mem htos)
  have fact1 : ∀ s c t, t ∈ tgts fa s (AutomatonTransition.symbol c) →
      t ∈ tgts fa.toFull s (AutomatonTransition.symbol c) := by
    intro s c t ht
    rw [hmain]
    split_ifs
    · exact (mem_setInsert _ _ _).2 (Or.inr ht)
    · exact ht
  have fact2 : ∀ s c t, t ∈ tgts fa.toFull s (AutomatonTransition.symbol c) →
      t ∈ tgts fa s (AutomatonTransition.symbol c) ∨ t = fa.last_state := by
    intro s c t ht
    rw [hmain] at ht
    split_ifs at ht
    · rcases (mem_setInsert _ _ _).1 ht with rfl | h2
      · exact Or.inr rfl
      · exact Or.inl h2
    · exact Or.inl ht
  have hcorr : ∀ (w : List Char) (S S' : List Nat),
      (∀ t, t ∈ S → t ∈ S') → (∀ t, t ∈ S' → t ∈ S ∨ t = fa.last_state) →
      (∀ t, t ∈ fa.runSet S w → t ∈ fa.toFull.runSet S' w) ∧
      (∀ t, t ∈ fa.toFull.runSet S' w → t ∈ fa.runSet S w ∨ t = fa.last_state) := by
    intro w
    induction w with
    | nil => intro S S' h1 h2; exact ⟨h1, h2⟩
    | cons c rest ih =>
      intro S S' h1 h2
      refine ih (fa.stepSet S c) (fa.toFull.stepSet S' c) ?_ ?_
      · intro t ht
        obtain ⟨s, hsS, htgm⟩ := mem_stepSet.1 ht
        exact mem_stepSet.2 ⟨s, h1 s hsS, fact1 s c t htgm⟩
      · intro t ht
        obtain ⟨s, hsS', htgm⟩ := mem_stepSet.1 ht
        rcases fact2 s c t htgm with h3 | h3
        · rcases h2 s hsS' with h4 | h4
          · exact Or.inl (mem_stepSet.2 ⟨s, h4, h3⟩)
          · rw [h4, htgts_drain] at h3
            exact absurd h3 (List.not_mem_nil t)
        · exact Or.inr h3
  have hkeyToFull : ∀ t, t ∈ (fa.addState).1.transitions.map Prod.fst →
      (mapGet? t fa.toFull.transitions).isSome = true := by
    intro t ht
    apply mapGet?_isSome_of_mem
    rw [toFull_def]
    exact keys_mono_foldl_toFullRow _ _ _ _ _ ht
  have hbase : ∀ t', (mapGet? t' fa.transitions).isSome = true →
      (mapGet? t' fa.toFull.transitions).isSome = true := by
    intro t' h
    exact hkeyToFull t' ((mem_keys_addState fa t').2 (Or.inr (mem_keys_of_isSome h)))
  have hTclosed : ∀ s l t, t ∈ tgts fa.toFull s l →
      (mapGet? t fa.toFull.transitions).isSome = true := by
    intro s l t ht
    rw [hmain] at ht
    split_ifs at ht
    · rcases (mem_setInsert _ _ _).1 ht with rfl | h2
      · exact hkeyToFull _ ((mem_keys_addState fa _).2 (Or.inl rfl))
      · exact hbase t (tgts_closed htgt h2)
    · exact hbase t (tgts_closed htgt ht)
  have part4 : ∀ w, fa.toFull.acceptsWord w = fa.acceptsWord w := by
    intro w
    have hl :=
      acceptsWordFrom_eq fa.toFull hTclosed w fa.toFull.start_states (by
        intro s hs
        rw [hstarteq] at hs
        exact hbase s (hstart s hs))
    have hr := acceptsWordFrom_eq fa (fun _ _ _ h => tgts_closed htgt h) w
      fa.start_states hstart
    show fa.toFull.acceptsWordFrom w fa.toFull.start_states =
      fa.acceptsWordFrom w fa.start_states
    rw [hl, hr, hstarteq, hacc]
    have hco := hcorr w fa.start_states fa.start_states (fun t h => h) (fun t h => Or.inl h)
    congr 1
    have hdna : fa.last_state ∉ fa.accept_states := fun hmem =>
      absurd (hb.2.1 _ hmem) (lt_irrefl _)
    have hiff : ((fa.toFull.runSet fa.start_states w).any
        (fun s => fa.accept_states.contains s) = true) ↔
        ((fa.runSet fa.start_states w).any (fun s => fa.accept_states.contains s) = true) := by
      rw [List.any_eq_true, List.any_eq_true]
      constructor
      · rintro ⟨t, ht, hacc'⟩
        rcases hco.2 t ht with h | rfl
        · exact ⟨t, h, hacc'⟩
        · exact absurd (List.elem_iff.1 hacc') hdna
      · rintro ⟨t, ht, hacc'⟩
        exact ⟨t, hco.1 t ht, hacc'⟩
    cases hov : (fa.toFull.runSet fa.start_states w).any
        (fun s => fa.accept_states.contains s) with
    | true =>
      exact (hiff.1 hov).symm
    | false =>
      cases hov2 : (fa.runSet fa.start_states w).any
          (fun s => fa.accept_states.contains s) with
      | true => rw [← hov, hiff.2 hov2]
      | false => rfl
  exact ⟨part1, part2, part3, part4⟩

/-- Witness for the amended C5: completion of a concrete DFA. -/
theorem to_full_total_and_preserves_witness :
    tgts exSmallDfa.toFull exSmallDfa.drainOf (AutomatonTransition.symbol 'a') =
      [exSmallDfa.drainOf] ∧
    exSmallDfa.toFull.acceptsWord ['a', 'a'] = exSmallDfa.acceptsWord ['a', 'a'] := by
  have h := to_full_total_and_preserves exSmallDfa (by decide) (by decide) (by decide)
    (by decide) (by decide)
  exact ⟨h.2.1 _ (by decide), h.2.2.2 ['a', 'a']⟩

/-! ## Claim C9: ε-elimination yields an ε-free automaton -/

theorem epsFree_stripEpsilon (g : FiniteAutomaton) : (stripEpsilon g).EpsFree := by
  intro p hp e he
  obtain ⟨q, _, rfl⟩ := List.mem_map.1 hp
  simpa using (List.mem_filter.1 he).2

theorem epsFree_removeState (g : FiniteAutomaton) (s : Nat)
    (h : g.EpsFree) : (g.removeState s).EpsFree := by
  intro p hp e he
  exact h p (List.mem_filter.1 hp).1 e he

theorem epsFree_foldl_removeState :
    ∀ (l : List Nat) (g : FiniteAutomaton), g.EpsFree →
      (l.foldl FiniteAutomaton.removeState g).EpsFree := by
  intro l
  induction l with
  | nil => intro g h; exact h
  | cons s rest ih => intro g h; exact ih _ (epsFree_removeState g s h)

theorem epsFree_eliminateDead (g : FiniteAutomaton) (h : g.EpsFree) :
    (eliminateDead g).EpsFree :=
  epsFree_foldl_removeState _ g h

/-- Claim C9: whenever `eliminate_epsilon` returns, no `Epsilon` key remains
anywhere in `transitions` (invariant I4): step 4 strips every ε-entry and the
dead-state sweep only removes whole states. -/
theorem eliminate_epsilon_eps_free (fa fa' : FiniteAutomaton)
    (h : eliminateEpsilon fa = some fa') : fa'.EpsFree := by
  unfold eliminateEpsilon at h
  dsimp only at h
  cases hbp : bypassEpsilon (liftAccepts (materializeClosure fa
      (floydWarshall (fa.transitions.map Prod.fst) (closureInit fa)))) with
  | none =>
    rw [hbp] at h
    exact absurd h (by simp)
  | some fa3 =>
    rw [hbp] at h
    cases h
    exact epsFree_eliminateDead _ (epsFree_stripEpsilon fa3)

/-- Witness for C9 at a concrete ε-automaton. -/
theorem eliminate_epsilon_eps_free_witness :
    eliminateEpsilon exEpsLoop = some ⟨2, [0], [0], [(0, [])]⟩ ∧
      (⟨2, [0], [0], [(0, [])]⟩ : FiniteAutomaton).EpsFree :=
  ⟨by decide, eliminate_epsilon_eps_free exEpsLoop _ (by decide)⟩

/-! ## Claim C8: the infix parser on malformed input -/

/-- Counterexample for C8: the input `"*"` — the claim's own example of an
operator with no operand — is silently parsed into the literal tree
`Symbol('*')` instead of failing:  `parse_symbol` treats every code point
other than `'1'` as a literal. -/
theorem parse_star_yields_symbol :
    Regex.fromString "*" = Except.ok ⟨some (RegexOps.symbol '*')⟩ := by rfl

/-- Claim C8 (amended): the parser fails with an error and no tree on an
unexpected end of input and on a `'('` group with a missing `')'`, but an
unmatched `')'` and dangling operators are not errors: a leading operator is
consumed as a literal symbol, and input after an unmatched `')'` is silently
ignored. -/
theorem parse_error_cases :
    Regex.fromString "" = Except.error ParseErr.unexpectedEnd ∧
    Regex.fromString "(a" = Except.error ParseErr.expectedParen ∧
    Regex.fromString "a)b" = Except.ok ⟨some (RegexOps.symbol 'a')⟩ := by
  refine ⟨by rfl, by rfl, by rfl⟩

/-! ## Claim C7: the empty block in `to_minimal` -/

/-- Claim C7 evaluated at the failing input: a total one-state DFA in which
every state is accepting.  The initial partition keeps the empty
non-accepting block, and the rebuild allocates a fresh state (`1`) for it, so
the result has two states, the extra one isolated — the empty block is not
dropped. -/
theorem to_minimal_keeps_empty_block :
    exAllAccept.accept_states = exAllAccept.transitions.map Prod.fst ∧
    toMinimal exAllAccept 50 =
      some ⟨3, [2], [2], [(1, []), (2, [(AutomatonTransition.symbol 'a', [2])])]⟩ := by
  refine ⟨by decide, by decide⟩

/-! ## Claim C4: the counting query -/

set_option maxRecDepth 4000 in
/-- Counterexample for C4: an ε-free automaton with a start state on which a
word with exactly zero `'b'`s is accepted (`"aa"`), yet the query for
`x = 'b'`, `k = 0` underflows the level counter — the pruned branch ends a
BFS level, the `continue` skips the level bookkeeping, and the next pop
decrements `curr_level` below zero — instead of returning `(true, 2)`. -/
theorem min_word_len_panics_on_level_prune :
    exPruneLevel.EpsFree ∧ exPruneLevel.start_states ≠ [] ∧
      exPruneLevel.acceptsWord ['a', 'a'] = some true ∧
      minWordLen exPruneLevel 'b' 0 20 = MwRes.panicLevel := by
  refine ⟨by decide, by decide, by decide, by rfl⟩

set_option maxRecDepth 40000 in
/-- Claim C4 (amended): the claimed behaviour does not hold for every ε-free
automaton (the level counter can underflow when a pruned node ends a BFS
level), but on the concrete ε-free automaton built from the regex `a+b` the
query for `'a'`, `k = 3` does return `(true, 4)`. -/
theorem min_word_len_aplusb :
    (Regex.fromString "a+b").map (fun r =>
      (eliminateEpsilon (fromRegex r)).map (fun g => minWordLen g 'a' 3 50)) =
      Except.ok (some (MwRes.ok true 4)) := by rfl

/-! ## Claim C10: the final `depth - 1` subtraction -/

/-- Counterexample for C10: the final subtraction underflows (`depth = 0` at
the final return) on an automaton with no start state, on one whose
accepting start state is popped with `k = 0` while its level is unfinished,
and on one whose start state is missing from `transitions`. -/
theorem min_word_len_depth_underflow :
    minWordLen FiniteAutomaton.empty 'a' 0 9 = MwRes.panicDepth ∧
    minWordLen exTwoStarts 'a' 0 9 = MwRes.panicDepth ∧
    minWordLen exLooseStart 'a' 1 9 = MwRes.panicDepth := by
  refine ⟨by decide, by decide, by decide⟩

theorem mwLoop_ne_panicDepth (fa : FiniteAutomaton) (x : Char) (k : Nat) (hk : 1 ≤ k)
    (hclosed : fa.StartsClosed) :
    ∀ (fuel : Nat) (st : MwState),
      ((st.depth = 0 ∧ ∃ ss pushed, ss ≠ [] ∧ (∀ s ∈ ss, s ∈ fa.start_states) ∧
        st.queue = ss.map (fun s => ((s, AutomatonTransition.epsilon, 0, 0) : MwNode)) ++
          pushed ∧
        st.currLevel = ss.length) ∨ 1 ≤ st.depth) →
      mwLoop fa x k fuel st ≠ MwRes.panicDepth := by
  intro fuel
  induction fuel with
  | zero => intro st _; simp [mwLoop]
  | succ fuel ih =>
    rintro ⟨q, cl, nl, dp⟩ hinv
    rcases hinv with ⟨hd0, ss, pushed, hss, hmem, hq, hcl⟩ | hd1
    · simp only at hd0 hq hcl
      subst hd0 hq hcl
      cases ss with
      | nil => exact absurd rfl hss
      | cons s0 ss' =>
        have hs0 : s0 ∈ fa.start_states := hmem s0 (List.mem_cons_self _ _)
        obtain ⟨row, hrow⟩ := Option.isSome_iff_exists.1 (hclosed s0 hs0)
        have hlen : 1 ≤ fa.transitions.length := by
          cases htr : fa.transitions with
          | nil => rw [htr] at hrow; exact absurd hrow (by simp [mapGet?])
          | cons a b => simp
        simp only [List.map_cons, List.cons_append, mwLoop, List.length_cons]
        rw [if_neg (Nat.succ_ne_zero ss'.length)]
        dsimp only
        rw [if_neg (show ¬ ((0 : Nat) > k ∨ 0 + 1 > fa.transitions.length) from by
          push_neg
          exact ⟨Nat.zero_le k, by omega⟩)]
        rw [if_neg (show ¬ ((0 : Nat) = k ∧ fa.accept_states.contains s0 = true) from
          fun h => by omega)]
        rw [hrow]
        dsimp only
        have hq2 : (List.map (fun s => ((s, AutomatonTransition.epsilon, 0, 0) : MwNode)) ss' ++
            pushed) ++ (row.foldl (fun acc e =>
              acc ++ e.2.map (fun t => ((t, e.1, 0, 0 + 1) : MwNode))) []) =
            List.map (fun s => ((s, AutomatonTransition.epsilon, 0, 0) : MwNode)) ss' ++
              (pushed ++ row.foldl (fun acc e =>
                acc ++ e.2.map (fun t => ((t, e.1, 0, 0 + 1) : MwNode))) []) :=
          List.append_assoc _ _ _
        cases ss' with
        | nil =>
          rw [if_pos (by simp)]
          apply ih
          right
          simp
        | cons s1 ss'' =>
          rw [if_neg (by simp)]
          apply ih
          left
          refine ⟨rfl, s1 :: ss'',
            pushed ++ row.foldl (fun acc e =>
              acc ++ e.2.map (fun t => ((t, e.1, 0, 0 + 1) : MwNode))) [],
            by simp, ?_, ?_, by simp⟩
          · intro s hsm
            exact hmem s (List.mem_cons_of_mem _ hsm)
          · simp
    · simp only at hd1
      cases q with
      | nil =>
        simp only [mwLoop, mwFinal]
        rw [if_neg (by omega)]
        simp
      | cons node rest =>
        obtain ⟨s, lbl, c0, lm0⟩ := node
        simp only [mwLoop]
        by_cases hcl0 : cl = 0
        · rw [if_pos hcl0]
          simp
        · rw [if_neg hcl0]
          dsimp only
          set cnt : Nat × Nat := (match lbl with
            | AutomatonTransition.symbol c => if c = x then (c0 + 1, 0) else (c0, lm0 + 1)
            | AutomatonTransition.epsilon => (c0, lm0 + 1)) with hcnt
          by_cases hprune : cnt.1 > k ∨ cnt.2 > fa.transitions.length
          · rw [if_pos hprune]
            exact ih _ (Or.inr hd1)
          · rw [if_neg hprune]
            by_cases hfound : cnt.1 = k ∧ fa.accept_states.contains s = true
            · rw [if_pos hfound]
              simp only [mwFinal]
              rw [if_neg (show ¬ dp + (if cl - 1 = 0 then 1 else 0) = 0 by omega)]
              simp
            · rw [if_neg hfound]
              cases hget : mapGet? s fa.transitions with
              | none => simp
              | some row =>
                dsimp only
                by_cases hlast : cl - 1 = 0
                · rw [if_pos hlast]
                  exact ih _ (Or.inr (show 1 ≤ dp + 1 by omega))
                · rw [if_neg hlast]
                  exact ih _ (Or.inr hd1)

/-- Claim C10 (amended: it needs at least one start state, every start state
a key of `transitions`, and `k ≥ 1`): whenever the query reaches its final
return, the accumulated depth is at least 1 and `depth - 1` cannot
underflow.  Without those hypotheses the subtraction underflows, and the
level counter can still underflow mid-search, so the function is not
panic-free in general. -/
theorem min_word_len_final_subtraction_safe (fa : FiniteAutomaton) (x : Char) (k : Nat)
    (fuel : Nat) (hstart : fa.start_states ≠ []) (hclosed : fa.StartsClosed)
    (hk : 1 ≤ k) : minWordLen fa x k fuel ≠ MwRes.panicDepth := by
  unfold minWordLen
  apply mwLoop_ne_panicDepth fa x k hk hclosed
  left
  exact ⟨rfl, fa.start_states, [], hstart, fun s h => h, by simp, rfl⟩

/-- Witness for the amended C10 at a concrete query. -/
theorem min_word_len_final_subtraction_safe_witness :
    minWordLen exSmallDfa 'a' 1 30 ≠ MwRes.panicDepth :=
  min_word_len_final_subtraction_safe exSmallDfa 'a' 1 30 (by decide) (by decide)
    (by decide)

/-! ## Subset construction: auxiliary lemmas -/

theorem mapGet?_eq_some_iff_mem {κ β : Type} [DecidableEq κ] {m : List (κ × β)}
    (hnd : (m.map Prod.fst).Nodup) (k : κ) (v : β) :
    mapGet? k m = some v ↔ (k, v) ∈ m := by
  constructor
  · exact mapGet?_eq_some_mem
  · intro hmem
    induction m with
    | nil => simp at hmem
    | cons p rest ih =>
      obtain ⟨k0, v0⟩ := p
      simp only [List.map_cons, List.nodup_cons] at hnd
      rcases List.mem_cons.1 hmem with heq | hmem'
      · rw [show k = k0 from congrArg Prod.fst heq]
        simp only [mapGet?, eq_self_iff_true, if_true]
        exact congrArg some (congrArg Prod.snd heq).symm ▸ rfl
      · have hk : k ≠ k0 := by
          intro h
          subst h
          exact hnd.1 (List.mem_map.2 ⟨(k, v), hmem', rfl⟩)
        simp only [mapGet?, if_neg hk]
        exact ih hnd.2 hmem'

theorem setUnion_nil {α : Type} [LinearOrder α] (acc : List α) : setUnion acc [] = acc := rfl

/-- A duplicate-free family of strictly sorted lists over a fixed key list has
at most `2 ^ |keys|` members. -/
theorem length_le_pow_of_sorted_sublists (keys : List Nat)
    (L : List (List Nat)) (hnd : L.Nodup)
    (hs : ∀ S ∈ L, S.Sorted (· < ·)) (hsub : ∀ S ∈ L, ∀ x ∈ S, x ∈ keys) :
    L.length ≤ 2 ^ keys.length := by
  have hmapnd : (L.map List.toFinset).Nodup := by
    refine List.Nodup.map_on ?_ hnd
    intro S1 h1 S2 h2 hf
    refine sorted_ext (hs S1 h1) (hs S2 h2) ?_
    intro a
    rw [← List.mem_toFinset, ← List.mem_toFinset (l := S2), hf]
  have hsubset : (L.map List.toFinset).toFinset ⊆ keys.toFinset.powerset := by
    intro F hF
    rw [List.mem_toFinset] at hF
    obtain ⟨S, hS, rfl⟩ := List.mem_map.1 hF
    rw [Finset.mem_powerset]
    intro a ha
    rw [List.mem_toFinset] at ha ⊢
    exact hsub S hS a ha
  have h1 : L.length = (L.map List.toFinset).toFinset.card := by
    rw [List.toFinset_card_of_nodup hmapnd, List.length_map]
  rw [h1]
  calc (L.map List.toFinset).toFinset.card ≤ keys.toFinset.powerset.card :=
        Finset.card_le_card hsubset
    _ = 2 ^ keys.toFinset.card := Finset.card_powerset _
    _ ≤ 2 ^ keys.length :=
        Nat.pow_le_pow_right (by norm_num) keys.toFinset_card_le

theorem sorted_rowFold (row : AutomatonTransitionList) :
    ∀ (d0 : AutomatonTransitionList), (d0.map Prod.fst).Sorted (· < ·) →
      (((row.foldl (fun d e => mapUpdate e.1 [] (fun cur => setUnion cur e.2) d) d0).map
        Prod.fst).Sorted (· < ·)) := by
  induction row with
  | nil => intro d0 h; exact h
  | cons e rest ih =>
    intro d0 h
    rw [List.foldl_cons]
    exact ih _ (sorted_map_fst_mapUpdate _ _ _ _ h)

theorem keys_rowFold (l0 : AutomatonTransition) (row : AutomatonTransitionList) :
    ∀ (d0 : AutomatonTransitionList),
      l0 ∈ ((row.foldl (fun d e => mapUpdate e.1 [] (fun cur => setUnion cur e.2) d) d0).map
        Prod.fst) →
      l0 ∈ d0.map Prod.fst ∨ l0 ∈ row.map Prod.fst := by
  induction row with
  | nil => intro d0 h; exact Or.inl h
  | cons e rest ih =>
    intro d0 h
    rw [List.foldl_cons] at h
    rcases ih _ h with h1 | h1
    · rcases (mem_map_fst_mapUpdate _ _ _ _ _).1 h1 with rfl | h2
      · exact Or.inr (List.mem_map.2 ⟨e, List.mem_cons_self _ _, rfl⟩)
      · exact Or.inl h2
    · exact Or.inr (List.mem_map.2 (by
        obtain ⟨q, hq, rfl⟩ := List.mem_map.1 h1
        exact ⟨q, List.mem_cons_of_mem _ hq, rfl⟩))

theorem mapGet?_rowFold (l0 : AutomatonTransition) (row : AutomatonTransitionList) :
    ∀ (d0 : AutomatonTransitionList), (row.map Prod.fst).Nodup →
      (d0.map Prod.fst).Sorted (· < ·) →
      mapGet? l0 (row.foldl (fun d e => mapUpdate e.1 [] (fun cur => setUnion cur e.2) d) d0) =
        match mapGet? l0 row with
        | some tos => some (setUnion ((mapGet? l0 d0).getD []) tos)
        | none => mapGet? l0 d0 := by
  induction row with
  | nil => intro d0 _ _; rfl
  | cons e rest ih =>
    obtain ⟨le, tose⟩ := e
    intro d0 hnd hsorted
    simp only [List.map_cons, List.nodup_cons] at hnd
    rw [List.foldl_cons]
    rw [ih _ hnd.2 (sorted_map_fst_mapUpdate _ _ _ _ hsorted)]
    by_cases hle : l0 = le
    · subst hle
      have hrest : mapGet? l0 rest = none :=
        mapGet?_eq_none_of_not_mem hnd.1
      rw [hrest]
      simp only [mapGet?, eq_self_iff_true, if_true]
      rw [mapGet?_mapUpdate_self l0 [] _ d0 hsorted]
    · have : mapGet? l0 ((le, tose) :: rest) = mapGet? l0 rest := by
        simp only [mapGet?, if_neg hle]
      rw [this, mapGet?_mapUpdate_ne [] _ _ hle]

theorem foldl_setUnion_tgts_const (N : FiniteAutomaton) (c : Char) :
    ∀ (S : List Nat) (v : List Nat),
      (∀ s ∈ S, tgts N s (AutomatonTransition.symbol c) = []) →
      S.foldl (fun acc s => setUnion acc (tgts N s (AutomatonTransition.symbol c))) v = v := by
  intro S
  induction S with
  | nil => intro v _; rfl
  | cons s rest ih =>
    intro v h
    rw [List.foldl_cons, h s (List.mem_cons_self _ _), setUnion_nil]
    exact ih v (fun u hu => h u (List.mem_cons_of_mem _ hu))

theorem collectFold_spec (N : FiniteAutomaton) (c : Char) (hsort : N.SortedTrans) :
    ∀ (S : List Nat) (b0 : Bool) (d0 : AutomatonTransitionList),
      (d0.map Prod.fst).Sorted (· < ·) →
      (S.foldl (collectStep N) (b0, d0)).1 =
        (b0 || S.any (fun s => N.accept_states.contains s)) ∧
      mapGet? (AutomatonTransition.symbol c) (S.foldl (collectStep N) (b0, d0)).2 =
        (if KeyExists N S c
         then some (S.foldl
           (fun acc s => setUnion acc (tgts N s (AutomatonTransition.symbol c)))
           ((mapGet? (AutomatonTransition.symbol c) d0).getD []))
         else mapGet? (AutomatonTransition.symbol c) d0) := by
  intro S
  induction S with
  | nil =>
    intro b0 d0 _
    constructor
    · simp
    · rw [if_neg (by rintro ⟨s, hs, _⟩; simp at hs)]
      rfl
  | cons s rest ih =>
    intro b0 d0 hsorted
    have hrowsorted := sorted_row_get N hsort s
    have hrownd : (((mapGet? s N.transitions).getD []).map Prod.fst).Nodup :=
      hrowsorted.nodup
    have hstep : collectStep N (b0, d0) s =
        (b0 || N.accept_states.contains s,
          ((mapGet? s N.transitions).getD []).foldl
            (fun d e => mapUpdate e.1 [] (fun cur => setUnion cur e.2) d) d0) := rfl
    rw [List.foldl_cons, hstep]
    obtain ⟨ih1, ih2⟩ := ih (b0 || N.accept_states.contains s) _
      (sorted_rowFold _ d0 hsorted)
    constructor
    · rw [ih1]
      simp [Bool.or_assoc]
    · rw [ih2, mapGet?_rowFold _ _ d0 hrownd hsorted]
      by_cases hks : (mapGet? (AutomatonTransition.symbol c)
          ((mapGet? s N.transitions).getD [])).isSome = true
      · obtain ⟨tos, htos⟩ := Option.isSome_iff_exists.1 hks
        have htg : tgts N s (AutomatonTransition.symbol c) = tos := by
          unfold tgts
          rw [htos]
          rfl
        rw [htos]
        have hkey : KeyExists N (s :: rest) c :=
          ⟨s, List.mem_cons_self _ _, hks⟩
        rw [if_pos hkey]
        by_cases hkr : KeyExists N rest c
        · rw [if_pos hkr]
          simp only [Option.getD_some, List.foldl_cons]
          rw [htg]
        · rw [if_neg hkr]
          simp only [Option.getD_some, List.foldl_cons, htg]
          rw [foldl_setUnion_tgts_const N c rest _ (fun u hu => by
            have hk : ¬ ((mapGet? (AutomatonTransition.symbol c)
                ((mapGet? u N.transitions).getD [])).isSome = true) :=
              fun h => hkr ⟨u, hu, h⟩
            unfold tgts
            rw [Option.not_isSome_iff_eq_none.1 hk]
            rfl)]
      · have hnone : mapGet? (AutomatonTransition.symbol c)
            ((mapGet? s N.transitions).getD []) = none :=
          Option.not_isSome_iff_eq_none.1 hks
        have htg : tgts N s (AutomatonTransition.symbol c) = [] := by
          unfold tgts
          rw [hnone]
          rfl
        rw [hnone]
        by_cases hkr : KeyExists N rest c
        · rw [if_pos hkr, if_pos (show KeyExists N (s :: rest) c from by
            obtain ⟨u, hu, hk⟩ := hkr
            exact ⟨u, List.mem_cons_of_mem _ hu, hk⟩)]
          rw [List.foldl_cons, htg, setUnion_nil]
        · rw [if_neg hkr, if_neg (show ¬ KeyExists N (s :: rest) c from by
            rintro ⟨u, hu, hk⟩
            rcases List.mem_cons.1 hu with rfl | hu'
            · exact absurd hk hks
            · exact hkr ⟨u, hu', hk⟩)]

theorem collectTrans_eq (N : FiniteAutomaton) :
    ∀ (S : List Nat) (acc : Bool × AutomatonTransitionList),
      (∀ s ∈ S, (mapGet? s N.transitions).isSome = true) →
      S.foldlM
        (fun st s =>
          match mapGet? s N.transitions with
          | none => none
          | some row =>
            some (st.1 || N.accept_states.contains s,
              row.foldl (fun d e => mapUpdate e.1 [] (fun cur => setUnion cur e.2) d) st.2))
        acc = some (S.foldl (collectStep N) acc) := by
  intro S
  induction S with
  | nil => intro acc _; rfl
  | cons s rest ih =>
    intro acc h
    rw [List.foldlM_cons]
    obtain ⟨row, hrow⟩ := Option.isSome_iff_exists.1 (h s (List.mem_cons_self _ _))
    rw [hrow]
    show rest.foldlM _ (acc.1 || N.accept_states.contains s,
      row.foldl _ acc.2) = _
    rw [List.foldl_cons]
    have hcs : collectStep N acc s = (acc.1 || N.accept_states.contains s,
        row.foldl (fun d e => mapUpdate e.1 [] (fun cur => setUnion cur e.2) d) acc.2) := by
      unfold collectStep
      rw [hrow]
      rfl
    rw [hcs]
    exact ih _ (fun u hu => h u (List.mem_cons_of_mem _ hu))


theorem collectTrans_eq_fold (N : FiniteAutomaton) (S : List Nat)
    (h : ∀ s ∈ S, (mapGet? s N.transitions).isSome = true) :
    collectTrans N S = some (S.foldl (collectStep N) (false, [])) :=
  collectTrans_eq N S (false, []) h

theorem foldl_tgts_eq_foldl_stepFun (N : FiniteAutomaton) (c : Char) :
    ∀ (S : List Nat) (v : List Nat),
      S.foldl (fun acc s => setUnion acc (tgts N s (AutomatonTransition.symbol c))) v =
        S.foldl (N.stepFun c) v := by
  intro S
  induction S with
  | nil => intro v; rfl
  | cons s rest ih =>
    intro v
    rw [List.foldl_cons, List.foldl_cons, ih]
    congr 1
    unfold FiniteAutomaton.stepFun tgts
    cases h : mapGet? (AutomatonTransition.symbol c) ((mapGet? s N.transitions).getD []) with
    | none => rfl
    | some tos => rfl

theorem sorted_foldl_stepFun (N : FiniteAutomaton) (c : Char) :
    ∀ (S : List Nat) (acc : List Nat), acc.Sorted (· < ·) →
      (S.foldl (N.stepFun c) acc).Sorted (· < ·) := by
  intro S
  induction S with
  | nil => intro acc h; exact h
  | cons s rest ih =>
    intro acc h
    rw [List.foldl_cons]
    refine ih _ ?_
    unfold FiniteAutomaton.stepFun
    cases hg : mapGet? (AutomatonTransition.symbol c) ((mapGet? s N.transitions).getD []) with
    | none => exact h
    | some tos => exact sorted_setUnion _ _ h

theorem sorted_stepSet (N : FiniteAutomaton) (S : List Nat) (c : Char) :
    (N.stepSet S c).Sorted (· < ·) :=
  sorted_foldl_stepFun N c S [] (by simp)

theorem stepSet_closed (N : FiniteAutomaton) (htc : N.TargetsClosed)
    (S : List Nat) (c : Char) :
    ∀ t ∈ N.stepSet S c, (mapGet? t N.transitions).isSome = true := by
  intro t ht
  obtain ⟨s, _, hts⟩ := mem_stepSet.1 ht
  exact tgts_closed htc hts

theorem foldl_stepFun_acc_of_no_key (N : FiniteAutomaton) (c : Char) :
    ∀ (S : List Nat) (acc : List Nat),
      (∀ s ∈ S, mapGet? (AutomatonTransition.symbol c)
        ((mapGet? s N.transitions).getD []) = none) →
      S.foldl (N.stepFun c) acc = acc := by
  intro S
  induction S with
  | nil => intro acc _; rfl
  | cons s rest ih =>
    intro acc h
    rw [List.foldl_cons]
    have h1 : N.stepFun c acc s = acc := by
      unfold FiniteAutomaton.stepFun
      rw [h s (List.mem_cons_self _ _)]
    rw [h1]
    exact ih _ (fun u hu => h u (List.mem_cons_of_mem _ hu))

theorem stepSet_nil_of_not_keyExists (N : FiniteAutomaton) (S : List Nat)
    (c : Char) (hk : ¬ KeyExists N S c) : N.stepSet S c = [] := by
  refine foldl_stepFun_acc_of_no_key N c S [] (fun s hs => ?_)
  by_contra hne
  exact hk ⟨s, hs, Option.ne_none_iff_isSome.1 hne⟩

theorem stepSet_single (D : FiniteAutomaton) (i d : Nat) (c : Char)
    (h : tgts D i (AutomatonTransition.symbol c) = [d]) :
    D.stepSet [i] c = [d] := by
  show D.stepFun c [] i = [d]
  unfold FiniteAutomaton.stepFun
  unfold tgts at h
  cases hg : mapGet? (AutomatonTransition.symbol c) ((mapGet? i D.transitions).getD []) with
  | none => rw [hg] at h; simp at h
  | some tos =>
    rw [hg] at h
    simp only [Option.getD_some] at h
    subst h
    rfl

theorem stepSet_single_nil (D : FiniteAutomaton) (i : Nat) (c : Char)
    (h : tgts D i (AutomatonTransition.symbol c) = []) :
    D.stepSet [i] c = [] := by
  show D.stepFun c [] i = []
  unfold FiniteAutomaton.stepFun
  unfold tgts at h
  cases hg : mapGet? (AutomatonTransition.symbol c) ((mapGet? i D.transitions).getD []) with
  | none => rfl
  | some tos =>
    rw [hg] at h
    simp only [Option.getD_some] at h
    subst h
    rfl

theorem sorted_collectFold (N : FiniteAutomaton) :
    ∀ (S : List Nat) (b0 : Bool) (d0 : AutomatonTransitionList),
      (d0.map Prod.fst).Sorted (· < ·) →
      ((S.foldl (collectStep N) (b0, d0)).2.map Prod.fst).Sorted (· < ·) := by
  intro S
  induction S with
  | nil => intro b0 d0 h; exact h
  | cons s rest ih =>
    intro b0 d0 h
    rw [List.foldl_cons]
    exact ih _ _ (sorted_rowFold _ _ h)

theorem keys_collectFold (N : FiniteAutomaton) (l : AutomatonTransition) :
    ∀ (S : List Nat) (b0 : Bool) (d0 : AutomatonTransitionList),
      l ∈ (S.foldl (collectStep N) (b0, d0)).2.map Prod.fst →
      l ∈ d0.map Prod.fst ∨
        ∃ s ∈ S, l ∈ ((mapGet? s N.transitions).getD []).map Prod.fst := by
  intro S
  induction S with
  | nil => intro b0 d0 h; exact Or.inl h
  | cons s rest ih =>
    intro b0 d0 h
    rw [List.foldl_cons] at h
    rcases ih _ _ h with h1 | ⟨u, hu, h2⟩
    · rcases keys_rowFold l _ _ h1 with h2 | h2
      · exact Or.inl h2
      · exact Or.inr ⟨s, List.mem_cons_self _ _, h2⟩
    · exact Or.inr ⟨u, List.mem_cons_of_mem _ hu, h2⟩

theorem collect_fst (N : FiniteAutomaton) (hsort : N.SortedTrans)
    (S : List Nat) :
    (S.foldl (collectStep N) (false, [])).1 =
      S.any (fun s => N.accept_states.contains s) := by
  have h := (collectFold_spec N 'a' hsort S false [] (by simp)).1
  simpa using h

theorem collect_get (N : FiniteAutomaton) (hsort : N.SortedTrans)
    (S : List Nat) (c : Char) :
    mapGet? (AutomatonTransition.symbol c) (S.foldl (collectStep N) (false, [])).2 =
      if KeyExists N S c then some (N.stepSet S c) else none := by
  have h := (collectFold_spec N c hsort S false [] (by simp)).2
  rw [h]
  by_cases hk : KeyExists N S c
  · rw [if_pos hk, if_pos hk]
    congr 1
    rw [foldl_tgts_eq_foldl_stepFun]
    rfl
  · rw [if_neg hk, if_neg hk]
    rfl

theorem collect_sorted (N : FiniteAutomaton) (S : List Nat) :
    ((S.foldl (collectStep N) (false, [])).2.map Prod.fst).Sorted (· < ·) :=
  sorted_collectFold N S false [] (by simp)

theorem collect_keys_symbol (N : FiniteAutomaton) (heps : N.EpsFree)
    (S : List Nat) :
    ∀ l ∈ (S.foldl (collectStep N) (false, [])).2.map Prod.fst,
      ∃ c, l = AutomatonTransition.symbol c := by
  intro l hl
  rcases keys_collectFold N l S false [] hl with h | ⟨s, _, h2⟩
  · simp at h
  · cases hrow : mapGet? s N.transitions with
    | none => rw [hrow] at h2; simp at h2
    | some row =>
      rw [hrow] at h2
      simp only [Option.getD_some] at h2
      obtain ⟨e, he, rfl⟩ := List.mem_map.1 h2
      have hne := heps (s, row) (mapGet?_eq_some_mem hrow) e he
      cases hh : e.1 with
      | epsilon => exact absurd hh hne
      | symbol c => exact ⟨c, rfl⟩

theorem collect_mem_iff (N : FiniteAutomaton) (hsort : N.SortedTrans)
    (heps : N.EpsFree) (S : List Nat) (l : AutomatonTransition)
    (U : List Nat) :
    (l, U) ∈ (S.foldl (collectStep N) (false, [])).2 ↔
      ∃ c, l = AutomatonTransition.symbol c ∧ KeyExists N S c ∧ U = N.stepSet S c := by
  have hnd : ((S.foldl (collectStep N) (false, [])).2.map Prod.fst).Nodup :=
    (collect_sorted N S).nodup
  rw [← mapGet?_eq_some_iff_mem hnd]
  constructor
  · intro h
    obtain ⟨c, rfl⟩ := collect_keys_symbol N heps S l
      (mem_keys_of_isSome (by rw [h]; rfl))
    rw [collect_get N hsort S c] at h
    by_cases hk : KeyExists N S c
    · rw [if_pos hk] at h
      exact ⟨c, rfl, hk, (Option.some_injective _ h).symm⟩
    · rw [if_neg hk] at h
      exact absurd h (by simp)
  · rintro ⟨c, rfl, hk, rfl⟩
    rw [collect_get N hsort S c, if_pos hk]

theorem exists_val_of_mem_keys {κ β : Type} {k : κ} {m : List (κ × β)}
    (h : k ∈ m.map Prod.fst) : ∃ v, (k, v) ∈ m := by
  obtain ⟨⟨k1, v⟩, hp, he⟩ := List.mem_map.1 h
  dsimp at he
  subst he
  exact ⟨v, hp⟩

theorem mem_mapUpdate_cases {κ β : Type} [LinearOrder κ] {k : κ} {d : β} {f : β → β} :
    ∀ {m : List (κ × β)}, (m.map Prod.fst).Sorted (· < ·) →
      ∀ {p : κ × β}, p ∈ mapUpdate k d f m →
        p ∈ m ∨ (p.1 = k ∧
          ((k ∉ m.map Prod.fst ∧ p.2 = f d) ∨ ∃ v, (k, v) ∈ m ∧ p.2 = f v)) := by
  intro m
  induction m with
  | nil =>
    intro _ p hp
    simp only [mapUpdate, List.mem_singleton] at hp
    subst hp
    exact Or.inr ⟨rfl, Or.inl ⟨by simp, rfl⟩⟩
  | cons q rest ih =>
    obtain ⟨k0, v0⟩ := q
    intro hs p hp
    simp only [List.map_cons, List.sorted_cons] at hs
    obtain ⟨hk0, hrest⟩ := hs
    by_cases h1 : k < k0
    · simp only [mapUpdate, if_pos h1, List.mem_cons] at hp
      rcases hp with rfl | rfl | hp
      · refine Or.inr ⟨rfl, Or.inl ⟨?_, rfl⟩⟩
        simp only [List.map_cons, List.mem_cons]
        push_neg
        exact ⟨ne_of_lt h1, fun hm => absurd (h1.trans (hk0 _ hm)) (lt_irrefl k)⟩
      · exact Or.inl (List.mem_cons_self _ _)
      · exact Or.inl (List.mem_cons_of_mem _ hp)
    · by_cases h2 : k = k0
      · subst h2
        simp only [mapUpdate, if_neg h1, eq_self_iff_true, if_true, List.mem_cons] at hp
        rcases hp with rfl | hp
        · exact Or.inr ⟨rfl, Or.inr ⟨v0, List.mem_cons_self _ _, rfl⟩⟩
        · exact Or.inl (List.mem_cons_of_mem _ hp)
      · simp only [mapUpdate, if_neg h1, if_neg h2, List.mem_cons] at hp
        rcases hp with rfl | hp
        · exact Or.inl (List.mem_cons_self _ _)
        · rcases ih hrest hp with h | ⟨he, hor⟩
          · exact Or.inl (List.mem_cons_of_mem _ h)
          · refine Or.inr ⟨he, ?_⟩
            rcases hor with ⟨hnm, hf⟩ | ⟨v, hv, hf⟩
            · refine Or.inl ⟨?_, hf⟩
              simp only [List.map_cons, List.mem_cons]
              push_neg
              exact ⟨h2, hnm⟩
            · exact Or.inr ⟨v, List.mem_cons_of_mem _ hv, hf⟩

theorem entries_addTransition (fa : FiniteAutomaton) (u : Nat)
    (l : AutomatonTransition) (v : Nat) (hs : fa.SortedTrans)
    {p : Nat × AutomatonTransitionList}
    (hp : p ∈ (fa.addTransition u l v).transitions)
    {e : AutomatonTransition × List Nat} (he : e ∈ p.2) :
    (∃ q ∈ fa.transitions, e ∈ q.2) ∨
      (e.1 = l ∧ e.2 = setInsert v (tgts fa u l)) := by
  rw [transitions_addTransition] at hp
  rcases mem_mapUpdate_cases hs.1 hp with hmem | ⟨_, hor⟩
  · exact Or.inl ⟨p, hmem, he⟩
  · rcases hor with ⟨hnm, hval⟩ | ⟨row, hrow, hval⟩
    · rw [hval] at he
      simp only [mapUpdate, List.mem_singleton] at he
      subst he
      refine Or.inr ⟨rfl, ?_⟩
      have hnone : mapGet? u fa.transitions = none := mapGet?_eq_none_of_not_mem hnm
      unfold tgts
      rw [hnone]
      rfl
    · rw [hval] at he
      have hrowget : mapGet? u fa.transitions = some row :=
        (mapGet?_eq_some_iff_mem hs.1.nodup _ _).2 hrow
      have hrowsorted : (row.map Prod.fst).Sorted (· < ·) := hs.2 (u, row) hrow
      rcases mem_mapUpdate_cases hrowsorted he with hmem | ⟨hek, hor2⟩
      · exact Or.inl ⟨(u, row), hrow, hmem⟩
      · refine Or.inr ⟨hek, ?_⟩
        rcases hor2 with ⟨hnm2, hval2⟩ | ⟨tos, htos, hval2⟩
        · rw [hval2]
          unfold tgts
          rw [hrowget]
          simp only [Option.getD_some]
          rw [mapGet?_eq_none_of_not_mem hnm2]
          rfl
        · rw [hval2]
          unfold tgts
          rw [hrowget]
          simp only [Option.getD_some]
          rw [(mapGet?_eq_some_iff_mem hrowsorted.nodup _ _).2 htos]
          rfl

theorem mapInsert_eq_mapUpdate (fa : FiniteAutomaton) :
    mapInsert fa.last_state ([] : AutomatonTransitionList) fa.transitions =
      mapUpdate fa.last_state [] (fun _ => []) fa.transitions := rfl

theorem entries_addState (fa : FiniteAutomaton) (hs : fa.SortedTrans)
    (hbound : ∀ i ∈ fa.transitions.map Prod.fst, i < fa.last_state)
    {p : Nat × AutomatonTransitionList}
    (hp : p ∈ (fa.addState).1.transitions)
    {e : AutomatonTransition × List Nat} (he : e ∈ p.2) :
    ∃ q ∈ fa.transitions, e ∈ q.2 := by
  rw [addState_transitions, mapInsert_eq_mapUpdate] at hp
  rcases mem_mapUpdate_cases hs.1 hp with hmem | ⟨_, hor⟩
  · exact ⟨p, hmem, he⟩
  · rcases hor with ⟨_, hval⟩ | ⟨w, hw, _⟩
    · rw [hval] at he
      simp at he
    · exact absurd (hbound fa.last_state (List.mem_map.2 ⟨(fa.last_state, w), hw, rfl⟩))
        (lt_irrefl _)

theorem isSome_addState (fa : FiniteAutomaton) (hs : fa.SortedTrans) (i : Nat)
    (h : (mapGet? i fa.transitions).isSome = true ∨ i = fa.last_state) :
    (mapGet? i (fa.addState).1.transitions).isSome = true := by
  rw [addState_transitions, mapInsert_eq_mapUpdate]
  rcases h with h | rfl
  · by_cases he : i = fa.last_state
    · subst he
      rw [mapGet?_mapUpdate_self _ _ _ _ hs.1]
      rfl
    · rw [mapGet?_mapUpdate_ne _ _ _ he]
      exact h
  · rw [mapGet?_mapUpdate_self _ _ _ _ hs.1]
    rfl

theorem addTransition_start (fa : FiniteAutomaton) (u : Nat)
    (l : AutomatonTransition) (v : Nat) :
    (fa.addTransition u l v).start_states = fa.start_states := rfl

theorem addTransition_accept (fa : FiniteAutomaton) (u : Nat)
    (l : AutomatonTransition) (v : Nat) :
    (fa.addTransition u l v).accept_states = fa.accept_states := rfl

theorem addTransition_last (fa : FiniteAutomaton) (u : Nat)
    (l : AutomatonTransition) (v : Nat) :
    (fa.addTransition u l v).last_state = fa.last_state := rfl

theorem addState_start (fa : FiniteAutomaton) :
    (fa.addState).1.start_states = fa.start_states := rfl

theorem addState_accept (fa : FiniteAutomaton) :
    (fa.addState).1.accept_states = fa.accept_states := rfl

theorem addState_last (fa : FiniteAutomaton) :
    (fa.addState).1.last_state = fa.last_state + 1 := rfl

theorem addState_snd (fa : FiniteAutomaton) : (fa.addState).2 = fa.last_state := rfl

theorem edge_step_found (N : FiniteAutomaton) (curr : Nat)
    (base st : ToDfaState) (inv : EdgeInv N curr base st)
    (e : AutomatonTransition × List Nat) (d : Nat)
    (hrev : mapGet? e.2 st.reverse = some d)
    (hsym : ∃ c, e.1 = AutomatonTransition.symbol c)
    (hfresh : tgts st.dfa curr e.1 = []) :
    EdgeInv N curr base { st with dfa := st.dfa.addTransition curr e.1 d } ∧
      tgts (st.dfa.addTransition curr e.1 d) curr e.1 = [d] ∧ (d, e.2) ∈ st.mapping ∧
      ∀ l, l ≠ e.1 →
        tgts (st.dfa.addTransition curr e.1 d) curr l = tgts st.dfa curr l := by
  have hdm : (d, e.2) ∈ st.mapping := (inv.map_rev d e.2).2 (mapGet?_eq_some_mem hrev)
  have hdlt : d < st.dfa.last_state := by
    have hk : d ∈ st.mapping.map Prod.fst := List.mem_map.2 ⟨(d, e.2), hdm, rfl⟩
    rw [inv.map_keys, List.mem_reverse, List.mem_range] at hk
    exact hk
  have htg : ∀ s m, tgts (st.dfa.addTransition curr e.1 d) s m =
      if s = curr ∧ m = e.1 then setInsert d (tgts st.dfa curr e.1)
      else tgts st.dfa s m :=
    tgts_addTransition st.dfa curr e.1 d inv.dfa_sorted
  have htge : tgts (st.dfa.addTransition curr e.1 d) curr e.1 = [d] := by
    rw [htg, if_pos ⟨rfl, rfl⟩, hfresh]
    rfl
  refine ⟨?_, htge, hdm, fun l hl => by rw [htg, if_neg (fun h => hl h.2)]⟩
  exact {
    map_keys := inv.map_keys
    map_rev := inv.map_rev
    subs_sorted := inv.subs_sorted
    subs_closed := inv.subs_closed
    subs_nodup := inv.subs_nodup
    map_mono := inv.map_mono
    ls_mono := inv.ls_mono
    curr_lt := inv.curr_lt
    used_eq := inv.used_eq
    queue_len := inv.queue_len
    queue_bound := inv.queue_bound
    covered := inv.covered
    start_eq := inv.start_eq
    accept_eq := inv.accept_eq
    dfa_sorted := sortedTrans_addTransition _ _ _ _ inv.dfa_sorted
    dfa_keys := fun i hi =>
      isSome_addTransition _ _ _ _ inv.dfa_sorted i (inv.dfa_keys i hi)
    dfa_keys_bound := by
      intro i hi
      rw [transitions_addTransition] at hi
      rcases (mem_map_fst_mapUpdate _ _ _ _ _).1 hi with rfl | hi2
      · exact inv.curr_lt
      · exact inv.dfa_keys_bound i hi2
    dfa_entries := by
      intro p hp e' he'
      rcases entries_addTransition st.dfa curr e.1 d inv.dfa_sorted hp he' with
        ⟨q, hq, hq2⟩ | ⟨h1, h2⟩
      · exact inv.dfa_entries q hq e' hq2
      · obtain ⟨c, hc⟩ := hsym
        refine ⟨⟨c, h1.trans hc⟩, d, ?_, hdlt⟩
        rw [h2, hfresh]
        rfl
    others_tgts := by
      intro i hi l
      rw [htg, if_neg (fun h => hi h.1)]
      exact inv.others_tgts i hi l }

theorem edge_step_new (N : FiniteAutomaton) (curr : Nat)
    (base st : ToDfaState) (inv : EdgeInv N curr base st)
    (hbb : ∀ i ∈ base.dfa.transitions.map Prod.fst, i < base.dfa.last_state)
    (e : AutomatonTransition × List Nat)
    (hrev : mapGet? e.2 st.reverse = none)
    (hsym : ∃ c, e.1 = AutomatonTransition.symbol c)
    (hsorted : (e.2 : List Nat).Sorted (· < ·))
    (hclosed : ∀ s ∈ e.2, (mapGet? s N.transitions).isSome = true)
    (hfresh : tgts st.dfa curr e.1 = []) :
    EdgeInv N curr base
      { st with
        dfa := (st.dfa.addState).1.addTransition curr e.1 st.dfa.last_state,
        queue := st.queue ++ [st.dfa.last_state],
        mapping := (st.dfa.last_state, e.2) :: st.mapping,
        reverse := (e.2, st.dfa.last_state) :: st.reverse } ∧
      tgts ((st.dfa.addState).1.addTransition curr e.1 st.dfa.last_state) curr e.1 =
        [st.dfa.last_state] ∧
      ∀ l, l ≠ e.1 →
        tgts ((st.dfa.addState).1.addTransition curr e.1 st.dfa.last_state) curr l =
          tgts st.dfa curr l := by
  have hsorted1 : (st.dfa.addState).1.SortedTrans := sortedTrans_addState _ inv.dfa_sorted
  have hcurrne : curr ≠ st.dfa.last_state := ne_of_lt inv.curr_lt
  have htgadd : ∀ s l, tgts (st.dfa.addState).1 s l =
      if s = st.dfa.last_state then [] else tgts st.dfa s l :=
    fun s l => tgts_addState st.dfa inv.dfa_sorted s l
  have htg : ∀ s m,
      tgts ((st.dfa.addState).1.addTransition curr e.1 st.dfa.last_state) s m =
        if s = curr ∧ m = e.1 then
          setInsert st.dfa.last_state (tgts (st.dfa.addState).1 curr e.1)
        else tgts (st.dfa.addState).1 s m :=
    tgts_addTransition _ curr e.1 _ hsorted1
  have htgc : tgts (st.dfa.addState).1 curr e.1 = tgts st.dfa curr e.1 := by
    rw [htgadd, if_neg hcurrne]
  have htge : tgts ((st.dfa.addState).1.addTransition curr e.1 st.dfa.last_state)
      curr e.1 = [st.dfa.last_state] := by
    rw [htg, if_pos ⟨rfl, rfl⟩, htgc, hfresh]
    rfl
  have hothers : ∀ l, l ≠ e.1 →
      tgts ((st.dfa.addState).1.addTransition curr e.1 st.dfa.last_state) curr l =
        tgts st.dfa curr l := by
    intro l hl
    rw [htg, if_neg (fun h => hl h.2), htgadd, if_neg hcurrne]
  have hnewsub : ∀ p ∈ st.mapping, p.2 ≠ e.2 := by
    intro p hp hpe
    have hrevmem : (p.2, p.1) ∈ st.reverse :=
      (inv.map_rev p.1 p.2).1 (by rw [Prod.mk.eta]; exact hp)
    rw [hpe] at hrevmem
    have hsome : (mapGet? e.2 st.reverse).isSome = true :=
      mapGet?_isSome_of_mem (List.mem_map.2 ⟨(e.2, p.1), hrevmem, rfl⟩)
    rw [hrev] at hsome
    exact absurd hsome (by simp)
  refine ⟨?_, htge, hothers⟩
  exact {
    map_keys := by
      simp only [List.map_cons]
      rw [inv.map_keys]
      show _ = (List.range (st.dfa.last_state + 1)).reverse
      rw [List.range_succ, List.reverse_append, List.reverse_singleton]
      rfl
    map_rev := by
      intro i S
      simp only [List.mem_cons, Prod.mk.injEq]
      constructor
      · rintro (⟨rfl, rfl⟩ | h)
        · exact Or.inl ⟨rfl, rfl⟩
        · exact Or.inr ((inv.map_rev i S).1 h)
      · rintro (⟨rfl, rfl⟩ | h)
        · exact Or.inl ⟨rfl, rfl⟩
        · exact Or.inr ((inv.map_rev i S).2 h)
    subs_sorted := by
      intro p hp
      rcases List.mem_cons.1 hp with rfl | hp2
      · exact hsorted
      · exact inv.subs_sorted p hp2
    subs_closed := by
      intro p hp
      rcases List.mem_cons.1 hp with rfl | hp2
      · exact hclosed
      · exact inv.subs_closed p hp2
    subs_nodup := by
      simp only [List.map_cons]
      refine List.nodup_cons.2 ⟨?_, inv.subs_nodup⟩
      intro hmem
      obtain ⟨p, hp, hpe⟩ := List.mem_map.1 hmem
      exact hnewsub p hp hpe
    map_mono := fun p hp => List.mem_cons_of_mem _ (inv.map_mono p hp)
    ls_mono := le_trans inv.ls_mono (Nat.le_succ _)
    curr_lt := lt_trans inv.curr_lt (Nat.lt_succ_self _)
    used_eq := inv.used_eq
    queue_len := by
      show (st.queue ++ [st.dfa.last_state]).length + base.dfa.last_state =
        base.queue.length + (st.dfa.last_state + 1)
      rw [List.length_append]
      have h := inv.queue_len
      simp only [List.length_singleton]
      omega
    queue_bound := by
      intro i hi
      show i < st.dfa.last_state + 1
      rcases List.mem_append.1 hi with h | h
      · exact lt_trans (inv.queue_bound i h) (Nat.lt_succ_self _)
      · rw [List.mem_singleton] at h
        rw [h]
        exact Nat.lt_succ_self _
    covered := by
      intro i hi
      have hi2 : i < st.dfa.last_state + 1 := hi
      rcases Nat.lt_succ_iff_lt_or_eq.1 hi2 with h | rfl
      · rcases inv.covered i h with h2 | h2 | h2
        · exact Or.inl h2
        · exact Or.inr (Or.inl h2)
        · exact Or.inr (Or.inr (List.mem_append_left _ h2))
      · exact Or.inr (Or.inr (List.mem_append_right _ (List.mem_singleton.2 rfl)))
    start_eq := inv.start_eq
    accept_eq := inv.accept_eq
    dfa_sorted := sortedTrans_addTransition _ _ _ _ hsorted1
    dfa_keys := by
      intro i hi
      have hi2 : i < st.dfa.last_state + 1 := hi
      refine isSome_addTransition _ _ _ _ hsorted1 i ?_
      rcases Nat.lt_succ_iff_lt_or_eq.1 hi2 with h | rfl
      · exact isSome_addState st.dfa inv.dfa_sorted i (Or.inl (inv.dfa_keys i h))
      · exact isSome_addState st.dfa inv.dfa_sorted _ (Or.inr rfl)
    dfa_keys_bound := by
      intro i hi
      show i < st.dfa.last_state + 1
      rw [transitions_addTransition] at hi
      rcases (mem_map_fst_mapUpdate _ _ _ _ _).1 hi with rfl | hi2
      · exact lt_trans inv.curr_lt (Nat.lt_succ_self _)
      · rcases (mem_keys_addState st.dfa i).1 hi2 with rfl | hi3
        · exact Nat.lt_succ_self _
        · exact lt_trans (inv.dfa_keys_bound i hi3) (Nat.lt_succ_self _)
    dfa_entries := by
      intro p hp e' he'
      rcases entries_addTransition (st.dfa.addState).1 curr e.1 st.dfa.last_state
          hsorted1 hp he' with ⟨q, hq, hq2⟩ | ⟨h1, h2⟩
      · obtain ⟨q', hq', hq2'⟩ :=
          entries_addState st.dfa inv.dfa_sorted inv.dfa_keys_bound hq hq2
        obtain ⟨hc, dd, hdd, hddlt⟩ := inv.dfa_entries q' hq' e' hq2'
        exact ⟨hc, dd, hdd, lt_trans hddlt (Nat.lt_succ_self _)⟩
      · obtain ⟨c, hc⟩ := hsym
        refine ⟨⟨c, h1.trans hc⟩, st.dfa.last_state, ?_, Nat.lt_succ_self _⟩
        rw [h2, htgc, hfresh]
        rfl
    others_tgts := by
      intro i hi l
      rw [htg, if_neg (fun h => hi h.1), htgadd]
      by_cases h2 : i = st.dfa.last_state
      · rw [if_pos h2]
        have hnone : mapGet? i base.dfa.transitions = none := by
          apply mapGet?_eq_none_of_not_mem
          intro hmem
          have h3 := lt_of_lt_of_le (hbb i hmem) inv.ls_mono
          rw [h2] at h3
          exact absurd h3 (lt_irrefl _)
        have hb : tgts base.dfa i l = [] := by
          unfold tgts
          rw [hnone]
          rfl
        rw [hb]
      · rw [if_neg h2]
        exact inv.others_tgts i hi l }

theorem toDfaEdges_cons (curr : Nat)
    (e : AutomatonTransition × List Nat) (todo : AutomatonTransitionList)
    (st : ToDfaState) :
    toDfaEdges curr (e :: todo) st =
      toDfaEdges curr todo
        (match mapGet? e.2 st.reverse with
         | some d => { st with dfa := st.dfa.addTransition curr e.1 d }
         | none =>
           { st with
             dfa := (st.dfa.addState).1.addTransition curr e.1 (st.dfa.addState).2,
             queue := st.queue ++ [(st.dfa.addState).2],
             mapping := ((st.dfa.addState).2, e.2) :: st.mapping,
             reverse := (e.2, (st.dfa.addState).2) :: st.reverse }) := rfl

theorem toDfaEdges_ind (N : FiniteAutomaton) (curr : Nat)
    (base : ToDfaState)
    (hbb : ∀ i ∈ base.dfa.transitions.map Prod.fst, i < base.dfa.last_state) :
    ∀ (todo : AutomatonTransitionList) (st : ToDfaState),
      EdgeInv N curr base st →
      (∀ e ∈ todo, (∃ c, (e.1 : AutomatonTransition) = AutomatonTransition.symbol c) ∧
        (e.2 : List Nat).Sorted (· < ·) ∧
        ∀ s ∈ e.2, (mapGet? s N.transitions).isSome = true) →
      (todo.map Prod.fst).Nodup →
      (∀ l ∈ todo.map Prod.fst, tgts st.dfa curr l = []) →
      EdgeInv N curr base (toDfaEdges curr todo st) ∧
        (∀ p ∈ st.mapping, p ∈ (toDfaEdges curr todo st).mapping) ∧
        (∀ l, l ∉ todo.map Prod.fst →
          tgts (toDfaEdges curr todo st).dfa curr l = tgts st.dfa curr l) ∧
        ∀ e ∈ todo, ∃ d, tgts (toDfaEdges curr todo st).dfa curr e.1 = [d] ∧
          (d, e.2) ∈ (toDfaEdges curr todo st).mapping := by
  intro todo
  induction todo with
  | nil =>
    intro st hinv _ _ _
    exact ⟨hinv, fun p hp => hp, fun l _ => rfl,
      fun e he => absurd he (List.not_mem_nil e)⟩
  | cons e todo ihind =>
    intro st hinv htodo hnd hfresh
    obtain ⟨hsym, hsorted, hclosed⟩ := htodo e (List.mem_cons_self _ _)
    have hfr : tgts st.dfa curr e.1 = [] :=
      hfresh e.1 (List.mem_map.2 ⟨e, List.mem_cons_self _ _, rfl⟩)
    simp only [List.map_cons, List.nodup_cons] at hnd
    have htodo2 : ∀ e' ∈ todo,
        (∃ c, (e'.1 : AutomatonTransition) = AutomatonTransition.symbol c) ∧
        (e'.2 : List Nat).Sorted (· < ·) ∧
        ∀ s ∈ e'.2, (mapGet? s N.transitions).isSome = true :=
      fun e' he' => htodo e' (List.mem_cons_of_mem _ he')
    cases hrev : mapGet? e.2 st.reverse with
    | some d =>
      obtain ⟨hinv1, htge, hdm, hoth⟩ :=
        edge_step_found N curr base st hinv e d hrev hsym hfr
      have hfresh1 : ∀ l ∈ todo.map Prod.fst,
          tgts ({ st with dfa := st.dfa.addTransition curr e.1 d } : ToDfaState).dfa
            curr l = [] := by
        intro l hl
        have hne : l ≠ e.1 := fun h => hnd.1 (h ▸ hl)
        show tgts (st.dfa.addTransition curr e.1 d) curr l = []
        rw [hoth l hne]
        exact hfresh l (by rw [List.map_cons]; exact List.mem_cons_of_mem _ hl)
      obtain ⟨hinvf, hmonof, hpres, hinst⟩ := ihind _ hinv1 htodo2 hnd.2 hfresh1
      have heq : toDfaEdges curr (e :: todo) st =
          toDfaEdges curr todo { st with dfa := st.dfa.addTransition curr e.1 d } := by
        rw [toDfaEdges_cons, hrev]
      rw [heq]
      refine ⟨hinvf, fun p hp => hmonof p hp, ?_, ?_⟩
      · intro l hl
        simp only [List.map_cons, List.mem_cons] at hl
        push_neg at hl
        rw [hpres l hl.2]
        exact hoth l hl.1
      · intro e' he'
        rcases List.mem_cons.1 he' with rfl | he2
        · refine ⟨d, ?_, hmonof _ hdm⟩
          rw [hpres e'.1 hnd.1]
          exact htge
        · exact hinst e' he2
    | none =>
      obtain ⟨hinv1, htge, hoth⟩ :=
        edge_step_new N curr base st hinv hbb e hrev hsym hsorted hclosed hfr
      have hfresh1 : ∀ l ∈ todo.map Prod.fst,
          tgts ({ st with
            dfa := (st.dfa.addState).1.addTransition curr e.1 st.dfa.last_state,
            queue := st.queue ++ [st.dfa.last_state],
            mapping := (st.dfa.last_state, e.2) :: st.mapping,
            reverse := (e.2, st.dfa.last_state) :: st.reverse } : ToDfaState).dfa
            curr l = [] := by
        intro l hl
        have hne : l ≠ e.1 := fun h => hnd.1 (h ▸ hl)
        show tgts ((st.dfa.addState).1.addTransition curr e.1 st.dfa.last_state)
          curr l = []
        rw [hoth l hne]
        exact hfresh l (by rw [List.map_cons]; exact List.mem_cons_of_mem _ hl)
      obtain ⟨hinvf, hmonof, hpres, hinst⟩ := ihind _ hinv1 htodo2 hnd.2 hfresh1
      have heq : toDfaEdges curr (e :: todo) st =
          toDfaEdges curr todo
            { st with
              dfa := (st.dfa.addState).1.addTransition curr e.1 st.dfa.last_state,
              queue := st.queue ++ [st.dfa.last_state],
              mapping := (st.dfa.last_state, e.2) :: st.mapping,
              reverse := (e.2, st.dfa.last_state) :: st.reverse } := by
        rw [toDfaEdges_cons, hrev]
        rfl
      rw [heq]
      refine ⟨hinvf, ?_, ?_, ?_⟩
      · intro p hp
        exact hmonof p (List.mem_cons_of_mem _ hp)
      · intro l hl
        simp only [List.map_cons, List.mem_cons] at hl
        push_neg at hl
        rw [hpres l hl.2]
        exact hoth l hl.1
      · intro e' he'
        rcases List.mem_cons.1 he' with rfl | he2
        · refine ⟨st.dfa.last_state, ?_, hmonof _ (List.mem_cons_self _ _)⟩
          rw [hpres e'.1 hnd.1]
          exact htge
        · exact hinst e' he2

theorem lastState_le_of_inv (N : FiniteAutomaton) (st : ToDfaState)
    (inv : DfaInv N st) : st.dfa.last_state ≤ 2 ^ N.transitions.length := by
  have hlen : st.mapping.length = st.dfa.last_state := by
    have h := congrArg List.length inv.map_keys
    simpa using h
  have hb := length_le_pow_of_sorted_sublists (N.transitions.map Prod.fst)
    (st.mapping.map Prod.snd) inv.subs_nodup
    (by
      intro S hS
      obtain ⟨p, hp, rfl⟩ := List.mem_map.1 hS
      exact inv.subs_sorted p hp)
    (by
      intro S hS x hx
      obtain ⟨p, hp, rfl⟩ := List.mem_map.1 hS
      exact mem_keys_of_isSome (inv.subs_closed p hp x hx))
  rw [List.length_map, hlen, List.length_map] at hb
  exact hb

theorem toDfa_step (N : FiniteAutomaton) (hsort : N.SortedTrans) (heps : N.EpsFree)
    (htc : N.TargetsClosed) (st : ToDfaState) (inv : DfaInv N st)
    (curr : Nat) (rest : List Nat)
    (hq : st.queue = curr :: rest) (hcu : curr ∉ st.used)
    (S : List Nat) (hS : mapGet? curr st.mapping = some S)
    (dfa1 : FiniteAutomaton)
    (hdfa1 : dfa1 = if (S.foldl (collectStep N) (false, [])).1 = true then
      { st.dfa with accept_states := setInsert curr st.dfa.accept_states }
      else st.dfa)
    (st1 : ToDfaState)
    (hst1 : st1 = toDfaEdges curr (S.foldl (collectStep N) (false, [])).2
      { st with dfa := dfa1, queue := rest }) :
    DfaInv N { st1 with used := curr :: st1.used } ∧
      st1.queue.length + st.dfa.last_state = rest.length + st1.dfa.last_state ∧
      st.dfa.last_state ≤ st1.dfa.last_state := by
  have hmem : (curr, S) ∈ st.mapping := mapGet?_eq_some_mem hS
  have hSsorted : S.Sorted (· < ·) := inv.subs_sorted (curr, S) hmem
  have hSclosed : ∀ s ∈ S, (mapGet? s N.transitions).isSome = true :=
    inv.subs_closed (curr, S) hmem
  have hcurrlt : curr < st.dfa.last_state :=
    inv.queue_bound curr (by rw [hq]; exact List.mem_cons_self _ _)
  have h1t : dfa1.transitions = st.dfa.transitions := by
    rw [hdfa1]; split_ifs <;> rfl
  have h1l : dfa1.last_state = st.dfa.last_state := by
    rw [hdfa1]; split_ifs <;> rfl
  have h1s : dfa1.start_states = st.dfa.start_states := by
    rw [hdfa1]; split_ifs <;> rfl
  have htgts1 : ∀ i l, tgts dfa1 i l = tgts st.dfa i l := by
    intro i l
    unfold tgts
    rw [h1t]
  have hdnt_mem : ∀ (l : AutomatonTransition) (U : List Nat),
      (l, U) ∈ (S.foldl (collectStep N) (false, [])).2 ↔
        ∃ c, l = AutomatonTransition.symbol c ∧ KeyExists N S c ∧ U = N.stepSet S c :=
    fun l U => collect_mem_iff N hsort heps S l U
  have hdnt_nodup : (((S.foldl (collectStep N) (false, [])).2).map Prod.fst).Nodup :=
    (collect_sorted N S).nodup
  have hbb : ∀ i ∈ ({ st with dfa := dfa1, queue := rest } :
      ToDfaState).dfa.transitions.map Prod.fst,
      i < ({ st with dfa := dfa1, queue := rest } : ToDfaState).dfa.last_state := by
    intro i hi
    show i < dfa1.last_state
    rw [h1l]
    refine inv.dfa_keys_bound i ?_
    rw [← h1t]
    exact hi
  have hEI : EdgeInv N curr { st with dfa := dfa1, queue := rest }
      { st with dfa := dfa1, queue := rest } := {
    map_keys := by
      show st.mapping.map Prod.fst = (List.range dfa1.last_state).reverse
      rw [h1l]
      exact inv.map_keys
    map_rev := inv.map_rev
    subs_sorted := inv.subs_sorted
    subs_closed := inv.subs_closed
    subs_nodup := inv.subs_nodup
    map_mono := fun p hp => hp
    ls_mono := le_refl _
    curr_lt := by
      show curr < dfa1.last_state
      rw [h1l]
      exact hcurrlt
    used_eq := rfl
    queue_len := rfl
    queue_bound := by
      intro i hi
      show i < dfa1.last_state
      rw [h1l]
      exact inv.queue_bound i (by rw [hq]; exact List.mem_cons_of_mem _ hi)
    covered := by
      intro i hi
      have hi2 : i < st.dfa.last_state := by rw [← h1l]; exact hi
      rcases inv.covered i hi2 with h2 | h2
      · exact Or.inr (Or.inl h2)
      · rw [hq] at h2
        rcases List.mem_cons.1 h2 with rfl | h3
        · exact Or.inl rfl
        · exact Or.inr (Or.inr h3)
    start_eq := rfl
    accept_eq := rfl
    dfa_sorted := by
      show dfa1.SortedTrans
      constructor
      · rw [h1t]; exact inv.dfa_sorted.1
      · intro p hp
        rw [h1t] at hp
        exact inv.dfa_sorted.2 p hp
    dfa_keys := by
      intro i hi
      show (mapGet? i dfa1.transitions).isSome = true
      rw [h1t]
      refine inv.dfa_keys i ?_
      rw [← h1l]
      exact hi
    dfa_keys_bound := hbb
    dfa_entries := by
      intro p hp e he
      have hp2 : p ∈ st.dfa.transitions := by rw [← h1t]; exact hp
      obtain ⟨hc, d, hd, hlt⟩ := inv.dfa_entries p hp2 e he
      refine ⟨hc, d, hd, ?_⟩
      show d < dfa1.last_state
      rw [h1l]
      exact hlt
    others_tgts := fun i _ l => rfl }
  obtain ⟨hinvf, hmono, hpres, hinst⟩ := toDfaEdges_ind N curr
    { st with dfa := dfa1, queue := rest } hbb
    (S.foldl (collectStep N) (false, [])).2
    { st with dfa := dfa1, queue := rest } hEI
    (by
      intro e he
      obtain ⟨c, hlc, hk, hU⟩ := (hdnt_mem e.1 e.2).1 (by rw [Prod.mk.eta]; exact he)
      refine ⟨⟨c, hlc⟩, ?_, ?_⟩
      · rw [hU]; exact sorted_stepSet N S c
      · rw [hU]; exact stepSet_closed N htc S c)
    hdnt_nodup
    (by
      intro l hl
      show tgts dfa1 curr l = []
      rw [htgts1]
      exact inv.unprocessed_empty curr hcu l)
  rw [← hst1] at hinvf hmono hpres hinst
  have hls : st.dfa.last_state ≤ st1.dfa.last_state := by
    have h2 : dfa1.last_state ≤ st1.dfa.last_state := hinvf.ls_mono
    rw [h1l] at h2
    exact h2
  refine ⟨?_, ?_, hls⟩
  · exact {
      start_eq := by
        show st1.dfa.start_states = [0]
        rw [hinvf.start_eq]
        show dfa1.start_states = [0]
        rw [h1s]
        exact inv.start_eq
      map_keys := hinvf.map_keys
      map_rev := hinvf.map_rev
      subs_sorted := hinvf.subs_sorted
      subs_closed := hinvf.subs_closed
      subs_nodup := hinvf.subs_nodup
      start_mapped := hinvf.map_mono _ inv.start_mapped
      queue_bound := hinvf.queue_bound
      covered := by
        intro i hi
        rcases hinvf.covered i hi with rfl | h2 | h2
        · exact Or.inl (List.mem_cons_self _ _)
        · exact Or.inl (List.mem_cons_of_mem _ h2)
        · exact Or.inr h2
      used_bound := by
        intro i hi
        rcases List.mem_cons.1 hi with rfl | h2
        · exact hinvf.curr_lt
        · rw [hinvf.used_eq] at h2
          exact lt_of_lt_of_le (inv.used_bound i h2) hls
      dfa_sorted := hinvf.dfa_sorted
      dfa_keys := hinvf.dfa_keys
      dfa_keys_bound := hinvf.dfa_keys_bound
      dfa_entries := hinvf.dfa_entries
      unprocessed_empty := by
        intro i hiu l
        have hne : i ≠ curr := fun h => hiu (h ▸ List.mem_cons_self _ _)
        have hnu : i ∉ st.used := fun h =>
          hiu (List.mem_cons_of_mem _ (by rw [hinvf.used_eq]; exact h))
        show tgts st1.dfa i l = []
        rw [hinvf.others_tgts i hne l]
        show tgts dfa1 i l = []
        rw [htgts1]
        exact inv.unprocessed_empty i hnu l
      unprocessed_nonacc := by
        intro i hiu
        have hne : i ≠ curr := fun h => hiu (h ▸ List.mem_cons_self _ _)
        have hnu : i ∉ st.used := fun h =>
          hiu (List.mem_cons_of_mem _ (by rw [hinvf.used_eq]; exact h))
        show i ∉ st1.dfa.accept_states
        rw [hinvf.accept_eq]
        show i ∉ dfa1.accept_states
        rw [hdfa1]
        split_ifs
        · intro hmem2
          rcases (mem_setInsert _ _ _).1 hmem2 with rfl | h3
          · exact hne rfl
          · exact inv.unprocessed_nonacc i hnu h3
        · exact inv.unprocessed_nonacc i hnu
      processed := by
        intro i hi
        rcases List.mem_cons.1 hi with rfl | hiu
        · refine ⟨S, hinvf.map_mono _ hmem, ?_, ?_⟩
          · show (i ∈ st1.dfa.accept_states) ↔ _
            rw [hinvf.accept_eq]
            show (i ∈ dfa1.accept_states) ↔ _
            rw [hdfa1, collect_fst N hsort S]
            by_cases hA : (S.any fun s => N.accept_states.contains s) = true
            · rw [if_pos hA]
              constructor
              · intro _
                simpa [List.any_eq_true, List.elem_iff] using hA
              · intro _
                exact (mem_setInsert _ _ _).2 (Or.inl rfl)
            · rw [if_neg hA]
              constructor
              · intro h3
                exact absurd h3 (inv.unprocessed_nonacc i hcu)
              · intro h3
                exfalso
                apply hA
                simpa [List.any_eq_true, List.elem_iff] using h3
          · intro c
            constructor
            · intro hk
              have hd : (AutomatonTransition.symbol c, N.stepSet S c) ∈
                  (S.foldl (collectStep N) (false, [])).2 :=
                (hdnt_mem _ _).2 ⟨c, rfl, hk, rfl⟩
              obtain ⟨d, htg, hdm⟩ := hinst _ hd
              exact ⟨d, htg, hdm⟩
            · intro hk
              have hnm : AutomatonTransition.symbol c ∉
                  ((S.foldl (collectStep N) (false, [])).2).map Prod.fst := by
                intro hmm
                obtain ⟨U, hU⟩ := exists_val_of_mem_keys hmm
                obtain ⟨c', hc', hk', _⟩ := (hdnt_mem _ _).1 hU
                injection hc' with h
                subst h
                exact hk hk'
              rw [hpres _ hnm]
              show tgts dfa1 i _ = []
              rw [htgts1]
              exact inv.unprocessed_empty i hcu _
        · have h2 : i ∈ st.used := by rw [hinvf.used_eq] at hiu; exact hiu
          have hne : i ≠ curr := fun h => hcu (h ▸ h2)
          obtain ⟨S', hm', hacc', hc'⟩ := inv.processed i h2
          refine ⟨S', hinvf.map_mono _ hm', ?_, ?_⟩
          · show (i ∈ st1.dfa.accept_states) ↔ _
            rw [hinvf.accept_eq]
            show (i ∈ dfa1.accept_states) ↔ _
            rw [hdfa1]
            split_ifs
            · rw [mem_setInsert]
              constructor
              · rintro (rfl | h3)
                · exact absurd rfl hne
                · exact hacc'.1 h3
              · intro h3
                exact Or.inr (hacc'.2 h3)
            · exact hacc'
          · intro c
            have hre : tgts st1.dfa i (AutomatonTransition.symbol c) =
                tgts st.dfa i (AutomatonTransition.symbol c) := by
              rw [hinvf.others_tgts i hne]
              exact htgts1 _ _
            obtain ⟨hcy, hcn⟩ := hc' c
            constructor
            · intro hk
              obtain ⟨d, htg, hdm⟩ := hcy hk
              exact ⟨d, by rw [hre]; exact htg, hinvf.map_mono _ hdm⟩
            · intro hk
              rw [hre]
              exact hcn hk }
  · have h' : st1.queue.length + dfa1.last_state = rest.length + st1.dfa.last_state :=
      hinvf.queue_len
    rw [h1l] at h'
    exact h'

theorem toDfaLoop_post (N : FiniteAutomaton) (hsort : N.SortedTrans) (heps : N.EpsFree)
    (htc : N.TargetsClosed) :
    ∀ (fuel : Nat) (st : ToDfaState), DfaInv N st →
      st.queue.length + (2 ^ N.transitions.length - st.dfa.last_state) + 1 ≤ fuel →
      ∃ D M, toDfaLoop N fuel st = some D ∧ DfaPost N D M := by
  intro fuel
  induction fuel with
  | zero =>
    intro st _ hf
    exact absurd hf (by omega)
  | succ fuel ih =>
    intro st hinv hf
    cases hq : st.queue with
    | nil =>
      have hloop : toDfaLoop N (fuel + 1) st = some st.dfa := by
        conv_lhs => rw [toDfaLoop]
        rw [hq]
      have hnodup : (st.mapping.map Prod.fst).Nodup := by
        rw [hinv.map_keys]
        exact List.nodup_reverse.2 (List.nodup_range _)
      refine ⟨st.dfa, st.mapping, hloop, ?_⟩
      exact {
        start_eq := hinv.start_eq
        start_mapped := hinv.start_mapped
        map_nodup := hnodup
        dfa_keys := by
          intro p hp
          have hk : p.1 ∈ st.mapping.map Prod.fst := List.mem_map.2 ⟨p, hp, rfl⟩
          rw [hinv.map_keys, List.mem_reverse, List.mem_range] at hk
          exact hinv.dfa_keys p.1 hk
        dfa_entries := by
          intro p hp e he
          obtain ⟨hc, d, hd, hdlt⟩ := hinv.dfa_entries p hp e he
          exact ⟨hc, d, hd, hinv.dfa_keys d hdlt⟩
        processed := by
          intro p hp
          have hk : p.1 ∈ st.mapping.map Prod.fst := List.mem_map.2 ⟨p, hp, rfl⟩
          rw [hinv.map_keys, List.mem_reverse, List.mem_range] at hk
          have hused : p.1 ∈ st.used := by
            rcases hinv.covered p.1 hk with h | h
            · exact h
            · rw [hq] at h
              simp at h
          obtain ⟨S, hmS, hacc, hcs⟩ := hinv.processed p.1 hused
          have hSe : S = p.2 := by
            have h1 : mapGet? p.1 st.mapping = some S :=
              (mapGet?_eq_some_iff_mem hnodup _ _).2 hmS
            have h2 : mapGet? p.1 st.mapping = some p.2 :=
              (mapGet?_eq_some_iff_mem hnodup _ _).2 (by rw [Prod.mk.eta]; exact hp)
            rw [h1] at h2
            exact Option.some_injective _ h2
          subst hSe
          exact ⟨hacc, hcs⟩ }
    | cons curr rest =>
      by_cases hcu : st.used.contains curr = true
      · have hinv' : DfaInv N { st with queue := rest } := {
          start_eq := hinv.start_eq
          map_keys := hinv.map_keys
          map_rev := hinv.map_rev
          subs_sorted := hinv.subs_sorted
          subs_closed := hinv.subs_closed
          subs_nodup := hinv.subs_nodup
          start_mapped := hinv.start_mapped
          queue_bound := fun i hi =>
            hinv.queue_bound i (by rw [hq]; exact List.mem_cons_of_mem _ hi)
          covered := by
            intro i hi
            rcases hinv.covered i hi with h2 | h2
            · exact Or.inl h2
            · rw [hq] at h2
              rcases List.mem_cons.1 h2 with rfl | h3
              · exact Or.inl (List.elem_iff.1 hcu)
              · exact Or.inr h3
          used_bound := hinv.used_bound
          dfa_sorted := hinv.dfa_sorted
          dfa_keys := hinv.dfa_keys
          dfa_keys_bound := hinv.dfa_keys_bound
          dfa_entries := hinv.dfa_entries
          unprocessed_empty := hinv.unprocessed_empty
          unprocessed_nonacc := hinv.unprocessed_nonacc
          processed := hinv.processed }
        have hf' : ({ st with queue := rest } : ToDfaState).queue.length +
            (2 ^ N.transitions.length -
              ({ st with queue := rest } : ToDfaState).dfa.last_state) + 1 ≤ fuel := by
          show rest.length + (2 ^ N.transitions.length - st.dfa.last_state) + 1 ≤ fuel
          rw [hq] at hf
          simp only [List.length_cons] at hf
          omega
        obtain ⟨D, M, hD, hP⟩ := ih _ hinv' hf'
        refine ⟨D, M, ?_, hP⟩
        have hloop : toDfaLoop N (fuel + 1) st =
            toDfaLoop N fuel { st with queue := rest } := by
          conv_lhs => rw [toDfaLoop]
          rw [hq]
          dsimp only
          rw [if_pos hcu]
        rw [hloop]
        exact hD
      · have hcu' : curr ∉ st.used := fun h => hcu (List.elem_iff.2 h)
        have hcurrlt : curr < st.dfa.last_state :=
          hinv.queue_bound curr (by rw [hq]; exact List.mem_cons_self _ _)
        have hmapnodup : (st.mapping.map Prod.fst).Nodup := by
          rw [hinv.map_keys]
          exact List.nodup_reverse.2 (List.nodup_range _)
        have hkey : curr ∈ st.mapping.map Prod.fst := by
          rw [hinv.map_keys, List.mem_reverse, List.mem_range]
          exact hcurrlt
        obtain ⟨S, hSm⟩ := exists_val_of_mem_keys hkey
        have hS : mapGet? curr st.mapping = some S :=
          (mapGet?_eq_some_iff_mem hmapnodup _ _).2 hSm
        have hSclosed : ∀ s ∈ S, (mapGet? s N.transitions).isSome = true :=
          hinv.subs_closed (curr, S) hSm
        have hcoll : collectTrans N S = some (S.foldl (collectStep N) (false, [])) :=
          collectTrans_eq_fold N S hSclosed
        obtain ⟨st1e, hst1e⟩ : ∃ x, x = toDfaEdges curr
            (S.foldl (collectStep N) (false, [])).2
            { st with
              dfa := (if (S.foldl (collectStep N) (false, [])).1 = true then
                { st.dfa with accept_states := setInsert curr st.dfa.accept_states }
                else st.dfa),
              queue := rest } := ⟨_, rfl⟩
        obtain ⟨hinv2, harith, hls⟩ := toDfa_step N hsort heps htc st hinv curr rest
          hq hcu' S hS
          (if (S.foldl (collectStep N) (false, [])).1 = true then
            { st.dfa with accept_states := setInsert curr st.dfa.accept_states }
            else st.dfa) rfl st1e hst1e
        have e3 : @LE.le Nat _ st1e.dfa.last_state (2 ^ N.transitions.length) := by
          have h := lastState_le_of_inv N _ hinv2
          exact h
        have e2 : @LE.le Nat _ st.dfa.last_state st1e.dfa.last_state := hls
        have hf2 : ({ st1e with used := curr :: st1e.used } : ToDfaState).queue.length +
            (2 ^ N.transitions.length -
              ({ st1e with used := curr :: st1e.used } : ToDfaState).dfa.last_state) +
            1 ≤ fuel := by
          show st1e.queue.length +
            (2 ^ N.transitions.length - st1e.dfa.last_state) + 1 ≤ fuel
          rw [hq] at hf
          simp only [List.length_cons] at hf
          omega
        obtain ⟨D, M, hD, hP⟩ := ih _ hinv2 hf2
        refine ⟨D, M, ?_, hP⟩
        have hloop : toDfaLoop N (fuel + 1) st =
            toDfaLoop N fuel { st1e with used := curr :: st1e.used } := by
          conv_lhs => rw [toDfaLoop]
          rw [hq]
          dsimp only
          rw [if_neg hcu, hS]
          dsimp only
          rw [hcoll, hst1e]
        rw [hloop]
        exact hD

theorem dfaInv_init (N : FiniteAutomaton) (hsc : N.StartsClosed)
    (hss : N.start_states.Sorted (· < ·)) : DfaInv N (toDfaInit N) := {
  start_eq := rfl
  map_keys := rfl
  map_rev := by
    intro i S
    show (i, S) ∈ [((0 : Nat), N.start_states)] ↔
      (S, i) ∈ [(N.start_states, (0 : Nat))]
    simp only [List.mem_singleton, Prod.mk.injEq]
    tauto
  subs_sorted := by
    intro p hp
    have hp' : p ∈ [((0 : Nat), N.start_states)] := hp
    rw [List.mem_singleton] at hp'
    subst hp'
    exact hss
  subs_closed := by
    intro p hp
    have hp' : p ∈ [((0 : Nat), N.start_states)] := hp
    rw [List.mem_singleton] at hp'
    subst hp'
    exact hsc
  subs_nodup := by
    show ([((0 : Nat), N.start_states)].map Prod.snd).Nodup
    simp
  start_mapped := List.mem_singleton.2 rfl
  queue_bound := by
    intro i hi
    have hi' : i ∈ [(0 : Nat)] := hi
    rw [List.mem_singleton] at hi'
    subst hi'
    show (0 : Nat) < 1
    omega
  covered := by
    intro i hi
    have hi' : @LT.lt Nat _ i 1 := hi
    have h0 : @Eq Nat i 0 := by omega
    subst h0
    right
    show (0 : Nat) ∈ [(0 : Nat)]
    exact List.mem_singleton.2 rfl
  used_bound := by
    intro i hi
    have hi' : i ∈ ([] : List Nat) := hi
    simp at hi'
  dfa_sorted := by
    show FiniteAutomaton.SortedTrans ⟨1, [0], [], [(0, [])]⟩
    decide
  dfa_keys := by
    intro i hi
    have hi' : @LT.lt Nat _ i 1 := hi
    have h0 : @Eq Nat i 0 := by omega
    subst h0
    rfl
  dfa_keys_bound := by
    intro i hi
    have hi' : i ∈ ([((0 : Nat), ([] : AutomatonTransitionList))].map
      Prod.fst) := hi
    simp only [List.map_cons, List.map_nil, List.mem_singleton] at hi'
    subst hi'
    show (0 : Nat) < 1
    omega
  dfa_entries := by
    intro p hp e he
    have hp' : p ∈ [((0 : Nat), ([] : AutomatonTransitionList))] := hp
    rw [List.mem_singleton] at hp'
    subst hp'
    simp at he
  unprocessed_empty := by
    intro i _ l
    show (mapGet? l ((mapGet? i
      [((0 : Nat), ([] : AutomatonTransitionList))]).getD [])).getD [] = []
    cases hg : mapGet? i [((0 : Nat), ([] : AutomatonTransitionList))] with
    | none => rfl
    | some row =>
      have hmem := mapGet?_eq_some_mem hg
      rw [List.mem_singleton] at hmem
      have hrow : row = [] := congrArg Prod.snd hmem
      subst hrow
      rfl
  unprocessed_nonacc := by
    intro i _ h
    have h' : i ∈ ([] : List Nat) := h
    simp at h'
  processed := by
    intro i hi
    have hi' : i ∈ ([] : List Nat) := hi
    simp at hi' }

/-- `to_dfa` always succeeds on a well-formed input NFA and its result
satisfies the subset-construction postcondition. -/
theorem toDfa_post (N : FiniteAutomaton) (hsort : N.SortedTrans) (heps : N.EpsFree)
    (htc : N.TargetsClosed) (hsc : N.StartsClosed)
    (hss : N.start_states.Sorted (· < ·)) :
    ∃ D M, toDfa N = some D ∧ DfaPost N D M := by
  have h1 : 1 ≤ 2 ^ N.transitions.length := Nat.one_le_two_pow
  refine toDfaLoop_post N hsort heps htc (2 ^ N.transitions.length + 2) (toDfaInit N)
    (dfaInv_init N hsc hss) ?_
  show (1 : Nat) + (2 ^ N.transitions.length - 1) + 1 ≤ 2 ^ N.transitions.length + 2
  omega

/-- The language simulation of the subset construction: a mapped pair of a DFA
state and an NFA subset stays mapped along every word, or both runs die. -/
theorem toDfa_sim (N D : FiniteAutomaton)
    (M : List (Nat × List Nat)) (hpost : DfaPost N D M) :
    ∀ (w : List Char) (i : Nat) (S : List Nat), (i, S) ∈ M →
      (∃ j, D.runSet [i] w = [j] ∧ (j, N.runSet S w) ∈ M) ∨
        (D.runSet [i] w = [] ∧ N.runSet S w = []) := by
  intro w
  induction w with
  | nil =>
    intro i S hm
    exact Or.inl ⟨i, rfl, hm⟩
  | cons c w ih =>
    intro i S hm
    obtain ⟨_, hc⟩ := hpost.processed (i, S) hm
    obtain ⟨hyes, hno⟩ := hc c
    by_cases hk : KeyExists N S c
    · obtain ⟨d, htg, hdm⟩ := hyes hk
      have h1 : D.runSet [i] (c :: w) = D.runSet [d] w := by
        show D.runSet (D.stepSet [i] c) w = _
        rw [stepSet_single D i d c htg]
      have h2 : N.runSet S (c :: w) = N.runSet (N.stepSet S c) w := rfl
      rw [h1, h2]
      exact ih d (N.stepSet S c) hdm
    · have htg := hno hk
      right
      constructor
      · show D.runSet (D.stepSet [i] c) w = []
        rw [stepSet_single_nil D i c htg]
        exact runSet_nil_start D w
      · show N.runSet (N.stepSet S c) w = []
        rw [stepSet_nil_of_not_keyExists N S c hk]
        exact runSet_nil_start N w

/-- Claim C2: for every ε-free NFA whose start, accept and transition-target
states all belong to its transitions map (with the `BTreeMap`/`BTreeSet`
representation invariants: sorted transition tables and a sorted start set),
`to_dfa` succeeds, its result is deterministic in the sense of invariant I5
(exactly one start state, no ε-edges, at most one target per (state, symbol)
pair), and it accepts exactly the same language, word by word. -/
theorem to_dfa_deterministic_and_language (N : FiniteAutomaton)
    (hsort : N.SortedTrans) (hss : N.start_states.Sorted (· < ·))
    (heps : N.EpsFree) (hsc : N.StartsClosed)
    (_hac : ∀ s ∈ N.accept_states, (mapGet? s N.transitions).isSome = true)
    (htc : N.TargetsClosed) :
    ∃ D, toDfa N = some D ∧ D.IsDfa ∧
      ∀ w : List Char, D.acceptsWord w = N.acceptsWord w := by
  obtain ⟨D, M, hD, hpost⟩ := toDfa_post N hsort heps htc hsc hss
  refine ⟨D, hD, ⟨?_, ?_, ?_⟩, ?_⟩
  · rw [hpost.start_eq]
    rfl
  · intro p hp e he
    obtain ⟨⟨c, hc⟩, _⟩ := hpost.dfa_entries p hp e he
    rw [hc]
    intro h
    cases h
  · intro p hp e he
    obtain ⟨_, d, hd, _⟩ := hpost.dfa_entries p hp e he
    rw [hd]
    exact le_refl _
  · intro w
    have hDtgt : ∀ s l t, t ∈ tgts D s l →
        (mapGet? t D.transitions).isSome = true := by
      intro s l t ht
      unfold tgts at ht
      cases hrow : mapGet? s D.transitions with
      | none => rw [hrow] at ht; simp [mapGet?] at ht
      | some row =>
        rw [hrow] at ht
        simp only [Option.getD_some] at ht
        cases htos : mapGet? l row with
        | none => rw [htos] at ht; simp at ht
        | some tos =>
          rw [htos] at ht
          simp only [Option.getD_some] at ht
          obtain ⟨_, d, hd, hkey⟩ := hpost.dfa_entries (s, row)
            (mapGet?_eq_some_mem hrow) (l, tos) (mapGet?_eq_some_mem htos)
          have htos2 : tos = [d] := hd
          rw [htos2, List.mem_singleton] at ht
          subst ht
          exact hkey
    have hNtgt : ∀ s l t, t ∈ tgts N s l →
        (mapGet? t N.transitions).isSome = true :=
      fun _ _ _ ht => tgts_closed htc ht
    have hD0 : (mapGet? (0 : Nat) D.transitions).isSome = true :=
      hpost.dfa_keys (0, N.start_states) hpost.start_mapped
    have hDe : D.acceptsWord w =
        some ((D.runSet [0] w).any (fun s => D.accept_states.contains s)) := by
      show D.acceptsWordFrom w D.start_states = _
      rw [hpost.start_eq]
      refine acceptsWordFrom_eq D hDtgt w [0] ?_
      intro s hs
      rw [List.mem_singleton] at hs
      subst hs
      exact hD0
    have hNe : N.acceptsWord w =
        some ((N.runSet N.start_states w).any (fun s => N.accept_states.contains s)) :=
      acceptsWordFrom_eq N hNtgt w N.start_states hsc
    rw [hDe, hNe]
    congr 1
    rcases toDfa_sim N D M hpost w 0 N.start_states hpost.start_mapped with
      ⟨j, hj, hjm⟩ | ⟨hD2, hN2⟩
    · rw [hj]
      obtain ⟨hacc, _⟩ := hpost.processed (j, N.runSet N.start_states w) hjm
      have h1 : ([j].any fun s => D.accept_states.contains s) =
          D.accept_states.contains j := by simp
      rw [h1]
      by_cases hjmem : j ∈ D.accept_states
      · have hct : D.accept_states.contains j = true := List.elem_iff.2 hjmem
        rw [hct]
        obtain ⟨s, hs, hsa⟩ := hacc.1 hjmem
        have hcs : N.accept_states.contains s = true := List.elem_iff.2 hsa
        exact (List.any_eq_true.2 ⟨s, hs, hcs⟩).symm
      · have hrt : D.accept_states.contains j = false :=
          Bool.eq_false_iff.2 (fun h => hjmem (List.elem_iff.1 h))
        rw [hrt]
        symm
        refine List.any_eq_false.2 ?_
        intro s hs h
        exact hjmem (hacc.2 ⟨s, hs, List.elem_iff.1 h⟩)
    · rw [hD2, hN2]
      rfl

/-- Witness for C2 at a concrete two-state ε-free NFA. -/
theorem to_dfa_deterministic_and_language_witness :
    ∃ D, toDfa exSmallDfa = some D ∧ D.IsDfa ∧
      ∀ w : List Char, D.acceptsWord w = exSmallDfa.acceptsWord w :=
  to_dfa_deterministic_and_language exSmallDfa (by decide) (by decide) (by decide)
    (by decide) (by decide) (by decide)

/-! ## Claim C1: Thompson construction -/

theorem frag_counter_le : ∀ (R : RegexOps) (s a c : Nat), c ≤ (frag R s a c).2 := by
  intro R
  induction R with
  | either l r ihl ihr =>
    intro s a c
    have h1 := ihl c (c + 1) (c + 2)
    have h2 := ihr (frag l c (c + 1) (c + 2)).2 ((frag l c (c + 1) (c + 2)).2 + 1)
      ((frag l c (c + 1) (c + 2)).2 + 2)
    show c ≤ (frag r (frag l c (c + 1) (c + 2)).2 ((frag l c (c + 1) (c + 2)).2 + 1)
      ((frag l c (c + 1) (c + 2)).2 + 2)).2
    omega
  | consecutive l r ihl ihr =>
    intro s a c
    have h1 := ihl s c (c + 1)
    have h2 := ihr c a (frag l s c (c + 1)).2
    show c ≤ (frag r c a (frag l s c (c + 1)).2).2
    omega
  | noneOrMore x ihx =>
    intro s a c
    have h1 := ihx c (c + 1) (c + 2)
    show c ≤ (frag x c (c + 1) (c + 2)).2
    omega
  | noneOrOnce x ihx =>
    intro s a c
    have h1 := ihx c (c + 1) (c + 2)
    show c ≤ (frag x c (c + 1) (c + 2)).2
    omega
  | onceOrMore x ihx =>
    intro s a c
    have h1 := ihx c (c + 1) (c + 2)
    show c ≤ (frag x c (c + 1) (c + 2)).2
    omega
  | symbol ch => intro s a c; exact le_refl c
  | epsilon => intro s a c; exact le_refl c

/-- Every fragment edge runs from `s` or an internal state (allocated at or
above `c`) to `a` or an internal state. -/
theorem frag_edge_shape : ∀ (R : RegexOps) (s a c u t : Nat) (l : AutomatonTransition),
    (u, l, t) ∈ (frag R s a c).1 →
      (u = s ∨ (c ≤ u ∧ u < (frag R s a c).2)) ∧
      (t = a ∨ (c ≤ t ∧ t < (frag R s a c).2)) := by
  intro R
  induction R with
  | either l r ihl ihr =>
    intro s a c u t lb he
    have hc1 := frag_counter_le l c (c + 1) (c + 2)
    have hc2 := frag_counter_le r (frag l c (c + 1) (c + 2)).2
      ((frag l c (c + 1) (c + 2)).2 + 1) ((frag l c (c + 1) (c + 2)).2 + 2)
    have he2 : (u, lb, t) ∈ (s, AutomatonTransition.epsilon, c) ::
        (c + 1, AutomatonTransition.epsilon, a) ::
        (frag l c (c + 1) (c + 2)).1 ++
        ((s, AutomatonTransition.epsilon, (frag l c (c + 1) (c + 2)).2) ::
          ((frag l c (c + 1) (c + 2)).2 + 1, AutomatonTransition.epsilon, a) ::
          (frag r (frag l c (c + 1) (c + 2)).2 ((frag l c (c + 1) (c + 2)).2 + 1)
            ((frag l c (c + 1) (c + 2)).2 + 2)).1) := he
    show (u = s ∨ (c ≤ u ∧ u < (frag r (frag l c (c + 1) (c + 2)).2
        ((frag l c (c + 1) (c + 2)).2 + 1) ((frag l c (c + 1) (c + 2)).2 + 2)).2)) ∧
      (t = a ∨ (c ≤ t ∧ t < (frag r (frag l c (c + 1) (c + 2)).2
        ((frag l c (c + 1) (c + 2)).2 + 1) ((frag l c (c + 1) (c + 2)).2 + 2)).2))
    have he3 : (u = s ∧ t = c) ∨ (u = c + 1 ∧ t = a) ∨
        ((u, lb, t) ∈ (frag l c (c + 1) (c + 2)).1) ∨
        (u = s ∧ t = (frag l c (c + 1) (c + 2)).2) ∨
        (u = (frag l c (c + 1) (c + 2)).2 + 1 ∧ t = a) ∨
        ((u, lb, t) ∈ (frag r (frag l c (c + 1) (c + 2)).2
          ((frag l c (c + 1) (c + 2)).2 + 1) ((frag l c (c + 1) (c + 2)).2 + 2)).1) := by
      simp only [List.mem_cons, List.mem_append, Prod.mk.injEq] at he2
      tauto
    rcases he3 with ⟨rfl, rfl⟩ | ⟨rfl, rfl⟩ | hm | ⟨rfl, rfl⟩ | ⟨rfl, rfl⟩ | hm
    · exact ⟨Or.inl rfl, Or.inr (by omega)⟩
    · exact ⟨Or.inr (by omega), Or.inl rfl⟩
    · obtain ⟨h1, h2⟩ := ihl c (c + 1) (c + 2) u t lb hm
      exact ⟨Or.inr (by omega), Or.inr (by omega)⟩
    · exact ⟨Or.inl rfl, Or.inr (by omega)⟩
    · exact ⟨Or.inr (by omega), Or.inl rfl⟩
    · obtain ⟨h1, h2⟩ := ihr (frag l c (c + 1) (c + 2)).2
        ((frag l c (c + 1) (c + 2)).2 + 1) ((frag l c (c + 1) (c + 2)).2 + 2) u t lb hm
      exact ⟨Or.inr (by omega), Or.inr (by omega)⟩
  | consecutive l r ihl ihr =>
    intro s a c u t lb he
    have hc1 := frag_counter_le l s c (c + 1)
    have hc2 := frag_counter_le r c a (frag l s c (c + 1)).2
    have he2 : (u, lb, t) ∈ (frag l s c (c + 1)).1 ++
        (frag r c a (frag l s c (c + 1)).2).1 := he
    show (u = s ∨ (c ≤ u ∧ u < (frag r c a (frag l s c (c + 1)).2).2)) ∧
      (t = a ∨ (c ≤ t ∧ t < (frag r c a (frag l s c (c + 1)).2).2))
    rw [List.mem_append] at he2
    rcases he2 with hm | hm
    · obtain ⟨h1, h2⟩ := ihl s c (c + 1) u t lb hm
      constructor
      · rcases h1 with rfl | h1
        · exact Or.inl rfl
        · exact Or.inr (by omega)
      · exact Or.inr (by rcases h2 with rfl | h2 <;> omega)
    · obtain ⟨h1, h2⟩ := ihr c a (frag l s c (c + 1)).2 u t lb hm
      constructor
      · exact Or.inr (by rcases h1 with rfl | h1 <;> omega)
      · rcases h2 with rfl | h2
        · exact Or.inl rfl
        · exact Or.inr (by omega)
  | noneOrMore x ihx =>
    intro s a c u t lb he
    have hc1 := frag_counter_le x c (c + 1) (c + 2)
    have he2 : (u, lb, t) ∈ (s, AutomatonTransition.epsilon, c) ::
        (s, AutomatonTransition.epsilon, a) ::
        (c + 1, AutomatonTransition.epsilon, a) ::
        (c + 1, AutomatonTransition.epsilon, c) ::
        (frag x c (c + 1) (c + 2)).1 := he
    show (u = s ∨ (c ≤ u ∧ u < (frag x c (c + 1) (c + 2)).2)) ∧
      (t = a ∨ (c ≤ t ∧ t < (frag x c (c + 1) (c + 2)).2))
    have he3 : (u = s ∧ t = c) ∨ (u = s ∧ t = a) ∨ (u = c + 1 ∧ t = a) ∨
        (u = c + 1 ∧ t = c) ∨ ((u, lb, t) ∈ (frag x c (c + 1) (c + 2)).1) := by
      simp only [List.mem_cons, Prod.mk.injEq] at he2
      tauto
    rcases he3 with ⟨rfl, rfl⟩ | ⟨rfl, rfl⟩ | ⟨rfl, rfl⟩ | ⟨rfl, rfl⟩ | hm
    · exact ⟨Or.inl rfl, Or.inr (by omega)⟩
    · exact ⟨Or.inl rfl, Or.inl rfl⟩
    · exact ⟨Or.inr (by omega), Or.inl rfl⟩
    · exact ⟨Or.inr (by omega), Or.inr (by omega)⟩
    · obtain ⟨h1, h2⟩ := ihx c (c + 1) (c + 2) u t lb hm
      exact ⟨Or.inr (by rcases h1 with rfl | h1 <;> omega),
        Or.inr (by rcases h2 with rfl | h2 <;> omega)⟩
  | noneOrOnce x ihx =>
    intro s a c u t lb he
    have hc1 := frag_counter_le x c (c + 1) (c + 2)
    have he2 : (u, lb, t) ∈ (s, AutomatonTransition.epsilon, c) ::
        (s, AutomatonTransition.epsilon, a) ::
        (c + 1, AutomatonTransition.epsilon, a) ::
        (frag x c (c + 1) (c + 2)).1 := he
    show (u = s ∨ (c ≤ u ∧ u < (frag x c (c + 1) (c + 2)).2)) ∧
      (t = a ∨ (c ≤ t ∧ t < (frag x c (c + 1) (c + 2)).2))
    have he3 : (u = s ∧ t = c) ∨ (u = s ∧ t = a) ∨ (u = c + 1 ∧ t = a) ∨
        ((u, lb, t) ∈ (frag x c (c + 1) (c + 2)).1) := by
      simp only [List.mem_cons, Prod.mk.injEq] at he2
      tauto
    rcases he3 with ⟨rfl, rfl⟩ | ⟨rfl, rfl⟩ | ⟨rfl, rfl⟩ | hm
    · exact ⟨Or.inl rfl, Or.inr (by omega)⟩
    · exact ⟨Or.inl rfl, Or.inl rfl⟩
    · exact ⟨Or.inr (by omega), Or.inl rfl⟩
    · obtain ⟨h1, h2⟩ := ihx c (c + 1) (c + 2) u t lb hm
      exact ⟨Or.inr (by rcases h1 with rfl | h1 <;> omega),
        Or.inr (by rcases h2 with rfl | h2 <;> omega)⟩
  | onceOrMore x ihx =>
    intro s a c u t lb he
    have hc1 := frag_counter_le x c (c + 1) (c + 2)
    have he2 : (u, lb, t) ∈ (s, AutomatonTransition.epsilon, c) ::
        (c + 1, AutomatonTransition.epsilon, a) ::
        (c + 1, AutomatonTransition.epsilon, c) ::
        (frag x c (c + 1) (c + 2)).1 := he
    show (u = s ∨ (c ≤ u ∧ u < (frag x c (c + 1) (c + 2)).2)) ∧
      (t = a ∨ (c ≤ t ∧ t < (frag x c (c + 1) (c + 2)).2))
    have he3 : (u = s ∧ t = c) ∨ (u = c + 1 ∧ t = a) ∨ (u = c + 1 ∧ t = c) ∨
        ((u, lb, t) ∈ (frag x c (c + 1) (c + 2)).1) := by
      simp only [List.mem_cons, Prod.mk.injEq] at he2
      tauto
    rcases he3 with ⟨rfl, rfl⟩ | ⟨rfl, rfl⟩ | ⟨rfl, rfl⟩ | hm
    · exact ⟨Or.inl rfl, Or.inr (by omega)⟩
    · exact ⟨Or.inr (by omega), Or.inl rfl⟩
    · exact ⟨Or.inr (by omega), Or.inr (by omega)⟩
    · obtain ⟨h1, h2⟩ := ihx c (c + 1) (c + 2) u t lb hm
      exact ⟨Or.inr (by rcases h1 with rfl | h1 <;> omega),
        Or.inr (by rcases h2 with rfl | h2 <;> omega)⟩
  | symbol ch =>
    intro s a c u t lb he
    have he2 : (u, lb, t) ∈ [(s, AutomatonTransition.symbol ch, a)] := he
    simp only [List.mem_singleton, Prod.mk.injEq] at he2
    obtain ⟨rfl, _, rfl⟩ := he2
    exact ⟨Or.inl rfl, Or.inl rfl⟩
  | epsilon =>
    intro s a c u t lb he
    have he2 : (u, lb, t) ∈ [(s, AutomatonTransition.epsilon, a)] := he
    simp only [List.mem_singleton, Prod.mk.injEq] at he2
    obtain ⟨rfl, _, rfl⟩ := he2
    exact ⟨Or.inl rfl, Or.inl rfl⟩

theorem natEq {a b : Nat} (h : @Eq Nat a b) : @Eq Nat a b := h

theorem pathIn_mono {E E' : List FragEdge} (h : ∀ e ∈ E, e ∈ E') :
    ∀ {u w v}, PathIn E u w v → PathIn E' u w v := by
  intro u w v hp
  induction hp with
  | refl s => exact PathIn.refl s
  | eps he _ ih => exact PathIn.eps (h _ he) ih
  | sym he _ ih => exact PathIn.sym (h _ he) ih

theorem pathIn_trans {E : List FragEdge} :
    ∀ {u w1 v}, PathIn E u w1 v → ∀ {w2 x}, PathIn E v w2 x →
      PathIn E u (w1 ++ w2) x := by
  intro u w1 v hp
  induction hp with
  | refl s => intro w2 x h2; exact h2
  | eps he _ ih => intro w2 x h2; exact PathIn.eps he (ih h2)
  | sym he _ ih => intro w2 x h2; exact PathIn.sym he (ih h2)

theorem pathIn_of_pathInN {E : List FragEdge} :
    ∀ {n u w v}, PathInN E n u w v → PathIn E u w v := by
  intro n u w v hp
  induction hp with
  | refl s => exact PathIn.refl s
  | eps he _ ih => exact PathIn.eps he ih
  | sym he _ ih => exact PathIn.sym he ih

theorem pathInN_of_pathIn {E : List FragEdge} :
    ∀ {u w v}, PathIn E u w v → ∃ n, PathInN E n u w v := by
  intro u w v hp
  induction hp with
  | refl s => exact ⟨0, PathInN.refl s⟩
  | eps he _ ih =>
    obtain ⟨n, hn⟩ := ih
    exact ⟨n + 1, PathInN.eps he hn⟩
  | sym he _ ih =>
    obtain ⟨n, hn⟩ := ih
    exact ⟨n + 1, PathInN.sym he hn⟩

theorem pathInN_nil_of_no_edges {E : List FragEdge} {u : Nat}
    (h : ∀ lb y, (u, lb, y) ∈ E → False) :
    ∀ {n w v}, PathInN E n u w v → v = u ∧ w = [] := by
  intro n w v hp
  cases hp with
  | refl => exact ⟨rfl, rfl⟩
  | eps he _ => exact absurd he (h _ _)
  | sym he _ => exact absurd he (h _ _)

/-- Confinement: as long as a path starts inside the region `P` and `P` is
closed under `E`-edges except for steps into `exit`, the path splits into an
inner piece (over the sub-edge-list `el`) reaching `exit` and a strictly
shorter remainder. -/
theorem pathInN_region (E el : List FragEdge) (P : Nat → Prop)
    (exit : Nat)
    (hP : ∀ x lb y, (x, lb, y) ∈ E → P x → (x, lb, y) ∈ el ∧ (P y ∨ y = exit)) :
    ∀ n, ∀ u w final, PathInN E n u w final → P u → ¬ P final →
      ∃ w1 w2 k, w = w1 ++ w2 ∧ PathIn el u w1 exit ∧
        PathInN E k exit w2 final ∧ k < n := by
  intro n
  induction n using Nat.strong_induction_on with
  | _ n ih =>
    intro u w final hp hu hf
    cases hp with
    | refl => exact absurd hu hf
    | eps he hrest =>
      obtain ⟨hel, hy⟩ := hP _ _ _ he hu
      rcases hy with hy | rfl
      · obtain ⟨w1, w2, k, rfl, hp1, hp2, hk⟩ :=
          ih _ (Nat.lt_succ_self _) _ _ _ hrest hy hf
        exact ⟨w1, w2, k, rfl, PathIn.eps hel hp1, hp2, Nat.lt_succ_of_lt hk⟩
      · exact ⟨[], w, _, rfl, PathIn.eps hel (PathIn.refl _), hrest,
          Nat.lt_succ_self _⟩
    | sym he hrest =>
      obtain ⟨hel, hy⟩ := hP _ _ _ he hu
      rcases hy with hy | rfl
      · obtain ⟨w1, w2, k, hw, hp1, hp2, hk⟩ :=
          ih _ (Nat.lt_succ_self _) _ _ _ hrest hy hf
        exact ⟨_ :: w1, w2, k, by rw [hw]; rfl, PathIn.sym hel hp1, hp2,
          Nat.lt_succ_of_lt hk⟩
      · exact ⟨[_], _, _, rfl, PathIn.sym hel (PathIn.refl _), hrest,
          Nat.lt_succ_self _⟩

theorem frag_either_eq (l r : RegexOps) (s a c : Nat) :
    frag (RegexOps.either l r) s a c =
      ((s, AutomatonTransition.epsilon, c) :: (c + 1, AutomatonTransition.epsilon, a) ::
        (frag l c (c + 1) (c + 2)).1 ++
        ((s, AutomatonTransition.epsilon, (frag l c (c + 1) (c + 2)).2) ::
          ((frag l c (c + 1) (c + 2)).2 + 1, AutomatonTransition.epsilon, a) ::
          (frag r (frag l c (c + 1) (c + 2)).2 ((frag l c (c + 1) (c + 2)).2 + 1)
            ((frag l c (c + 1) (c + 2)).2 + 2)).1),
        (frag r (frag l c (c + 1) (c + 2)).2 ((frag l c (c + 1) (c + 2)).2 + 1)
          ((frag l c (c + 1) (c + 2)).2 + 2)).2) := rfl

theorem frag_consecutive_eq (l r : RegexOps) (s a c : Nat) :
    frag (RegexOps.consecutive l r) s a c =
      ((frag l s c (c + 1)).1 ++ (frag r c a (frag l s c (c + 1)).2).1,
        (frag r c a (frag l s c (c + 1)).2).2) := rfl

theorem frag_star_eq (x : RegexOps) (s a c : Nat) :
    frag (RegexOps.noneOrMore x) s a c =
      ((s, AutomatonTransition.epsilon, c) :: (s, AutomatonTransition.epsilon, a) ::
        (c + 1, AutomatonTransition.epsilon, a) :: (c + 1, AutomatonTransition.epsilon, c) ::
        (frag x c (c + 1) (c + 2)).1,
        (frag x c (c + 1) (c + 2)).2) := rfl

theorem frag_opt_eq (x : RegexOps) (s a c : Nat) :
    frag (RegexOps.noneOrOnce x) s a c =
      ((s, AutomatonTransition.epsilon, c) :: (s, AutomatonTransition.epsilon, a) ::
        (c + 1, AutomatonTransition.epsilon, a) :: (frag x c (c + 1) (c + 2)).1,
        (frag x c (c + 1) (c + 2)).2) := rfl

theorem frag_plus_eq (x : RegexOps) (s a c : Nat) :
    frag (RegexOps.onceOrMore x) s a c =
      ((s, AutomatonTransition.epsilon, c) :: (c + 1, AutomatonTransition.epsilon, a) ::
        (c + 1, AutomatonTransition.epsilon, c) :: (frag x c (c + 1) (c + 2)).1,
        (frag x c (c + 1) (c + 2)).2) := rfl

theorem pathIn_snoc_eps {E : List FragEdge} :
    ∀ {u w v}, PathIn E u w v →
      ∀ {x}, (v, AutomatonTransition.epsilon, x) ∈ E → PathIn E u w x := by
  intro u w v hp
  induction hp with
  | refl s => intro x he; exact PathIn.eps he (PathIn.refl x)
  | eps he2 _ ih => intro x he; exact PathIn.eps he2 (ih he)
  | sym he2 _ ih => intro x he; exact PathIn.sym he2 (ih he)

/-- Iterations of the inner fragment: a star match gives a path from the
fragment's exit `ra` back around the loop and out to `a`. -/
theorem pathIn_star_aux (x : RegexOps) (rs ra a : Nat) (E : List FragEdge)
    (hback : (ra, AutomatonTransition.epsilon, rs) ∈ E)
    (hout : (ra, AutomatonTransition.epsilon, a) ∈ E)
    (hx : ∀ w, Matches x w → PathIn E rs w ra) :
    ∀ w, Matches (RegexOps.noneOrMore x) w → PathIn E ra w a := by
  have key : ∀ (R : RegexOps) (w : List Char), Matches R w →
      R = RegexOps.noneOrMore x → PathIn E ra w a := by
    intro R w hm2
    induction hm2 with
    | starNil => exact fun _ => PathIn.eps hout (PathIn.refl a)
    | starCons h1 _ _ ih2 =>
      intro he
      injection he with hxe
      subst hxe
      exact PathIn.eps hback (pathIn_trans (hx _ h1) (ih2 rfl))
    | eitherL _ _ => exact fun he => RegexOps.noConfusion he
    | eitherR _ _ => exact fun he => RegexOps.noConfusion he
    | consecutive _ _ _ _ => exact fun he => RegexOps.noConfusion he
    | optNone => exact fun he => RegexOps.noConfusion he
    | optOne _ _ => exact fun he => RegexOps.noConfusion he
    | plus _ _ _ _ => exact fun he => RegexOps.noConfusion he
    | symbol => exact fun he => RegexOps.noConfusion he
    | epsilon => exact fun he => RegexOps.noConfusion he
  exact fun w hm => key _ w hm rfl

/-- Completeness of the Thompson fragment: a matching word is spelled by some
path from `s` to `a`. -/
theorem pathIn_frag_complete : ∀ (R : RegexOps) (s a c : Nat) (w : List Char),
    Matches R w → PathIn (frag R s a c).1 s w a := by
  intro R
  induction R with
  | either l r ihl ihr =>
    intro s a c w hm
    rw [frag_either_eq]
    cases hm with
    | eitherL h =>
      refine PathIn.eps (show (s, AutomatonTransition.epsilon, c) ∈ _ by simp) ?_
      refine pathIn_snoc_eps (pathIn_mono ?_ (ihl c (c + 1) (c + 2) w h)) (by simp)
      intro e he
      simp only [List.mem_cons, List.mem_append]
      tauto
    | eitherR h =>
      refine PathIn.eps (show (s, AutomatonTransition.epsilon,
        (frag l c (c + 1) (c + 2)).2) ∈ _ by simp) ?_
      refine pathIn_snoc_eps (pathIn_mono ?_ (ihr (frag l c (c + 1) (c + 2)).2
        ((frag l c (c + 1) (c + 2)).2 + 1) ((frag l c (c + 1) (c + 2)).2 + 2) w h))
        (by simp)
      intro e he
      simp only [List.mem_cons, List.mem_append]
      tauto
  | consecutive l r ihl ihr =>
    intro s a c w hm
    rw [frag_consecutive_eq]
    cases hm with
    | consecutive h1 h2 =>
      refine pathIn_trans (pathIn_mono ?_ (ihl s c (c + 1) _ h1))
        (pathIn_mono ?_ (ihr c a (frag l s c (c + 1)).2 _ h2))
      · intro e he
        exact List.mem_append_left _ he
      · intro e he
        exact List.mem_append_right _ he
  | noneOrMore x ihx =>
    intro s a c w hm
    rw [frag_star_eq]
    cases hm with
    | starNil =>
      exact PathIn.eps (show (s, AutomatonTransition.epsilon, a) ∈ _ by simp)
        (PathIn.refl a)
    | starCons h1 h2 =>
      refine PathIn.eps (show (s, AutomatonTransition.epsilon, c) ∈ _ by simp) ?_
      refine pathIn_trans (pathIn_mono ?_ (ihx c (c + 1) (c + 2) _ h1)) ?_
      · intro e he
        simp only [List.mem_cons]
        tauto
      · refine pathIn_star_aux x c (c + 1) a _ (by simp) (by simp) ?_ _ h2
        intro w' hw'
        refine pathIn_mono ?_ (ihx c (c + 1) (c + 2) w' hw')
        intro e he
        simp only [List.mem_cons]
        tauto
  | noneOrOnce x ihx =>
    intro s a c w hm
    rw [frag_opt_eq]
    cases hm with
    | optNone =>
      exact PathIn.eps (show (s, AutomatonTransition.epsilon, a) ∈ _ by simp)
        (PathIn.refl a)
    | optOne h =>
      refine PathIn.eps (show (s, AutomatonTransition.epsilon, c) ∈ _ by simp) ?_
      refine pathIn_snoc_eps (pathIn_mono ?_ (ihx c (c + 1) (c + 2) _ h)) (by simp)
      intro e he
      simp only [List.mem_cons]
      tauto
  | onceOrMore x ihx =>
    intro s a c w hm
    rw [frag_plus_eq]
    cases hm with
    | plus h1 h2 =>
      refine PathIn.eps (show (s, AutomatonTransition.epsilon, c) ∈ _ by simp) ?_
      refine pathIn_trans (pathIn_mono ?_ (ihx c (c + 1) (c + 2) _ h1)) ?_
      · intro e he
        simp only [List.mem_cons]
        tauto
      · refine pathIn_star_aux x c (c + 1) a _ (by simp) (by simp) ?_ _ h2
        intro w' hw'
        refine pathIn_mono ?_ (ihx c (c + 1) (c + 2) w' hw')
        intro e he
        simp only [List.mem_cons]
        tauto
  | symbol ch =>
    intro s a c w hm
    cases hm with
    | symbol => exact PathIn.sym (List.mem_singleton.2 rfl) (PathIn.refl a)
  | epsilon =>
    intro s a c w hm
    cases hm with
    | epsilon => exact PathIn.eps (List.mem_singleton.2 rfl) (PathIn.refl a)

/-- Soundness of the star loop: any walk from the inner fragment's entry `rs`
to the outer exit `a` decomposes into iterations of the inner fragment. -/
theorem star_loop_sound (x : RegexOps) (ex E : List FragEdge) (rs ra a : Nat)
    (hraa : ra ≠ a)
    (P : Nat → Prop) (hPrs : P rs) (hPa : ¬ P a)
    (hP : ∀ u lb y, (u, lb, y) ∈ E → P u → (u, lb, y) ∈ ex ∧ (P y ∨ y = ra))
    (hra_edges : ∀ lb y, (ra, lb, y) ∈ E →
      lb = AutomatonTransition.epsilon ∧ (y = a ∨ y = rs))
    (ha_edges : ∀ lb y, (a, lb, y) ∈ E → False)
    (hx : ∀ w, PathIn ex rs w ra → Matches x w) :
    ∀ n w, PathInN E n rs w a → Matches (RegexOps.noneOrMore x) w := by
  intro n
  induction n using Nat.strong_induction_on with
  | _ n ih =>
    intro w hp
    obtain ⟨w1, w2, k, rfl, hp1, hp2, hk⟩ :=
      pathInN_region E ex P ra hP n rs _ a hp hPrs hPa
    cases hp2 with
    | refl => exact absurd rfl hraa
    | eps he hrest =>
      obtain ⟨-, hy⟩ := hra_edges _ _ he
      rcases hy with rfl | rfl
      · obtain ⟨-, rfl⟩ := pathInN_nil_of_no_edges ha_edges hrest
        exact Matches.starCons (hx _ hp1) Matches.starNil
      · exact Matches.starCons (hx _ hp1) (ih _ (by omega) _ hrest)
    | sym he _ =>
      obtain ⟨hlb, -⟩ := hra_edges _ _ he
      exact AutomatonTransition.noConfusion hlb

/-- Soundness of the Thompson fragment: every word spelled by a path from `s`
to `a` matches the regex. -/
theorem pathIn_frag_sound : ∀ (R : RegexOps) (s a c : Nat), s < c → a < c → s ≠ a →
    ∀ w, PathIn (frag R s a c).1 s w a → Matches R w := by
  intro R
  induction R with
  | either l r ihl ihr =>
    intro s a c hs ha hne w hp
    obtain ⟨el, hel⟩ : ∃ t, (frag l c (c + 1) (c + 2)).1 = t := ⟨_, rfl⟩
    obtain ⟨c1, hc1d⟩ : ∃ t : Nat, (frag l c (c + 1) (c + 2)).2 = t := ⟨_, rfl⟩
    obtain ⟨er, her⟩ : ∃ t, (frag r c1 (c1 + 1) (c1 + 2)).1 = t := ⟨_, rfl⟩
    obtain ⟨c2, hc2d⟩ : ∃ t : Nat, (frag r c1 (c1 + 1) (c1 + 2)).2 = t := ⟨_, rfl⟩
    have hcc1 : c + 2 ≤ c1 := by
      rw [← hc1d]
      exact frag_counter_le l c (c + 1) (c + 2)
    have hcc2 : c1 + 2 ≤ c2 := by
      rw [← hc2d]
      exact frag_counter_le r c1 (c1 + 1) (c1 + 2)
    have hshl : ∀ (u t : Nat) (lb : AutomatonTransition), (u, lb, t) ∈ el →
        (u = c ∨ (c + 2 ≤ u ∧ u < c1)) ∧ (t = c + 1 ∨ (c + 2 ≤ t ∧ t < c1)) := by
      intro u t lb hm
      have h := frag_edge_shape l c (c + 1) (c + 2) u t lb (by rw [hel]; exact hm)
      rw [hc1d] at h
      exact h
    have hshr : ∀ (u t : Nat) (lb : AutomatonTransition), (u, lb, t) ∈ er →
        (u = c1 ∨ (c1 + 2 ≤ u ∧ u < c2)) ∧ (t = c1 + 1 ∨ (c1 + 2 ≤ t ∧ t < c2)) := by
      intro u t lb hm
      have h := frag_edge_shape r c1 (c1 + 1) (c1 + 2) u t lb (by rw [her]; exact hm)
      rw [hc2d] at h
      exact h
    rw [frag_either_eq, hel, hc1d, her] at hp
    obtain ⟨n, hpn⟩ := pathInN_of_pathIn hp
    have ha_edges : ∀ lb y, (a, lb, y) ∈ (s, AutomatonTransition.epsilon, c) ::
        (c + 1, AutomatonTransition.epsilon, a) :: el ++
        ((s, AutomatonTransition.epsilon, c1) ::
          (c1 + 1, AutomatonTransition.epsilon, a) :: er) → False := by
      intro lb y hm
      simp only [List.mem_cons, List.mem_append, Prod.mk.injEq] at hm
      rcases hm with (⟨h1, -⟩ | ⟨h1, -⟩ | hm) | (⟨h1, -⟩ | ⟨h1, -⟩ | hm)
      · have := natEq h1; omega
      · have := natEq h1; omega
      · rcases (hshl _ _ _ hm).1 with h2 | ⟨h2, h3⟩ <;> omega
      · have := natEq h1; omega
      · have := natEq h1; omega
      · rcases (hshr _ _ _ hm).1 with h2 | ⟨h2, h3⟩ <;> omega
    cases hpn with
    | refl => exact absurd rfl hne
    | @eps n' s' t' u' w' he hrest =>
      have ht : (AutomatonTransition.epsilon = AutomatonTransition.epsilon) ∧
          (t' = c ∨ t' = c1) := by
        simp only [List.mem_cons, List.mem_append, Prod.mk.injEq] at he
        rcases he with (⟨-, -, rfl⟩ | ⟨h1, -⟩ | hm) | (⟨-, -, rfl⟩ | ⟨h1, -⟩ | hm)
        · exact ⟨rfl, Or.inl rfl⟩
        · have := natEq h1; omega
        · rcases (hshl _ _ _ hm).1 with h2 | ⟨h2, h3⟩ <;> omega
        · exact ⟨rfl, Or.inr rfl⟩
        · have := natEq h1; omega
        · rcases (hshr _ _ _ hm).1 with h2 | ⟨h2, h3⟩ <;> omega
      rcases ht.2 with h | h <;> replace h := h.symm <;> subst h
      · -- entered the left branch
        obtain ⟨w1, w2, k, rfl, hp1, hp2, -⟩ :=
          pathInN_region _ el (fun u => u = c ∨ (c + 2 ≤ u ∧ u < c1)) (c + 1)
            (by
              intro u lb y hm hu
              simp only [List.mem_cons, List.mem_append, Prod.mk.injEq] at hm
              rcases hm with (⟨h1, -⟩ | ⟨h1, -⟩ | hm) | (⟨h1, -⟩ | ⟨h1, -⟩ | hm)
              · have := natEq h1; omega
              · have := natEq h1; omega
              · refine ⟨hm, ?_⟩
                rcases (hshl _ _ _ hm).2 with h2 | h2
                · exact Or.inr h2
                · exact Or.inl (Or.inr h2)
              · have := natEq h1; omega
              · have := natEq h1; omega
              · rcases (hshr _ _ _ hm).1 with h2 | ⟨h2, h3⟩ <;> omega)
            n' _ _ _ hrest (Or.inl rfl)
            (by intro h; rcases h with rfl | h <;> omega)
        have hw2 : w2 = [] := by
          cases hp2 with
          | refl => omega
          | @eps n2 s2 t2 u2 w2' he2 hrest2 =>
            have ht2 : t2 = a := by
              simp only [List.mem_cons, List.mem_append, Prod.mk.injEq] at he2
              rcases he2 with (⟨h1, -⟩ | ⟨-, -, rfl⟩ | hm) | (⟨h1, -⟩ | ⟨h1, -⟩ | hm)
              · have := natEq h1; omega
              · rfl
              · rcases (hshl _ _ _ hm).1 with h2 | ⟨h2, h3⟩ <;> omega
              · have := natEq h1; omega
              · have := natEq h1; omega
              · rcases (hshr _ _ _ hm).1 with h2 | ⟨h2, h3⟩ <;> omega
            subst ht2
            exact (pathInN_nil_of_no_edges ha_edges hrest2).2
          | @sym n2 s2 t2 u2 c2' w2' he2 hrest2 =>
            exfalso
            simp only [List.mem_cons, List.mem_append, Prod.mk.injEq] at he2
            rcases he2 with (⟨h1, -⟩ | ⟨-, h2, -⟩ | hm) | (⟨h1, -⟩ | ⟨h1, -⟩ | hm)
            · have := natEq h1; omega
            · exact AutomatonTransition.noConfusion h2
            · rcases (hshl _ _ _ hm).1 with h2 | ⟨h2, h3⟩ <;> omega
            · have := natEq h1; omega
            · have := natEq h1; omega
            · rcases (hshr _ _ _ hm).1 with h2 | ⟨h2, h3⟩ <;> omega
        subst hw2
        rw [List.append_nil]
        exact Matches.eitherL (ihl c (c + 1) (c + 2) (by omega) (by omega) (by omega)
          w1 (by rw [hel]; exact hp1))
      · -- entered the right branch
        obtain ⟨w1, w2, k, rfl, hp1, hp2, -⟩ :=
          pathInN_region _ er (fun u => u = c1 ∨ (c1 + 2 ≤ u ∧ u < c2)) (c1 + 1)
            (by
              intro u lb y hm hu
              simp only [List.mem_cons, List.mem_append, Prod.mk.injEq] at hm
              rcases hm with (⟨h1, -⟩ | ⟨h1, -⟩ | hm) | (⟨h1, -⟩ | ⟨h1, -⟩ | hm)
              · have := natEq h1; omega
              · have := natEq h1; omega
              · rcases (hshl _ _ _ hm).1 with h2 | ⟨h2, h3⟩ <;> omega
              · have := natEq h1; omega
              · have := natEq h1; omega
              · refine ⟨hm, ?_⟩
                rcases (hshr _ _ _ hm).2 with h2 | h2
                · exact Or.inr h2
                · exact Or.inl (Or.inr h2))
            n' _ _ _ hrest (Or.inl rfl)
            (by intro h; rcases h with rfl | h <;> omega)
        have hw2 : w2 = [] := by
          cases hp2 with
          | refl => omega
          | @eps n2 s2 t2 u2 w2' he2 hrest2 =>
            have ht2 : t2 = a := by
              simp only [List.mem_cons, List.mem_append, Prod.mk.injEq] at he2
              rcases he2 with (⟨h1, -⟩ | ⟨h1, -⟩ | hm) | (⟨h1, -⟩ | ⟨-, -, rfl⟩ | hm)
              · have := natEq h1; omega
              · have := natEq h1; omega
              · rcases (hshl _ _ _ hm).1 with h2 | ⟨h2, h3⟩ <;> omega
              · have := natEq h1; omega
              · rfl
              · rcases (hshr _ _ _ hm).1 with h2 | ⟨h2, h3⟩ <;> omega
            subst ht2
            exact (pathInN_nil_of_no_edges ha_edges hrest2).2
          | @sym n2 s2 t2 u2 c2' w2' he2 hrest2 =>
            exfalso
            simp only [List.mem_cons, List.mem_append, Prod.mk.injEq] at he2
            rcases he2 with (⟨h1, -⟩ | ⟨h1, -⟩ | hm) | (⟨h1, -⟩ | ⟨-, h2, -⟩ | hm)
            · have := natEq h1; omega
            · have := natEq h1; omega
            · rcases (hshl _ _ _ hm).1 with h2 | ⟨h2, h3⟩ <;> omega
            · have := natEq h1; omega
            · exact AutomatonTransition.noConfusion h2
            · rcases (hshr _ _ _ hm).1 with h2 | ⟨h2, h3⟩ <;> omega
        subst hw2
        rw [List.append_nil]
        exact Matches.eitherR (ihr c1 (c1 + 1) (c1 + 2) (by omega) (by omega) (by omega)
          w1 (by rw [her]; exact hp1))
    | @sym n' s' t' u' ch w' he hrest =>
      exfalso
      simp only [List.mem_cons, List.mem_append, Prod.mk.injEq] at he
      rcases he with (⟨-, h2, -⟩ | ⟨h1, -⟩ | hm) | (⟨-, h2, -⟩ | ⟨h1, -⟩ | hm)
      · exact AutomatonTransition.noConfusion h2
      · have := natEq h1; omega
      · rcases (hshl _ _ _ hm).1 with h2 | ⟨h2, h3⟩ <;> omega
      · exact AutomatonTransition.noConfusion h2
      · have := natEq h1; omega
      · rcases (hshr _ _ _ hm).1 with h2 | ⟨h2, h3⟩ <;> omega
  | consecutive l r ihl ihr =>
    intro s a c hs ha hne w hp
    obtain ⟨el, hel⟩ : ∃ t, (frag l s c (c + 1)).1 = t := ⟨_, rfl⟩
    obtain ⟨c1, hc1d⟩ : ∃ t : Nat, (frag l s c (c + 1)).2 = t := ⟨_, rfl⟩
    obtain ⟨er, her⟩ : ∃ t, (frag r c a c1).1 = t := ⟨_, rfl⟩
    obtain ⟨c2, hc2d⟩ : ∃ t : Nat, (frag r c a c1).2 = t := ⟨_, rfl⟩
    have hcc1 : c + 1 ≤ c1 := by
      rw [← hc1d]
      exact frag_counter_le l s c (c + 1)
    have hcc2 : c1 ≤ c2 := by
      rw [← hc2d]
      exact frag_counter_le r c a c1
    have hshl : ∀ (u t : Nat) (lb : AutomatonTransition), (u, lb, t) ∈ el →
        (u = s ∨ (c + 1 ≤ u ∧ u < c1)) ∧ (t = c ∨ (c + 1 ≤ t ∧ t < c1)) := by
      intro u t lb hm
      have h := frag_edge_shape l s c (c + 1) u t lb (by rw [hel]; exact hm)
      rw [hc1d] at h
      exact h
    have hshr : ∀ (u t : Nat) (lb : AutomatonTransition), (u, lb, t) ∈ er →
        (u = c ∨ (c1 ≤ u ∧ u < c2)) ∧ (t = a ∨ (c1 ≤ t ∧ t < c2)) := by
      intro u t lb hm
      have h := frag_edge_shape r c a c1 u t lb (by rw [her]; exact hm)
      rw [hc2d] at h
      exact h
    rw [frag_consecutive_eq, hel, hc1d, her] at hp
    obtain ⟨n, hpn⟩ := pathInN_of_pathIn hp
    obtain ⟨w1, w2, k, rfl, hp1, hp2, -⟩ :=
      pathInN_region _ el (fun u => u = s ∨ (c + 1 ≤ u ∧ u < c1)) c
        (by
          intro u lb y hm hu
          rw [List.mem_append] at hm
          rcases hm with hm | hm
          · refine ⟨hm, ?_⟩
            rcases (hshl _ _ _ hm).2 with h2 | h2
            · exact Or.inr h2
            · exact Or.inl (Or.inr h2)
          · exfalso
            rcases (hshr _ _ _ hm).1 with rfl | h2
            · rcases hu with rfl | hu <;> omega
            · rcases hu with rfl | hu <;> omega)
        n _ _ _ hpn (Or.inl rfl)
        (by intro h; rcases h with rfl | h; exact hne rfl; omega)
    obtain ⟨w21, w22, k2, rfl, hp21, hp22, -⟩ :=
      pathInN_region _ er (fun u => u = c ∨ (c1 ≤ u ∧ u < c2)) a
        (by
          intro u lb y hm hu
          rw [List.mem_append] at hm
          rcases hm with hm | hm
          · exfalso
            rcases (hshl _ _ _ hm).1 with rfl | h2
            · rcases hu with h3 | hu
              · have := natEq h3; omega
              · omega
            · rcases hu with rfl | hu <;> omega
          · refine ⟨hm, ?_⟩
            rcases (hshr _ _ _ hm).2 with h2 | h2
            · exact Or.inr h2
            · exact Or.inl (Or.inr h2))
        k _ _ _ hp2 (Or.inl rfl)
        (by intro h; rcases h with rfl | h <;> omega)
    have hw22 : w22 = [] := by
      refine (pathInN_nil_of_no_edges ?_ hp22).2
      intro lb y hm
      rw [List.mem_append] at hm
      rcases hm with hm | hm
      · rcases (hshl _ _ _ hm).1 with rfl | h2
        · exact hne rfl
        · omega
      · rcases (hshr _ _ _ hm).1 with h3 | h2
        · have := natEq h3; omega
        · omega
    subst hw22
    rw [List.append_nil]
    exact Matches.consecutive
      (ihl s c (c + 1) (by omega) (by omega) (by omega) w1 (by rw [hel]; exact hp1))
      (ihr c a c1 (by omega) (by omega) (by omega) w21 (by rw [her]; exact hp21))
  | noneOrMore x ihx =>
    intro s a c hs ha hne w hp
    obtain ⟨ex, hex⟩ : ∃ t, (frag x c (c + 1) (c + 2)).1 = t := ⟨_, rfl⟩
    obtain ⟨c1, hc1d⟩ : ∃ t : Nat, (frag x c (c + 1) (c + 2)).2 = t := ⟨_, rfl⟩
    have hcc1 : c + 2 ≤ c1 := by
      rw [← hc1d]
      exact frag_counter_le x c (c + 1) (c + 2)
    have hsh : ∀ (u t : Nat) (lb : AutomatonTransition), (u, lb, t) ∈ ex →
        (u = c ∨ (c + 2 ≤ u ∧ u < c1)) ∧ (t = c + 1 ∨ (c + 2 ≤ t ∧ t < c1)) := by
      intro u t lb hm
      have h := frag_edge_shape x c (c + 1) (c + 2) u t lb (by rw [hex]; exact hm)
      rw [hc1d] at h
      exact h
    rw [frag_star_eq, hex] at hp
    obtain ⟨n, hpn⟩ := pathInN_of_pathIn hp
    have ha_edges : ∀ lb y, (a, lb, y) ∈ (s, AutomatonTransition.epsilon, c) ::
        (s, AutomatonTransition.epsilon, a) :: (c + 1, AutomatonTransition.epsilon, a) ::
        (c + 1, AutomatonTransition.epsilon, c) :: ex → False := by
      intro lb y hm
      simp only [List.mem_cons, Prod.mk.injEq] at hm
      rcases hm with ⟨h1, -⟩ | ⟨h1, -⟩ | ⟨h1, -⟩ | ⟨h1, -⟩ | hm
      · have := natEq h1; omega
      · have := natEq h1; omega
      · have := natEq h1; omega
      · have := natEq h1; omega
      · rcases (hsh _ _ _ hm).1 with h2 | ⟨h2, h3⟩ <;> omega
    have hloop := star_loop_sound x ex _ c (c + 1) a (by omega)
      (fun u => u = c ∨ (c + 2 ≤ u ∧ u < c1)) (Or.inl rfl)
      (by intro h; rcases h with rfl | h <;> omega)
      (by
        intro u lb y hm hu
        simp only [List.mem_cons, Prod.mk.injEq] at hm
        rcases hm with ⟨h1, -⟩ | ⟨h1, -⟩ | ⟨h1, -⟩ | ⟨h1, -⟩ | hm
        · have := natEq h1; omega
        · have := natEq h1; omega
        · have := natEq h1; omega
        · have := natEq h1; omega
        · refine ⟨hm, ?_⟩
          rcases (hsh _ _ _ hm).2 with h2 | h2
          · exact Or.inr h2
          · exact Or.inl (Or.inr h2))
      (by
        intro lb y hm
        simp only [List.mem_cons, Prod.mk.injEq] at hm
        rcases hm with ⟨h1, -⟩ | ⟨h1, -⟩ | ⟨-, rfl, rfl⟩ | ⟨-, rfl, rfl⟩ | hm
        · have := natEq h1; omega
        · have := natEq h1; omega
        · exact ⟨rfl, Or.inl rfl⟩
        · exact ⟨rfl, Or.inr rfl⟩
        · rcases (hsh _ _ _ hm).1 with h2 | ⟨h2, h3⟩ <;> omega)
      ha_edges
      (fun w' hw' => ihx c (c + 1) (c + 2) (by omega) (by omega) (by omega) w'
        (by rw [hex]; exact hw'))
    cases hpn with
    | refl => exact absurd rfl hne
    | @eps n' s' t' u' w' he hrest =>
      have ht : t' = c ∨ t' = a := by
        simp only [List.mem_cons, Prod.mk.injEq] at he
        rcases he with ⟨-, -, rfl⟩ | ⟨-, -, rfl⟩ | ⟨h1, -⟩ | ⟨h1, -⟩ | hm
        · exact Or.inl rfl
        · exact Or.inr rfl
        · have := natEq h1; omega
        · have := natEq h1; omega
        · rcases (hsh _ _ _ hm).1 with h2 | ⟨h2, h3⟩ <;> omega
      rcases ht with h | h <;> replace h := h.symm <;> subst h
      · exact hloop n' w hrest
      · obtain ⟨-, rfl⟩ := pathInN_nil_of_no_edges ha_edges hrest
        exact Matches.starNil
    | @sym n' s' t' u' ch w' he hrest =>
      exfalso
      simp only [List.mem_cons, Prod.mk.injEq] at he
      rcases he with ⟨-, h2, -⟩ | ⟨-, h2, -⟩ | ⟨h1, -⟩ | ⟨h1, -⟩ | hm
      · exact AutomatonTransition.noConfusion h2
      · exact AutomatonTransition.noConfusion h2
      · have := natEq h1; omega
      · have := natEq h1; omega
      · rcases (hsh _ _ _ hm).1 with h2 | ⟨h2, h3⟩ <;> omega
  | noneOrOnce x ihx =>
    intro s a c hs ha hne w hp
    obtain ⟨ex, hex⟩ : ∃ t, (frag x c (c + 1) (c + 2)).1 = t := ⟨_, rfl⟩
    obtain ⟨c1, hc1d⟩ : ∃ t : Nat, (frag x c (c + 1) (c + 2)).2 = t := ⟨_, rfl⟩
    have hcc1 : c + 2 ≤ c1 := by
      rw [← hc1d]
      exact frag_counter_le x c (c + 1) (c + 2)
    have hsh : ∀ (u t : Nat) (lb : AutomatonTransition), (u, lb, t) ∈ ex →
        (u = c ∨ (c + 2 ≤ u ∧ u < c1)) ∧ (t = c + 1 ∨ (c + 2 ≤ t ∧ t < c1)) := by
      intro u t lb hm
      have h := frag_edge_shape x c (c + 1) (c + 2) u t lb (by rw [hex]; exact hm)
      rw [hc1d] at h
      exact h
    rw [frag_opt_eq, hex] at hp
    obtain ⟨n, hpn⟩ := pathInN_of_pathIn hp
    have ha_edges : ∀ lb y, (a, lb, y) ∈ (s, AutomatonTransition.epsilon, c) ::
        (s, AutomatonTransition.epsilon, a) :: (c + 1, AutomatonTransition.epsilon, a) ::
        ex → False := by
      intro lb y hm
      simp only [List.mem_cons, Prod.mk.injEq] at hm
      rcases hm with ⟨h1, -⟩ | ⟨h1, -⟩ | ⟨h1, -⟩ | hm
      · have := natEq h1; omega
      · have := natEq h1; omega
      · have := natEq h1; omega
      · rcases (hsh _ _ _ hm).1 with h2 | ⟨h2, h3⟩ <;> omega
    cases hpn with
    | refl => exact absurd rfl hne
    | @eps n' s' t' u' w' he hrest =>
      have ht : t' = c ∨ t' = a := by
        simp only [List.mem_cons, Prod.mk.injEq] at he
        rcases he with ⟨-, -, rfl⟩ | ⟨-, -, rfl⟩ | ⟨h1, -⟩ | hm
        · exact Or.inl rfl
        · exact Or.inr rfl
        · have := natEq h1; omega
        · rcases (hsh _ _ _ hm).1 with h2 | ⟨h2, h3⟩ <;> omega
      rcases ht with h | h <;> replace h := h.symm <;> subst h
      · obtain ⟨w1, w2, k, rfl, hp1, hp2, -⟩ :=
          pathInN_region _ ex (fun u => u = c ∨ (c + 2 ≤ u ∧ u < c1)) (c + 1)
            (by
              intro u lb y hm hu
              simp only [List.mem_cons, Prod.mk.injEq] at hm
              rcases hm with ⟨h1, -⟩ | ⟨h1, -⟩ | ⟨h1, -⟩ | hm
              · have := natEq h1; omega
              · have := natEq h1; omega
              · have := natEq h1; omega
              · refine ⟨hm, ?_⟩
                rcases (hsh _ _ _ hm).2 with h2 | h2
                · exact Or.inr h2
                · exact Or.inl (Or.inr h2))
            n' _ _ _ hrest (Or.inl rfl)
            (by intro h; rcases h with rfl | h <;> omega)
        have hw2 : w2 = [] := by
          cases hp2 with
          | refl => omega
          | @eps n2 s2 t2 u2 w2' he2 hrest2 =>
            have ht2 : t2 = a := by
              simp only [List.mem_cons, Prod.mk.injEq] at he2
              rcases he2 with ⟨h1, -⟩ | ⟨h1, -⟩ | ⟨-, -, rfl⟩ | hm
              · have := natEq h1; omega
              · have := natEq h1; omega
              · rfl
              · rcases (hsh _ _ _ hm).1 with h2 | ⟨h2, h3⟩ <;> omega
            subst ht2
            exact (pathInN_nil_of_no_edges ha_edges hrest2).2
          | @sym n2 s2 t2 u2 c2' w2' he2 hrest2 =>
            exfalso
            simp only [List.mem_cons, Prod.mk.injEq] at he2
            rcases he2 with ⟨h1, -⟩ | ⟨h1, -⟩ | ⟨-, h2, -⟩ | hm
            · have := natEq h1; omega
            · have := natEq h1; omega
            · exact AutomatonTransition.noConfusion h2
            · rcases (hsh _ _ _ hm).1 with h2 | ⟨h2, h3⟩ <;> omega
        subst hw2
        rw [List.append_nil]
        exact Matches.optOne (ihx c (c + 1) (c + 2) (by omega) (by omega) (by omega)
          w1 (by rw [hex]; exact hp1))
      · obtain ⟨-, rfl⟩ := pathInN_nil_of_no_edges ha_edges hrest
        exact Matches.optNone
    | @sym n' s' t' u' ch w' he hrest =>
      exfalso
      simp only [List.mem_cons, Prod.mk.injEq] at he
      rcases he with ⟨-, h2, -⟩ | ⟨-, h2, -⟩ | ⟨h1, -⟩ | hm
      · exact AutomatonTransition.noConfusion h2
      · exact AutomatonTransition.noConfusion h2
      · have := natEq h1; omega
      · rcases (hsh _ _ _ hm).1 with h2 | ⟨h2, h3⟩ <;> omega
  | onceOrMore x ihx =>
    intro s a c hs ha hne w hp
    obtain ⟨ex, hex⟩ : ∃ t, (frag x c (c + 1) (c + 2)).1 = t := ⟨_, rfl⟩
    obtain ⟨c1, hc1d⟩ : ∃ t : Nat, (frag x c (c + 1) (c + 2)).2 = t := ⟨_, rfl⟩
    have hcc1 : c + 2 ≤ c1 := by
      rw [← hc1d]
      exact frag_counter_le x c (c + 1) (c + 2)
    have hsh : ∀ (u t : Nat) (lb : AutomatonTransition), (u, lb, t) ∈ ex →
        (u = c ∨ (c + 2 ≤ u ∧ u < c1)) ∧ (t = c + 1 ∨ (c + 2 ≤ t ∧ t < c1)) := by
      intro u t lb hm
      have h := frag_edge_shape x c (c + 1) (c + 2) u t lb (by rw [hex]; exact hm)
      rw [hc1d] at h
      exact h
    rw [frag_plus_eq, hex] at hp
    obtain ⟨n, hpn⟩ := pathInN_of_pathIn hp
    have ha_edges : ∀ lb y, (a, lb, y) ∈ (s, AutomatonTransition.epsilon, c) ::
        (c + 1, AutomatonTransition.epsilon, a) ::
        (c + 1, AutomatonTransition.epsilon, c) :: ex → False := by
      intro lb y hm
      simp only [List.mem_cons, Prod.mk.injEq] at hm
      rcases hm with ⟨h1, -⟩ | ⟨h1, -⟩ | ⟨h1, -⟩ | hm
      · have := natEq h1; omega
      · have := natEq h1; omega
      · have := natEq h1; omega
      · rcases (hsh _ _ _ hm).1 with h2 | ⟨h2, h3⟩ <;> omega
    have hregion : ∀ u lb y, (u, lb, y) ∈ (s, AutomatonTransition.epsilon, c) ::
        (c + 1, AutomatonTransition.epsilon, a) ::
        (c + 1, AutomatonTransition.epsilon, c) :: ex →
        (u = c ∨ (c + 2 ≤ u ∧ u < c1)) → (u, lb, y) ∈ ex ∧
          ((y = c ∨ (c + 2 ≤ y ∧ y < c1)) ∨ y = c + 1) := by
      intro u lb y hm hu
      simp only [List.mem_cons, Prod.mk.injEq] at hm
      rcases hm with ⟨h1, -⟩ | ⟨h1, -⟩ | ⟨h1, -⟩ | hm
      · have := natEq h1; omega
      · have := natEq h1; omega
      · have := natEq h1; omega
      · refine ⟨hm, ?_⟩
        rcases (hsh _ _ _ hm).2 with h2 | h2
        · exact Or.inr h2
        · exact Or.inl (Or.inr h2)
    have hloop := star_loop_sound x ex _ c (c + 1) a (by omega)
      (fun u => u = c ∨ (c + 2 ≤ u ∧ u < c1)) (Or.inl rfl)
      (by intro h; rcases h with rfl | h <;> omega)
      hregion
      (by
        intro lb y hm
        simp only [List.mem_cons, Prod.mk.injEq] at hm
        rcases hm with ⟨h1, -⟩ | ⟨-, rfl, rfl⟩ | ⟨-, rfl, rfl⟩ | hm
        · have := natEq h1; omega
        · exact ⟨rfl, Or.inl rfl⟩
        · exact ⟨rfl, Or.inr rfl⟩
        · rcases (hsh _ _ _ hm).1 with h2 | ⟨h2, h3⟩ <;> omega)
      ha_edges
      (fun w' hw' => ihx c (c + 1) (c + 2) (by omega) (by omega) (by omega) w'
        (by rw [hex]; exact hw'))
    cases hpn with
    | refl => exact absurd rfl hne
    | @eps n' s' t' u' w' he hrest =>
      have ht : t' = c := by
        simp only [List.mem_cons, Prod.mk.injEq] at he
        rcases he with ⟨-, -, rfl⟩ | ⟨h1, -⟩ | ⟨h1, -⟩ | hm
        · rfl
        · have := natEq h1; omega
        · have := natEq h1; omega
        · rcases (hsh _ _ _ hm).1 with h2 | ⟨h2, h3⟩ <;> omega
      replace ht := ht.symm
      subst ht
      obtain ⟨w1, w2, k, rfl, hp1, hp2, hk⟩ :=
        pathInN_region _ ex (fun u => u = c ∨ (c + 2 ≤ u ∧ u < c1)) (c + 1)
          hregion n' _ _ _ hrest (Or.inl rfl)
          (by intro h; rcases h with rfl | h <;> omega)
      have hm1 : Matches x w1 :=
        ihx c (c + 1) (c + 2) (by omega) (by omega) (by omega) w1
          (by rw [hex]; exact hp1)
      cases hp2 with
      | refl => omega
      | @eps n2 s2 t2 u2 w2' he2 hrest2 =>
        have ht2 : t2 = a ∨ t2 = c := by
          simp only [List.mem_cons, Prod.mk.injEq] at he2
          rcases he2 with ⟨h1, -⟩ | ⟨-, -, rfl⟩ | ⟨-, -, rfl⟩ | hm
          · have := natEq h1; omega
          · exact Or.inl rfl
          · exact Or.inr rfl
          · rcases (hsh _ _ _ hm).1 with h2 | ⟨h2, h3⟩ <;> omega
        rcases ht2 with h | h <;> replace h := h.symm <;> subst h
        · obtain ⟨-, rfl⟩ := pathInN_nil_of_no_edges ha_edges hrest2
          exact Matches.plus hm1 Matches.starNil
        · exact Matches.plus hm1 (hloop n2 _ hrest2)
      | @sym n2 s2 t2 u2 c2' w2' he2 hrest2 =>
        exfalso
        simp only [List.mem_cons, Prod.mk.injEq] at he2
        rcases he2 with ⟨h1, -⟩ | ⟨-, h2, -⟩ | ⟨-, h2, -⟩ | hm
        · have := natEq h1; omega
        · exact AutomatonTransition.noConfusion h2
        · exact AutomatonTransition.noConfusion h2
        · rcases (hsh _ _ _ hm).1 with h2 | ⟨h2, h3⟩ <;> omega
    | @sym n' s' t' u' ch w' he hrest =>
      exfalso
      simp only [List.mem_cons, Prod.mk.injEq] at he
      rcases he with ⟨-, h2, -⟩ | ⟨h1, -⟩ | ⟨h1, -⟩ | hm
      · exact AutomatonTransition.noConfusion h2
      · have := natEq h1; omega
      · have := natEq h1; omega
      · rcases (hsh _ _ _ hm).1 with h2 | ⟨h2, h3⟩ <;> omega
  | symbol ch =>
    intro s a c hs ha hne w hp
    obtain ⟨n, hpn⟩ := pathInN_of_pathIn hp
    cases hpn with
    | refl => exact absurd rfl hne
    | @eps n' s' t' u' w' he hrest =>
      exfalso
      have he2 : (s, AutomatonTransition.epsilon, t') ∈
          [(s, AutomatonTransition.symbol ch, a)] := he
      simp only [List.mem_singleton, Prod.mk.injEq] at he2
      exact AutomatonTransition.noConfusion he2.2.1
    | @sym n' s' t' u' ch' w' he hrest =>
      have he2 : (s, AutomatonTransition.symbol ch', t') ∈
          [(s, AutomatonTransition.symbol ch, a)] := he
      simp only [List.mem_singleton, Prod.mk.injEq] at he2
      obtain ⟨-, hc, ht'⟩ := he2
      have hc' : ch = ch' := by injection hc with h; exact h.symm
      subst hc'
      replace ht' := ht'.symm
      subst ht'
      obtain ⟨-, rfl⟩ := pathInN_nil_of_no_edges (by
        intro lb y hm
        have hm2 : (a, lb, y) ∈ [(s, AutomatonTransition.symbol ch, a)] := hm
        simp only [List.mem_singleton, Prod.mk.injEq] at hm2
        exact hne hm2.1.symm) hrest
      exact Matches.symbol
  | epsilon =>
    intro s a c hs ha hne w hp
    obtain ⟨n, hpn⟩ := pathInN_of_pathIn hp
    cases hpn with
    | refl => exact absurd rfl hne
    | @eps n' s' t' u' w' he hrest =>
      have he2 : (s, AutomatonTransition.epsilon, t') ∈
          [(s, AutomatonTransition.epsilon, a)] := he
      simp only [List.mem_singleton, Prod.mk.injEq] at he2
      obtain ⟨-, -, ht'⟩ := he2
      replace ht' := ht'.symm
      subst ht'
      obtain ⟨-, rfl⟩ := pathInN_nil_of_no_edges (by
        intro lb y hm
        have hm2 : (a, lb, y) ∈ [(s, AutomatonTransition.epsilon, a)] := hm
        simp only [List.mem_singleton, Prod.mk.injEq] at hm2
        exact hne hm2.1.symm) hrest
      exact Matches.epsilon
    | @sym n' s' t' u' ch' w' he hrest =>
      exfalso
      have he2 : (s, AutomatonTransition.symbol ch', t') ∈
          [(s, AutomatonTransition.epsilon, a)] := he
      simp only [List.mem_singleton, Prod.mk.injEq] at he2
      exact AutomatonTransition.noConfusion he2.2.1

/-! ## Claim C1, part 2: `traverse_regex` installs exactly the fragment edges -/

theorem traverseRegex_either (fa : FiniteAutomaton) (l r : RegexOps) (s a : Nat) :
    traverseRegex fa (RegexOps.either l r) s a = trEitherL (trEitherL fa l s a) r s a := rfl

theorem traverseRegex_consecutive (fa : FiniteAutomaton) (l r : RegexOps)
    (s a : Nat) :
    traverseRegex fa (RegexOps.consecutive l r) s a =
      traverseRegex (traverseRegex (fa.addState).1 l s fa.last_state) r fa.last_state a := rfl

theorem traverseRegex_star (fa : FiniteAutomaton) (x : RegexOps) (s a : Nat) :
    traverseRegex fa (RegexOps.noneOrMore x) s a = trStar fa x s a := rfl

theorem traverseRegex_opt (fa : FiniteAutomaton) (x : RegexOps) (s a : Nat) :
    traverseRegex fa (RegexOps.noneOrOnce x) s a = trOpt fa x s a := rfl

theorem traverseRegex_plus (fa : FiniteAutomaton) (x : RegexOps) (s a : Nat) :
    traverseRegex fa (RegexOps.onceOrMore x) s a = trPlus fa x s a := rfl

theorem traverseRegex_symbol (fa : FiniteAutomaton) (c : Char) (s a : Nat) :
    traverseRegex fa (RegexOps.symbol c) s a =
      fa.addTransition s (AutomatonTransition.symbol c) a := rfl

theorem traverseRegex_epsilon (fa : FiniteAutomaton) (s a : Nat) :
    traverseRegex fa RegexOps.epsilon s a =
      fa.addTransition s AutomatonTransition.epsilon a := rfl

theorem mem_tgts_addTransition (fa : FiniteAutomaton) (u : Nat)
    (l : AutomatonTransition) (v : Nat) (hs : fa.SortedTrans)
    (x : Nat) (m : AutomatonTransition) (t : Nat) :
    t ∈ tgts (fa.addTransition u l v) x m ↔
      t ∈ tgts fa x m ∨ (x = u ∧ m = l ∧ t = v) := by
  rw [tgts_addTransition fa u l v hs]
  by_cases h : x = u ∧ m = l
  · obtain ⟨rfl, rfl⟩ := h
    rw [if_pos ⟨rfl, rfl⟩, mem_setInsert]
    tauto
  · rw [if_neg h]
    constructor
    · exact fun hm => Or.inl hm
    · intro hm
      rcases hm with hm | ⟨h1, h2, -⟩
      · exact hm
      · exact absurd ⟨h1, h2⟩ h

theorem tgts_addState_kb (fa : FiniteAutomaton) (hs : fa.SortedTrans)
    (hkb : ∀ u ∈ fa.transitions.map Prod.fst, u < fa.last_state)
    (x : Nat) (l : AutomatonTransition) :
    tgts (fa.addState).1 x l = tgts fa x l := by
  rw [tgts_addState fa hs]
  split_ifs with h
  · subst h
    have hnm : fa.last_state ∉ fa.transitions.map Prod.fst := by
      intro hmem
      exact absurd (hkb _ hmem) (lt_irrefl _)
    unfold tgts
    rw [mapGet?_eq_none_of_not_mem hnm]
    rfl
  · rfl

theorem mem_keys_addTransition (fa : FiniteAutomaton) (u : Nat)
    (l : AutomatonTransition) (v : Nat) (x : Nat) :
    x ∈ (fa.addTransition u l v).transitions.map Prod.fst ↔
      x = u ∨ x ∈ fa.transitions.map Prod.fst := by
  rw [transitions_addTransition]
  exact mem_map_fst_mapUpdate _ _ _ _ _

theorem trExt_addState (fa : FiniteAutomaton) (hs : fa.SortedTrans)
    (hkb : ∀ u ∈ fa.transitions.map Prod.fst, u < fa.last_state) :
    TRExt fa (fa.addState).1 [] := by
  refine ⟨sortedTrans_addState fa hs, ?_, ?_, rfl, rfl, ?_, ?_⟩
  · intro u hu
    rcases (mem_keys_addState fa u).1 hu with rfl | hu2
    · rw [addState_last]; exact Nat.lt_succ_self _
    · rw [addState_last]
      exact Nat.lt_succ_of_lt (hkb u hu2)
  · rw [addState_last]; exact Nat.le_succ _
  · intro u
    rw [mem_keys_addState, addState_last]
    constructor
    · rintro (rfl | hu)
      · exact Or.inr ⟨le_refl _, Nat.lt_succ_self _⟩
      · exact Or.inl hu
    · rintro (hu | ⟨h1, h2⟩)
      · exact Or.inr hu
      · exact Or.inl (Nat.le_antisymm (Nat.lt_succ_iff.1 h2) h1)
  · intro u l t
    rw [tgts_addState_kb fa hs hkb]
    simp

theorem trExt_addTransition (fa : FiniteAutomaton) (u : Nat)
    (l : AutomatonTransition) (v : Nat) (hs : fa.SortedTrans)
    (hkb : ∀ x ∈ fa.transitions.map Prod.fst, x < fa.last_state)
    (hu : u ∈ fa.transitions.map Prod.fst) :
    TRExt fa (fa.addTransition u l v) [(u, l, v)] := by
  refine ⟨sortedTrans_addTransition fa u l v hs, ?_, ?_, rfl, rfl, ?_, ?_⟩
  · intro x hx
    rcases (mem_keys_addTransition fa u l v x).1 hx with rfl | hx2
    · rw [addTransition_last]; exact hkb _ hu
    · rw [addTransition_last]; exact hkb _ hx2
  · rw [addTransition_last]
  · intro x
    rw [mem_keys_addTransition, addTransition_last]
    constructor
    · rintro (rfl | hx)
      · exact Or.inl hu
      · exact Or.inl hx
    · rintro (hx | ⟨h1, h2⟩)
      · exact Or.inr hx
      · exact absurd (lt_of_le_of_lt h1 h2) (lt_irrefl _)
  · intro x m t
    rw [mem_tgts_addTransition fa u l v hs]
    simp only [List.mem_singleton, Prod.mk.injEq]

theorem trExt_trans (fa fa1 fa2 : FiniteAutomaton) (E1 E2 : List FragEdge)
    (h1 : TRExt fa fa1 E1) (h2 : TRExt fa1 fa2 E2) : TRExt fa fa2 (E1 ++ E2) := by
  refine ⟨h2.sorted, h2.kb, le_trans h1.last_ge h2.last_ge,
    h2.starts.trans h1.starts, h2.accepts.trans h1.accepts, ?_, ?_⟩
  · intro u
    rw [h2.keys, h1.keys]
    have hle := h1.last_ge
    have hle2 := h2.last_ge
    constructor
    · rintro ((hu | ⟨a1, a2⟩) | ⟨b1, b2⟩)
      · exact Or.inl hu
      · exact Or.inr ⟨a1, lt_of_lt_of_le a2 hle2⟩
      · exact Or.inr ⟨le_trans hle b1, b2⟩
    · rintro (hu | ⟨c1, c2⟩)
      · exact Or.inl (Or.inl hu)
      · by_cases hu1 : u < fa1.last_state
        · exact Or.inl (Or.inr ⟨c1, hu1⟩)
        · exact Or.inr ⟨le_of_not_lt hu1, c2⟩
  · intro u m t
    rw [h2.tg, h1.tg]
    simp only [List.mem_append]
    tauto

theorem trExt_congr (fa fa1 : FiniteAutomaton) (E E' : List FragEdge)
    (h : TRExt fa fa1 E) (he : ∀ e, e ∈ E ↔ e ∈ E') : TRExt fa fa1 E' := by
  refine ⟨h.sorted, h.kb, h.last_ge, h.starts, h.accepts, h.keys, ?_⟩
  intro u m t
  rw [h.tg, he]

theorem trExt_refl (fa : FiniteAutomaton) (hsort : fa.SortedTrans)
    (hkb : ∀ u ∈ fa.transitions.map Prod.fst, u < fa.last_state) : TRExt fa fa [] := by
  refine ⟨hsort, hkb, le_refl _, rfl, rfl, ?_, ?_⟩
  · intro u
    constructor
    · exact Or.inl
    · rintro (hu | ⟨h1, h2⟩)
      · exact hu
      · exact absurd (lt_of_le_of_lt h1 h2) (lt_irrefl _)
  · intro u l t
    simp

theorem addEdges_last : ∀ (es : List FragEdge) (fa : FiniteAutomaton),
    (addEdges es fa).last_state = fa.last_state := by
  intro es
  induction es with
  | nil => intro fa; rfl
  | cons e rest ih =>
    intro fa
    have h : addEdges (e :: rest) fa = addEdges rest (fa.addTransition e.1 e.2.1 e.2.2) := rfl
    rw [h, ih, addTransition_last]

theorem trExt_addEdges : ∀ (es : List FragEdge) (fa : FiniteAutomaton),
    fa.SortedTrans → (∀ u ∈ fa.transitions.map Prod.fst, u < fa.last_state) →
    (∀ e ∈ es, e.1 ∈ fa.transitions.map Prod.fst) →
    TRExt fa (addEdges es fa) es := by
  intro es
  induction es with
  | nil => intro fa hsort hkb _; exact trExt_refl fa hsort hkb
  | cons e rest ih =>
    intro fa hsort hkb hes
    have he1 := hes e (List.mem_cons_self e rest)
    have h1 := trExt_addTransition fa e.1 e.2.1 e.2.2 hsort hkb he1
    have hkeys : ∀ e2 ∈ rest,
        e2.1 ∈ (fa.addTransition e.1 e.2.1 e.2.2).transitions.map Prod.fst := by
      intro e2 he2
      exact (h1.keys _).2 (Or.inl (hes e2 (List.mem_cons_of_mem e he2)))
    have h2 := ih _ h1.sorted h1.kb hkeys
    exact trExt_trans _ _ _ _ _ h1 h2

theorem trWiring_spec (x : RegexOps)
    (ih : ∀ (fa : FiniteAutomaton) (s a : Nat), fa.SortedTrans →
      (∀ u ∈ fa.transitions.map Prod.fst, u < fa.last_state) →
      s ∈ fa.transitions.map Prod.fst → a ∈ fa.transitions.map Prod.fst →
      TRExt fa (traverseRegex fa x s a) (frag x s a fa.last_state).1 ∧
        (traverseRegex fa x s a).last_state = (frag x s a fa.last_state).2)
    (fa : FiniteAutomaton) (es : List FragEdge)
    (hsort : fa.SortedTrans)
    (hkb : ∀ u ∈ fa.transitions.map Prod.fst, u < fa.last_state)
    (hes : ∀ e ∈ es, e.1 ∈ fa.transitions.map Prod.fst ∨ e.1 = fa.last_state ∨
      e.1 = fa.last_state + 1) :
    TRExt fa (traverseRegex (addEdges es ((fa.addState).1.addState).1) x fa.last_state
        (fa.last_state + 1))
      (es ++ (frag x fa.last_state (fa.last_state + 1) (fa.last_state + 2)).1) ∧
      (traverseRegex (addEdges es ((fa.addState).1.addState).1) x fa.last_state
        (fa.last_state + 1)).last_state =
        (frag x fa.last_state (fa.last_state + 1) (fa.last_state + 2)).2 := by
  have e1 := trExt_addState fa hsort hkb
  have e2 := trExt_addState _ e1.sorted e1.kb
  have h02 := trExt_trans _ _ _ _ _ e1 e2
  have h2l : ((fa.addState).1.addState).1.last_state = fa.last_state + 2 := rfl
  have hkey2 : ∀ e ∈ es, e.1 ∈ ((fa.addState).1.addState).1.transitions.map Prod.fst := by
    intro e he
    rcases hes e he with h | h | h
    · exact (h02.keys _).2 (Or.inl h)
    · exact (h02.keys _).2 (Or.inr (by rw [h2l]; omega))
    · exact (h02.keys _).2 (Or.inr (by rw [h2l]; omega))
  have h03 := trExt_trans _ _ _ _ _ h02 (trExt_addEdges es _ h02.sorted h02.kb hkey2)
  have h3l : (addEdges es ((fa.addState).1.addState).1).last_state = fa.last_state + 2 := by
    rw [addEdges_last, h2l]
  have hcs : fa.last_state ∈
      (addEdges es ((fa.addState).1.addState).1).transitions.map Prod.fst :=
    (h03.keys _).2 (Or.inr (by rw [h3l]; omega))
  have hca : fa.last_state + 1 ∈
      (addEdges es ((fa.addState).1.addState).1).transitions.map Prod.fst :=
    (h03.keys _).2 (Or.inr (by rw [h3l]; omega))
  obtain ⟨h5, h5l⟩ := ih _ fa.last_state (fa.last_state + 1) h03.sorted h03.kb hcs hca
  rw [h3l] at h5 h5l
  refine ⟨?_, h5l⟩
  refine trExt_congr _ _ _ _ (trExt_trans _ _ _ _ _ h03 h5) ?_
  intro e
  simp only [List.mem_append, List.append_nil, List.nil_append]

/-- `traverse_regex` extends the automaton by exactly the compositional
Thompson fragment: same endpoint data, fresh keys on the allocated interval,
and one new edge per fragment edge. -/
theorem traverseRegex_spec : ∀ (R : RegexOps) (fa : FiniteAutomaton) (s a : Nat),
    fa.SortedTrans → (∀ u ∈ fa.transitions.map Prod.fst, u < fa.last_state) →
    s ∈ fa.transitions.map Prod.fst → a ∈ fa.transitions.map Prod.fst →
    TRExt fa (traverseRegex fa R s a) (frag R s a fa.last_state).1 ∧
      (traverseRegex fa R s a).last_state = (frag R s a fa.last_state).2 := by
  intro R
  induction R with
  | either l r ihl ihr =>
    intro fa s a hsort hkb hs ha
    obtain ⟨hez1, hlz1⟩ := trWiring_spec l ihl fa
      [(s, AutomatonTransition.epsilon, fa.last_state),
       (fa.last_state + 1, AutomatonTransition.epsilon, a)] hsort hkb
      (by
        intro e he
        simp only [List.mem_cons, List.not_mem_nil, or_false] at he
        rcases he with rfl | rfl
        · exact Or.inl hs
        · exact Or.inr (Or.inr rfl))
    set A := traverseRegex (addEdges
      [(s, AutomatonTransition.epsilon, fa.last_state),
       (fa.last_state + 1, AutomatonTransition.epsilon, a)]
      ((fa.addState).1.addState).1) l fa.last_state (fa.last_state + 1) with hA
    obtain ⟨hez2, hlz2⟩ := trWiring_spec r ihr A
      [(s, AutomatonTransition.epsilon, A.last_state),
       (A.last_state + 1, AutomatonTransition.epsilon, a)] hez1.sorted hez1.kb
      (by
        intro e he
        simp only [List.mem_cons, List.not_mem_nil, or_false] at he
        rcases he with rfl | rfl
        · exact Or.inl ((hez1.keys s).2 (Or.inl hs))
        · exact Or.inr (Or.inr rfl))
    constructor
    · refine trExt_congr _ _ _ _ (trExt_trans _ _ _ _ _ hez1 hez2) ?_
      intro e
      rw [hlz1]
      exact Iff.rfl
    · calc (traverseRegex fa (RegexOps.either l r) s a).last_state
          = (frag r A.last_state (A.last_state + 1) (A.last_state + 2)).2 := hlz2
        _ = (frag (RegexOps.either l r) s a fa.last_state).2 := by
              rw [hlz1]
              exact rfl
  | consecutive l r ihl ihr =>
    intro fa s a hsort hkb hs ha
    have e1 := trExt_addState fa hsort hkb
    have h1l : (fa.addState).1.last_state = fa.last_state + 1 := rfl
    have hs1 : s ∈ (fa.addState).1.transitions.map Prod.fst := (e1.keys s).2 (Or.inl hs)
    have ha1 : a ∈ (fa.addState).1.transitions.map Prod.fst := (e1.keys a).2 (Or.inl ha)
    have hm1 : fa.last_state ∈ (fa.addState).1.transitions.map Prod.fst :=
      (e1.keys _).2 (Or.inr (by rw [h1l]; omega))
    obtain ⟨hez1, hlz1⟩ := ihl (fa.addState).1 s fa.last_state e1.sorted e1.kb hs1 hm1
    set A := traverseRegex (fa.addState).1 l s fa.last_state with hA
    obtain ⟨hez2, hlz2⟩ := ihr A fa.last_state a hez1.sorted hez1.kb
      ((hez1.keys _).2 (Or.inl hm1)) ((hez1.keys a).2 (Or.inl ha1))
    constructor
    · refine trExt_congr _ _ _ _
        (trExt_trans _ _ _ _ _ (trExt_trans _ _ _ _ _ e1 hez1) hez2) ?_
      intro e
      rw [hlz1]
      exact Iff.rfl
    · calc (traverseRegex fa (RegexOps.consecutive l r) s a).last_state
          = (frag r fa.last_state a A.last_state).2 := hlz2
        _ = (frag (RegexOps.consecutive l r) s a fa.last_state).2 := by
              rw [hlz1]
              exact rfl
  | noneOrMore x ihx =>
    intro fa s a hsort hkb hs ha
    obtain ⟨hez, hlz⟩ := trWiring_spec x ihx fa
      [(s, AutomatonTransition.epsilon, fa.last_state),
       (s, AutomatonTransition.epsilon, a),
       (fa.last_state + 1, AutomatonTransition.epsilon, a),
       (fa.last_state + 1, AutomatonTransition.epsilon, fa.last_state)] hsort hkb
      (by
        intro e he
        simp only [List.mem_cons, List.not_mem_nil, or_false] at he
        rcases he with rfl | rfl | rfl | rfl
        · exact Or.inl hs
        · exact Or.inl hs
        · exact Or.inr (Or.inr rfl)
        · exact Or.inr (Or.inr rfl))
    exact ⟨hez, hlz⟩
  | noneOrOnce x ihx =>
    intro fa s a hsort hkb hs ha
    obtain ⟨hez, hlz⟩ := trWiring_spec x ihx fa
      [(s, AutomatonTransition.epsilon, fa.last_state),
       (s, AutomatonTransition.epsilon, a),
       (fa.last_state + 1, AutomatonTransition.epsilon, a)] hsort hkb
      (by
        intro e he
        simp only [List.mem_cons, List.not_mem_nil, or_false] at he
        rcases he with rfl | rfl | rfl
        · exact Or.inl hs
        · exact Or.inl hs
        · exact Or.inr (Or.inr rfl))
    exact ⟨hez, hlz⟩
  | onceOrMore x ihx =>
    intro fa s a hsort hkb hs ha
    obtain ⟨hez, hlz⟩ := trWiring_spec x ihx fa
      [(s, AutomatonTransition.epsilon, fa.last_state),
       (fa.last_state + 1, AutomatonTransition.epsilon, a),
       (fa.last_state + 1, AutomatonTransition.epsilon, fa.last_state)] hsort hkb
      (by
        intro e he
        simp only [List.mem_cons, List.not_mem_nil, or_false] at he
        rcases he with rfl | rfl | rfl
        · exact Or.inl hs
        · exact Or.inr (Or.inr rfl)
        · exact Or.inr (Or.inr rfl))
    exact ⟨hez, hlz⟩
  | symbol ch =>
    intro fa s a hsort hkb hs ha
    exact ⟨trExt_addTransition fa s (AutomatonTransition.symbol ch) a hsort hkb hs, rfl⟩
  | epsilon =>
    intro fa s a hsort hkb hs ha
    exact ⟨trExt_addTransition fa s AutomatonTransition.epsilon a hsort hkb hs, rfl⟩

/-- The base automaton `from_regex` hands to `traverse_regex`: two allocated
states, state 0 the start and state 1 the accept, both with empty rows. -/
theorem fromRegex_eq_traverse (R : RegexOps) :
    fromRegex ⟨some R⟩ =
      traverseRegex ⟨2, [0], [1], [(0, []), (1, [])]⟩ R 0 1 := rfl

theorem tgts_fromRegexBase (u : Nat) (l : AutomatonTransition) :
    tgts ⟨2, [0], [1], [(0, []), (1, [])]⟩ u l = [] := by
  unfold tgts
  by_cases h0 : u = 0
  · subst h0; rfl
  · by_cases h1 : u = 1
    · subst h1; rfl
    · have hnm : mapGet? u [((0 : Nat), ([] : AutomatonTransitionList)), (1, [])] = none := by
        apply mapGet?_eq_none_of_not_mem
        simp [h0, h1]
      rw [hnm]
      rfl

/-- The Thompson automaton of `R`: sorted, start `0`, accept `1`, keys exactly
`[0, counter)`, and transition relation exactly the fragment edges. -/
theorem fromRegex_spec (R : RegexOps) :
    (fromRegex ⟨some R⟩).SortedTrans ∧
    (fromRegex ⟨some R⟩).start_states = [0] ∧
    (fromRegex ⟨some R⟩).accept_states = [1] ∧
    (fromRegex ⟨some R⟩).last_state = (frag R 0 1 2).2 ∧
    (∀ u, u ∈ (fromRegex ⟨some R⟩).transitions.map Prod.fst ↔ u < (frag R 0 1 2).2) ∧
    (∀ u l t, t ∈ tgts (fromRegex ⟨some R⟩) u l ↔ (u, l, t) ∈ (frag R 0 1 2).1) := by
  obtain ⟨he, hl⟩ := traverseRegex_spec R ⟨2, [0], [1], [(0, []), (1, [])]⟩ 0 1
    (by decide) (by decide) (by decide) (by decide)
  have hb2 : (⟨2, [0], [1], [(0, []), (1, [])]⟩ : FiniteAutomaton).last_state = 2 := rfl
  rw [hb2] at he hl
  rw [fromRegex_eq_traverse]
  have hc2 : 2 ≤ (frag R 0 1 2).2 := frag_counter_le R 0 1 2
  refine ⟨he.sorted, he.starts, he.accepts, hl, ?_, ?_⟩
  · intro u
    rw [he.keys u, hl]
    constructor
    · rintro (hu | ⟨h1, h2⟩)
      · simp only [List.map_cons, List.map_nil, List.mem_cons,
          List.not_mem_nil, or_false] at hu
        omega
    
      · exact h2
    · intro hu
      by_cases h2 : u < 2
      · refine Or.inl ?_
        simp only [List.map_cons, List.map_nil, List.mem_cons,
          List.not_mem_nil, or_false]
        omega
      · exact Or.inr ⟨by omega, hu⟩
  · intro u l t
    rw [he.tg u l t, tgts_fromRegexBase]
    simp

theorem eReach_iff_pathIn (fa : FiniteAutomaton) (E : List FragEdge)
    (h : ∀ u l t, t ∈ tgts fa u l ↔ (u, l, t) ∈ E) (s : Nat) (w : List Char) (t : Nat) :
    EReach fa s w t ↔ PathIn E s w t := by
  constructor
  · intro hp
    induction hp with
    | refl s => exact PathIn.refl s
    | eps he _ ih => exact PathIn.eps ((h _ _ _).1 he) ih
    | sym he _ ih => exact PathIn.sym ((h _ _ _).1 he) ih
  · intro hp
    induction hp with
    | refl s => exact EReach.refl s
    | eps he _ ih => exact EReach.eps ((h _ _ _).2 he) ih
    | sym he _ ih => exact EReach.sym ((h _ _ _).2 he) ih

/-- Part one of claim C1: the Thompson NFA of `R` accepts exactly the words
matching `R`, under the standard NFA-with-ε acceptance semantics. -/
theorem eAccepts_fromRegex (R : RegexOps) (w : List Char) :
    EAccepts (fromRegex ⟨some R⟩) w ↔ Matches R w := by
  obtain ⟨hsort, hstart, hacc, hlast, hkeys, htg⟩ := fromRegex_spec R
  unfold EAccepts
  rw [hstart, hacc]
  constructor
  · rintro ⟨s0, hs0, t0, ht0, hr⟩
    simp only [List.mem_singleton] at hs0 ht0
    subst hs0
    subst ht0
    have hp := (eReach_iff_pathIn _ _ htg 0 w 1).1 hr
    exact pathIn_frag_sound R 0 1 2 (by omega) (by omega) (by omega) w hp
  · intro hm
    refine ⟨0, List.mem_singleton.2 rfl, 1, List.mem_singleton.2 rfl, ?_⟩
    exact (eReach_iff_pathIn _ _ htg 0 w 1).2 (pathIn_frag_complete R 0 1 2 w hm)

/-! ## Claim C1, part 3: the ε-closure matrix -/

theorem sorted_matrow_get (m : ClosureMatrix) (hm : MatSorted m) (i : Nat) :
    ((((mapGet? i m).getD []).map Prod.fst).Sorted (· < ·)) := by
  cases hr : mapGet? i m with
  | none => simp
  | some row => simpa using hm.2 _ (mapGet?_eq_some_mem hr)

theorem matGet_matSet (m : ClosureMatrix) (i j : Nat) (b : Bool) (hm : MatSorted m)
    (a c : Nat) :
    matGet (matSet m i j b) a c = if a = i ∧ c = j then b else matGet m a c := by
  by_cases hai : a = i
  · subst hai
    have h1 : mapGet? a (matSet m a j b) =
        some (mapUpdate j false (fun _ => b) ((mapGet? a m).getD [])) :=
      mapGet?_mapUpdate_self a [] _ m hm.1
    by_cases hcj : c = j
    · subst hcj
      rw [if_pos ⟨rfl, rfl⟩]
      unfold matGet
      rw [h1]
      simp only [Option.getD_some]
      rw [mapGet?_mapUpdate_self c false _ _ (sorted_matrow_get m hm a)]
      simp
    · rw [if_neg (fun h => hcj h.2)]
      unfold matGet
      rw [h1]
      simp only [Option.getD_some]
      rw [mapGet?_mapUpdate_ne false _ _ hcj]
  · rw [if_neg (fun h => hai h.1)]
    unfold matGet
    unfold matSet
    rw [mapGet?_mapUpdate_ne [] _ _ hai]

theorem matSorted_matSet (m : ClosureMatrix) (i j : Nat) (b : Bool) (hm : MatSorted m) :
    MatSorted (matSet m i j b) := by
  constructor
  · exact sorted_map_fst_mapUpdate _ _ _ _ hm.1
  · intro p hp
    rcases mem_mapUpdate hp with h | h | ⟨row, hrow, he⟩
    · exact hm.2 p h
    · rw [h]
      exact sorted_map_fst_mapUpdate _ _ _ [] (by simp)
    · rw [he]
      exact sorted_map_fst_mapUpdate _ _ _ row (by simpa using hm.2 (p.1, row) hrow)

theorem matGet_setRow (i0 : Nat) : ∀ (ts : List Nat) (m : ClosureMatrix), MatSorted m →
    MatSorted (ts.foldl (fun m2 t => matSet m2 i0 t true) m) ∧
    ∀ a c, matGet (ts.foldl (fun m2 t => matSet m2 i0 t true) m) a c = true ↔
      (matGet m a c = true ∨ (a = i0 ∧ c ∈ ts)) := by
  intro ts
  induction ts with
  | nil =>
    intro m hm
    refine ⟨hm, ?_⟩
    intro a c
    simp
  | cons t rest ih =>
    intro m hm
    obtain ⟨ihs, ihg⟩ := ih (matSet m i0 t true) (matSorted_matSet m i0 t true hm)
    refine ⟨ihs, ?_⟩
    intro a c
    rw [show (t :: rest).foldl (fun m2 t2 => matSet m2 i0 t2 true) m =
      rest.foldl (fun m2 t2 => matSet m2 i0 t2 true) (matSet m i0 t true) from rfl]
    rw [ihg a c, matGet_matSet m i0 t true hm a c]
    by_cases h : a = i0 ∧ c = t
    · rw [if_pos h]
      simp only [List.mem_cons]
      tauto
    · rw [if_neg h]
      simp only [List.mem_cons]
      constructor
      · rintro (hg | ⟨rfl, hc⟩)
        · exact Or.inl hg
        · exact Or.inr ⟨rfl, Or.inr hc⟩
      · rintro (hg | ⟨rfl, rfl | hc⟩)
        · exact Or.inl hg
        · exact absurd ⟨rfl, rfl⟩ h
        · exact Or.inr ⟨rfl, hc⟩

theorem matGet_closureFold : ∀ (rows : List (Nat × AutomatonTransitionList))
    (m : ClosureMatrix), MatSorted m →
    MatSorted (rows.foldl (fun m1 p =>
      ((mapGet? AutomatonTransition.epsilon p.2).getD []).foldl
        (fun m2 t => matSet m2 p.1 t true) m1) m) ∧
    ∀ a c, matGet (rows.foldl (fun m1 p =>
      ((mapGet? AutomatonTransition.epsilon p.2).getD []).foldl
        (fun m2 t => matSet m2 p.1 t true) m1) m) a c = true ↔
      (matGet m a c = true ∨ ∃ p ∈ rows, p.1 = a ∧
        c ∈ (mapGet? AutomatonTransition.epsilon p.2).getD []) := by
  intro rows
  induction rows with
  | nil =>
    intro m hm
    refine ⟨hm, ?_⟩
    intro a c
    simp
  | cons p rest ih =>
    intro m hm
    obtain ⟨hs1, hg1⟩ := matGet_setRow p.1 ((mapGet? AutomatonTransition.epsilon p.2).getD []) m hm
    obtain ⟨ihs, ihg⟩ := ih _ hs1
    refine ⟨ihs, ?_⟩
    intro a c
    rw [show (p :: rest).foldl (fun m1 q =>
        ((mapGet? AutomatonTransition.epsilon q.2).getD []).foldl
          (fun m2 t => matSet m2 q.1 t true) m1) m =
      rest.foldl (fun m1 q =>
        ((mapGet? AutomatonTransition.epsilon q.2).getD []).foldl
          (fun m2 t => matSet m2 q.1 t true) m1)
        (((mapGet? AutomatonTransition.epsilon p.2).getD []).foldl
          (fun m2 t => matSet m2 p.1 t true) m) from rfl]
    rw [ihg a c, hg1 a c]
    simp only [List.mem_cons]
    constructor
    · rintro ((hg | ⟨rfl, hc⟩) | ⟨q, hq, rfl, hc⟩)
      · exact Or.inl hg
      · exact Or.inr ⟨p, Or.inl rfl, rfl, hc⟩
      · exact Or.inr ⟨q, Or.inr hq, rfl, hc⟩
    · rintro (hg | ⟨q, rfl | hq, rfl, hc⟩)
      · exact Or.inl (Or.inl hg)
      · exact Or.inl (Or.inr ⟨rfl, hc⟩)
      · exact Or.inr ⟨q, hq, rfl, hc⟩

theorem matGet_nil (a c : Nat) : matGet [] a c = false := rfl

theorem matSorted_closureInit (fa : FiniteAutomaton) :
    MatSorted (closureInit fa) :=
  (matGet_closureFold fa.transitions [] ⟨by simp, by simp⟩).1

/-- The initial matrix marks exactly the direct ε-edges. -/
theorem matGet_closureInit (fa : FiniteAutomaton) (hs : fa.SortedTrans) (a c : Nat) :
    (matGet (closureInit fa) a c = true) ↔ c ∈ tgts fa a AutomatonTransition.epsilon := by
  have h := (matGet_closureFold fa.transitions [] ⟨by simp, by simp⟩).2 a c
  rw [show closureInit fa = fa.transitions.foldl (fun m1 p =>
      ((mapGet? AutomatonTransition.epsilon p.2).getD []).foldl
        (fun m2 t => matSet m2 p.1 t true) m1) [] from rfl]
  rw [h, matGet_nil]
  simp only [Bool.false_eq_true, false_or]
  unfold tgts
  constructor
  · rintro ⟨p, hp, rfl, hc⟩
    have hget : mapGet? p.1 fa.transitions = some p.2 :=
      (mapGet?_eq_some_iff_mem (hs.1.nodup) p.1 p.2).2 (by
        cases p
        exact hp)
    rw [hget]
    exact hc
  · intro hc
    cases hr : mapGet? a fa.transitions with
    | none =>
      rw [hr] at hc
      simp [mapGet?] at hc
    | some row =>
      rw [hr] at hc
      exact ⟨(a, row), mapGet?_eq_some_mem hr, rfl, hc⟩

theorem fwReach_mono (bb : Nat → Nat → Bool) (P Q : Nat → Prop) (h : ∀ x, P x → Q x) :
    ∀ i j, FWReach bb P i j → FWReach bb Q i j := by
  intro i j hr
  induction hr with
  | base hb => exact FWReach.base hb
  | trans _ hk _ ih1 ih2 => exact FWReach.trans ih1 (h _ hk) ih2

theorem fwReach_congr (bb : Nat → Nat → Bool) (P Q : Nat → Prop) (h : ∀ x, P x ↔ Q x)
    (i j : Nat) : FWReach bb P i j ↔ FWReach bb Q i j :=
  ⟨fwReach_mono bb P Q (fun x => (h x).1) i j, fwReach_mono bb Q P (fun x => (h x).2) i j⟩

theorem fwReach_insert (bb : Nat → Nat → Bool) (P : Nat → Prop) (k : Nat) :
    ∀ i j, FWReach bb (fun x => x = k ∨ P x) i j ↔
      FWReach bb P i j ∨ (FWReach bb P i k ∧ FWReach bb P k j) := by
  intro i j
  constructor
  · intro hr
    induction hr with
    | base hb => exact Or.inl (FWReach.base hb)
    | trans _ hk _ ih1 ih2 =>
      rcases hk with rfl | hk
      · refine Or.inr ⟨?_, ?_⟩
        · rcases ih1 with h | ⟨h, -⟩ <;> exact h
        · rcases ih2 with h | ⟨-, h⟩ <;> exact h
      · rcases ih1 with h1 | ⟨h1a, h1b⟩ <;> rcases ih2 with h2 | ⟨h2a, h2b⟩
        · exact Or.inl (FWReach.trans h1 hk h2)
        · exact Or.inr ⟨FWReach.trans h1 hk h2a, h2b⟩
        · exact Or.inr ⟨h1a, FWReach.trans h1b hk h2⟩
        · exact Or.inr ⟨h1a, h2b⟩
  · rintro (h | ⟨h1, h2⟩)
    · exact fwReach_mono bb P _ (fun x hx => Or.inr hx) i j h
    · exact FWReach.trans (fwReach_mono bb P _ (fun x hx => Or.inr hx) i k h1)
        (Or.inl rfl) (fwReach_mono bb P _ (fun x hx => Or.inr hx) k j h2)

theorem fwReach_false (bb : Nat → Nat → Bool) (i j : Nat) :
    FWReach bb (fun _ => False) i j ↔ bb i j = true := by
  constructor
  · intro hr
    induction hr with
    | base hb => exact hb
    | trans _ hk _ _ _ => exact absurd hk not_false
  · exact FWReach.base

theorem fwReach_endpoints (bb : Nat → Nat → Bool) (keys : List Nat)
    (hvan : ∀ a b, bb a b = true → a ∈ keys ∧ b ∈ keys) (P : Nat → Prop) :
    ∀ i j, FWReach bb P i j → i ∈ keys ∧ j ∈ keys := by
  intro i j hr
  induction hr with
  | base hb => exact hvan _ _ hb
  | trans _ _ _ ih1 ih2 => exact ⟨ih1.1, ih2.2⟩

set_option maxHeartbeats 1000000 in
theorem fw_jfold (k i : Nat) (R0 R1 : Nat → Nat → Prop)
    (hins : ∀ a b, R1 a b ↔ R0 a b ∨ (R0 a k ∧ R0 k b)) :
    ∀ (js : List Nat) (M : ClosureMatrix) (D : Nat → Nat → Prop),
    MatSorted M →
    (∀ a b, matGet M a b = true ↔ ((D a b ∧ R1 a b) ∨ (¬ D a b ∧ R0 a b))) →
    MatSorted (js.foldl (fun mj j => matSet mj i j
      (matGet mj i j || (matGet mj i k && matGet mj k j))) M) ∧
    ∀ a b, matGet (js.foldl (fun mj j => matSet mj i j
      (matGet mj i j || (matGet mj i k && matGet mj k j))) M) a b = true ↔
      (((D a b ∨ (a = i ∧ b ∈ js)) ∧ R1 a b) ∨
        (¬ (D a b ∨ (a = i ∧ b ∈ js)) ∧ R0 a b)) := by
  intro js
  induction js with
  | nil =>
    intro M D hM hP
    refine ⟨hM, ?_⟩
    intro a b
    simp only [List.foldl_nil]
    rw [hP a b]
    simp
  | cons j rest ih =>
    intro M D hM hP
    have hvik : (matGet M i k = true) ↔ R0 i k := by
      rw [hP i k]
      have h1 : R1 i k ↔ R0 i k := by
        rw [hins]
        constructor
        · rintro (h | ⟨h, -⟩) <;> exact h
        · exact Or.inl
      tauto
    have hvkj : (matGet M k j = true) ↔ R0 k j := by
      rw [hP k j]
      have h1 : R1 k j ↔ R0 k j := by
        rw [hins]
        constructor
        · rintro (h | ⟨-, h⟩) <;> exact h
        · exact Or.inl
      tauto
    have hnew : (matGet M i j || (matGet M i k && matGet M k j)) = true ↔ R1 i j := by
      rw [Bool.or_eq_true, Bool.and_eq_true, hP i j, hvik, hvkj, hins i j]
      tauto
    have hP' : ∀ a b, matGet (matSet M i j
        (matGet M i j || (matGet M i k && matGet M k j))) a b = true ↔
        (((D a b ∨ (a = i ∧ b = j)) ∧ R1 a b) ∨
          (¬ (D a b ∨ (a = i ∧ b = j)) ∧ R0 a b)) := by
      intro a b
      rw [matGet_matSet M i j _ hM a b]
      by_cases h : a = i ∧ b = j
      · obtain ⟨rfl, rfl⟩ := h
        rw [if_pos ⟨rfl, rfl⟩, hnew]
        constructor
        · intro h1
          exact Or.inl ⟨Or.inr ⟨rfl, rfl⟩, h1⟩
        · rintro (⟨-, h1⟩ | ⟨hn, -⟩)
          · exact h1
          · exact absurd (Or.inr ⟨rfl, rfl⟩) hn
      · rw [if_neg h, hP a b]
        tauto
    obtain ⟨ihs, ihg⟩ := ih (matSet M i j
        (matGet M i j || (matGet M i k && matGet M k j)))
      (fun a b => D a b ∨ (a = i ∧ b = j)) (matSorted_matSet M i j _ hM) hP'
    refine ⟨ihs, ?_⟩
    intro a b
    simp only [List.foldl_cons]
    rw [ihg a b]
    simp only [List.mem_cons]
    tauto

theorem fw_ifold (k : Nat) (R0 R1 : Nat → Nat → Prop)
    (hins : ∀ a b, R1 a b ↔ R0 a b ∨ (R0 a k ∧ R0 k b)) (js : List Nat) :
    ∀ (is : List Nat) (M : ClosureMatrix) (D : Nat → Nat → Prop),
    MatSorted M →
    (∀ a b, matGet M a b = true ↔ ((D a b ∧ R1 a b) ∨ (¬ D a b ∧ R0 a b))) →
    MatSorted (is.foldl (fun mi i => js.foldl (fun mj j => matSet mj i j
      (matGet mj i j || (matGet mj i k && matGet mj k j))) mi) M) ∧
    ∀ a b, matGet (is.foldl (fun mi i => js.foldl (fun mj j => matSet mj i j
      (matGet mj i j || (matGet mj i k && matGet mj k j))) mi) M) a b = true ↔
      (((D a b ∨ (a ∈ is ∧ b ∈ js)) ∧ R1 a b) ∨
        (¬ (D a b ∨ (a ∈ is ∧ b ∈ js)) ∧ R0 a b)) := by
  intro is
  induction is with
  | nil =>
    intro M D hM hP
    refine ⟨hM, ?_⟩
    intro a b
    simp only [List.foldl_nil]
    rw [hP a b]
    simp
  | cons i rest ih =>
    intro M D hM hP
    obtain ⟨hs1, hg1⟩ := fw_jfold k i R0 R1 hins js M D hM hP
    obtain ⟨ihs, ihg⟩ := ih _ (fun a b => D a b ∨ (a = i ∧ b ∈ js)) hs1 hg1
    refine ⟨ihs, ?_⟩
    intro a b
    simp only [List.foldl_cons]
    rw [ihg a b]
    simp only [List.mem_cons]
    tauto

theorem fw_kfold (bb : Nat → Nat → Bool) (keys : List Nat)
    (hvan : ∀ a b, bb a b = true → a ∈ keys ∧ b ∈ keys) :
    ∀ (ks : List Nat) (M : ClosureMatrix) (P : Nat → Prop),
    MatSorted M →
    (∀ a b, matGet M a b = true ↔ FWReach bb P a b) →
    MatSorted (ks.foldl (fun mk k => keys.foldl (fun mi i => keys.foldl
      (fun mj j => matSet mj i j
        (matGet mj i j || (matGet mj i k && matGet mj k j))) mi) mk) M) ∧
    ∀ a b, matGet (ks.foldl (fun mk k => keys.foldl (fun mi i => keys.foldl
      (fun mj j => matSet mj i j
        (matGet mj i j || (matGet mj i k && matGet mj k j))) mi) mk) M) a b = true ↔
      FWReach bb (fun x => x ∈ ks ∨ P x) a b := by
  intro ks
  induction ks with
  | nil =>
    intro M P hM hP
    refine ⟨hM, ?_⟩
    intro a b
    simp only [List.foldl_nil]
    rw [hP a b]
    exact fwReach_congr bb _ _ (by intro x; simp) a b
  | cons k rest ih =>
    intro M P hM hP
    have hP0 : ∀ a b, matGet M a b = true ↔
        (((fun _ _ => False) a b ∧ FWReach bb (fun x => x = k ∨ P x) a b) ∨
          (¬ (fun _ _ => False) a b ∧ FWReach bb P a b)) := by
      intro a b
      rw [hP a b]
      tauto
    obtain ⟨hs1, hg1⟩ := fw_ifold k (FWReach bb P) (FWReach bb (fun x => x = k ∨ P x))
      (fwReach_insert bb P k) keys keys M (fun _ _ => False) hM hP0
    have hg1p : ∀ a b, matGet (keys.foldl (fun mi i => keys.foldl
        (fun mj j => matSet mj i j
          (matGet mj i j || (matGet mj i k && matGet mj k j))) mi) M) a b = true ↔
        FWReach bb (fun x => x = k ∨ P x) a b := by
      intro a b
      rw [hg1 a b]
      constructor
      · rintro (⟨-, h⟩ | ⟨-, h⟩)
        · exact h
        · exact fwReach_mono bb P _ (fun x hx => Or.inr hx) a b h
      · intro h
        have hep := fwReach_endpoints bb keys hvan _ a b h
        exact Or.inl ⟨Or.inr hep, h⟩
    obtain ⟨ihs, ihg⟩ := ih _ (fun x => x = k ∨ P x) hs1 hg1p
    refine ⟨ihs, ?_⟩
    intro a b
    simp only [List.foldl_cons]
    rw [ihg a b]
    exact fwReach_congr bb _ _ (by intro x; simp only [List.mem_cons]; tauto) a b

/-- The Floyd–Warshall loop computes reachability through the key set over the
initial matrix. -/
theorem matGet_floydWarshall (keys : List Nat) (m0 : ClosureMatrix)
    (hM : MatSorted m0)
    (hvan : ∀ a b, matGet m0 a b = true → a ∈ keys ∧ b ∈ keys) (a b : Nat) :
    matGet (floydWarshall keys m0) a b = true ↔
      FWReach (fun x y => matGet m0 x y) (fun x => x ∈ keys) a b := by
  have h0 : ∀ x y, matGet m0 x y = true ↔
      FWReach (fun x2 y2 => matGet m0 x2 y2) (fun _ => False) x y := by
    intro x y
    exact (fwReach_false _ x y).symm
  have h := (fw_kfold (fun x y => matGet m0 x y) keys hvan keys m0 (fun _ => False) hM h0).2 a b
  rw [show floydWarshall keys m0 = keys.foldl (fun mk k => keys.foldl (fun mi i => keys.foldl
      (fun mj j => matSet mj i j
        (matGet mj i j || (matGet mj i k && matGet mj k j))) mi) mk) m0 from rfl]
  rw [h]
  exact fwReach_congr _ _ _ (by intro x; simp) a b

theorem mem_tgts_source (fa : FiniteAutomaton) (u : Nat) (l : AutomatonTransition)
    (t : Nat) (h : t ∈ tgts fa u l) : u ∈ fa.transitions.map Prod.fst := by
  unfold tgts at h
  cases hr : mapGet? u fa.transitions with
  | none =>
    rw [hr] at h
    simp [mapGet?] at h
  | some row =>
    exact List.mem_map.2 ⟨(u, row), mapGet?_eq_some_mem hr, rfl⟩

theorem eVia_trans (fa : FiniteAutomaton) (P : Nat → Prop) :
    ∀ i k j, EVia fa P i k → P k → EVia fa P k j → EVia fa P i j := by
  intro i k j h1
  induction h1 with
  | single he => exact fun hk h2 => EVia.cons he hk h2
  | cons he hm _ ih => exact fun hk h2 => EVia.cons he hm (ih hk h2)

theorem eVia_mono (fa : FiniteAutomaton) (P Q : Nat → Prop) (h : ∀ x, P x → Q x) :
    ∀ i j, EVia fa P i j → EVia fa Q i j := by
  intro i j hr
  induction hr with
  | single he => exact EVia.single he
  | cons he hm _ ih => exact EVia.cons he (h _ hm) ih

theorem eVia_keys (fa : FiniteAutomaton) (P : Nat → Prop)
    (htc : ∀ u l t, t ∈ tgts fa u l → t ∈ fa.transitions.map Prod.fst) :
    ∀ i j, EVia fa P i j → EVia fa (fun x => x ∈ fa.transitions.map Prod.fst) i j := by
  intro i j hr
  induction hr with
  | single he => exact EVia.single he
  | cons he _ _ ih => exact EVia.cons he (htc _ _ _ he) ih

theorem eVia_source (fa : FiniteAutomaton) (P : Nat → Prop) :
    ∀ i j, EVia fa P i j → i ∈ fa.transitions.map Prod.fst := by
  intro i j hr
  induction hr with
  | single he => exact mem_tgts_source fa _ _ _ he
  | cons he _ _ _ => exact mem_tgts_source fa _ _ _ he

theorem fwReach_iff_eVia (fa : FiniteAutomaton) (hs : fa.SortedTrans) (P : Nat → Prop) :
    ∀ i j, FWReach (fun x y => matGet (closureInit fa) x y) P i j ↔ EVia fa P i j := by
  intro i j
  constructor
  · intro hr
    induction hr with
    | base hb => exact EVia.single ((matGet_closureInit fa hs _ _).1 hb)
    | trans _ hk _ ih1 ih2 => exact eVia_trans fa P _ _ _ ih1 hk ih2
  · intro hr
    induction hr with
    | single he => exact FWReach.base ((matGet_closureInit fa hs _ _).2 he)
    | cons he hm _ ih =>
      exact FWReach.trans (FWReach.base ((matGet_closureInit fa hs _ _).2 he)) hm ih

/-- In the Floyd–Warshall result over a targets-closed automaton, entry
`(a, b)` is set exactly when `b` is ε-reachable from `a` in at least one
step. -/
theorem matGet_fw_closure (fa : FiniteAutomaton) (hs : fa.SortedTrans)
    (htc : ∀ u l t, t ∈ tgts fa u l → t ∈ fa.transitions.map Prod.fst) (a b : Nat) :
    matGet (floydWarshall (fa.transitions.map Prod.fst) (closureInit fa)) a b = true ↔
      EVia fa (fun _ => True) a b := by
  have hvan : ∀ x y, matGet (closureInit fa) x y = true →
      x ∈ fa.transitions.map Prod.fst ∧ y ∈ fa.transitions.map Prod.fst := by
    intro x y hxy
    have he := (matGet_closureInit fa hs x y).1 hxy
    exact ⟨mem_tgts_source fa _ _ _ he, htc _ _ _ he⟩
  rw [matGet_floydWarshall (fa.transitions.map Prod.fst) (closureInit fa)
    (matSorted_closureInit fa) hvan a b]
  rw [fwReach_iff_eVia fa hs _ a b]
  constructor
  · exact eVia_mono fa _ _ (fun x _ => trivial) a b
  · exact eVia_keys fa _ htc a b

theorem matSorted_fw (keys : List Nat) (m0 : ClosureMatrix) (hM : MatSorted m0)
    (hvan : ∀ a b, matGet m0 a b = true → a ∈ keys ∧ b ∈ keys) :
    MatSorted (floydWarshall keys m0) := by
  have h0 : ∀ x y, matGet m0 x y = true ↔
      FWReach (fun x2 y2 => matGet m0 x2 y2) (fun _ => False) x y := by
    intro x y
    exact (fwReach_false _ x y).symm
  exact (fw_kfold (fun x y => matGet m0 x y) keys hvan keys m0 (fun _ => False) hM h0).1

theorem addEdges_append (es1 es2 : List FragEdge) (fa : FiniteAutomaton) :
    addEdges (es1 ++ es2) fa = addEdges es2 (addEdges es1 fa) :=
  List.foldl_append _ _ es1 es2

theorem materialize_row_eq (i : Nat) : ∀ (entries : List (Nat × Bool))
    (fa : FiniteAutomaton),
    entries.foldl (fun fa2 e =>
        if e.2 then fa2.addTransition i AutomatonTransition.epsilon e.1 else fa2) fa =
      addEdges (entries.foldr (fun e acc2 =>
        if e.2 then (i, AutomatonTransition.epsilon, e.1) :: acc2 else acc2) []) fa := by
  intro entries
  induction entries with
  | nil => intro fa; rfl
  | cons e rest ih =>
    intro fa
    simp only [List.foldl_cons, List.foldr_cons]
    by_cases he : e.2 = true
    · rw [if_pos he, if_pos he]
      exact ih _
    · rw [if_neg he, if_neg he]
      exact ih fa

theorem rowEdges_acc (i : Nat) : ∀ (entries : List (Nat × Bool)) (acc : List FragEdge),
    entries.foldr (fun e acc2 =>
        if e.2 then (i, AutomatonTransition.epsilon, e.1) :: acc2 else acc2) acc =
      (entries.foldr (fun e acc2 =>
        if e.2 then (i, AutomatonTransition.epsilon, e.1) :: acc2 else acc2) []) ++ acc := by
  intro entries
  induction entries with
  | nil => intro acc; rfl
  | cons e rest ih =>
    intro acc
    simp only [List.foldr_cons]
    by_cases he : e.2 = true
    · rw [if_pos he, if_pos he, ih acc]
      rfl
    · rw [if_neg he, if_neg he, ih acc]

theorem materialize_eq : ∀ (m : ClosureMatrix) (fa : FiniteAutomaton),
    materializeClosure fa m = addEdges (matEdges m) fa := by
  intro m
  induction m with
  | nil => intro fa; rfl
  | cons row rest ih =>
    intro fa
    rw [show materializeClosure fa (row :: rest) =
      materializeClosure (row.2.foldl (fun fa2 e =>
        if e.2 then fa2.addTransition row.1 AutomatonTransition.epsilon e.1 else fa2) fa)
        rest from rfl]
    rw [show matEdges (row :: rest) = row.2.foldr (fun e acc2 =>
        if e.2 then (row.1, AutomatonTransition.epsilon, e.1) :: acc2 else acc2)
        (matEdges rest) from rfl]
    rw [rowEdges_acc row.1 row.2 (matEdges rest), addEdges_append, ih, materialize_row_eq]

theorem mem_rowEdges (i : Nat) (l : AutomatonTransition) (u t : Nat) :
    ∀ (entries : List (Nat × Bool)),
    (u, l, t) ∈ entries.foldr (fun e acc2 =>
        if e.2 then (i, AutomatonTransition.epsilon, e.1) :: acc2 else acc2) [] ↔
      (u = i ∧ l = AutomatonTransition.epsilon ∧ (t, true) ∈ entries) := by
  intro entries
  induction entries with
  | nil => simp
  | cons e rest ih =>
    simp only [List.foldr_cons]
    by_cases he : e.2 = true
    · rw [if_pos he]
      simp only [List.mem_cons, Prod.mk.injEq, ih]
      constructor
      · rintro (⟨rfl, rfl, rfl⟩ | ⟨rfl, rfl, hm⟩)
        · refine ⟨rfl, rfl, Or.inl ?_⟩
          rw [← he]
        · exact ⟨rfl, rfl, Or.inr hm⟩
      · rintro ⟨rfl, rfl, hm | hm⟩
        · refine Or.inl ⟨rfl, rfl, ?_⟩
          rw [← hm]
        · exact Or.inr ⟨rfl, rfl, hm⟩
  
    · rw [if_neg he]
      rw [ih]
      constructor
      · rintro ⟨rfl, rfl, hm⟩
        exact ⟨rfl, rfl, List.mem_cons_of_mem _ hm⟩
      · rintro ⟨rfl, rfl, hm⟩
        rcases List.mem_cons.1 hm with hm2 | hm2
        · exact absurd (by rw [← hm2] at he; exact he) (by simp)
        · exact ⟨rfl, rfl, hm2⟩

theorem mem_matEdges_exists (u : Nat) (l : AutomatonTransition) (t : Nat) :
    ∀ (m : ClosureMatrix), (u, l, t) ∈ matEdges m ↔
      ∃ row ∈ m, u = row.1 ∧ l = AutomatonTransition.epsilon ∧ (t, true) ∈ row.2 := by
  intro m
  induction m with
  | nil => simp [matEdges]
  | cons row rest ih =>
    rw [show matEdges (row :: rest) = row.2.foldr (fun e acc2 =>
        if e.2 then (row.1, AutomatonTransition.epsilon, e.1) :: acc2 else acc2)
        (matEdges rest) from rfl, rowEdges_acc]
    rw [List.mem_append, mem_rowEdges, ih]
    constructor
    · rintro (⟨rfl, rfl, hm⟩ | ⟨r, hr, rfl, rfl, hm⟩)
      · exact ⟨row, List.mem_cons_self _ _, rfl, rfl, hm⟩
      · exact ⟨r, List.mem_cons_of_mem _ hr, rfl, rfl, hm⟩
    · rintro ⟨r, hr, rfl, rfl, hm⟩
      rcases List.mem_cons.1 hr with rfl | hr2
      · exact Or.inl ⟨rfl, rfl, hm⟩
      · exact Or.inr ⟨r, hr2, rfl, rfl, hm⟩

theorem matGet_eq_true_iff (m : ClosureMatrix) (hm : MatSorted m) (u t : Nat) :
    matGet m u t = true ↔ ∃ row ∈ m, u = row.1 ∧ (t, true) ∈ row.2 := by
  unfold matGet
  constructor
  · intro h
    cases hr : mapGet? u m with
    | none =>
      rw [hr] at h
      simp [mapGet?] at h
    | some r =>
      rw [hr] at h
      simp only [Option.getD_some] at h
      cases hrt : mapGet? t r with
      | none =>
        rw [hrt] at h
        simp at h
      | some b =>
        rw [hrt] at h
        simp only [Option.getD_some] at h
        subst h
        exact ⟨(u, r), mapGet?_eq_some_mem hr, rfl, mapGet?_eq_some_mem hrt⟩
  · rintro ⟨row, hrow, rfl, hm2⟩
    have hnd : (m.map Prod.fst).Nodup := hm.1.nodup
    have hget : mapGet? row.1 m = some row.2 :=
      (mapGet?_eq_some_iff_mem hnd row.1 row.2).2 (by cases row; exact hrow)
    rw [hget]
    simp only [Option.getD_some]
    have hndr : (row.2.map Prod.fst).Nodup := (hm.2 row hrow).nodup
    rw [(mapGet?_eq_some_iff_mem hndr t true).2 hm2]
    rfl

theorem mem_matEdges (m : ClosureMatrix) (hm : MatSorted m) (u : Nat)
    (l : AutomatonTransition) (t : Nat) :
    (u, l, t) ∈ matEdges m ↔ (l = AutomatonTransition.epsilon ∧ matGet m u t = true) := by
  rw [mem_matEdges_exists, matGet_eq_true_iff m hm]
  constructor
  · rintro ⟨row, hr, rfl, rfl, hm2⟩
    exact ⟨rfl, row, hr, rfl, hm2⟩
  · rintro ⟨rfl, row, hr, rfl, hm2⟩
    exact ⟨row, hr, rfl, rfl, hm2⟩

theorem materialize_trExt (fa : FiniteAutomaton) (m : ClosureMatrix)
    (hs : fa.SortedTrans) (hkb : ∀ u ∈ fa.transitions.map Prod.fst, u < fa.last_state)
    (hm : MatSorted m)
    (hsrc : ∀ u t, matGet m u t = true → u ∈ fa.transitions.map Prod.fst) :
    TRExt fa (materializeClosure fa m) (matEdges m) := by
  rw [materialize_eq]
  apply trExt_addEdges (matEdges m) fa hs hkb
  intro e he
  have he2 : (e.1, e.2.1, e.2.2) ∈ matEdges m := he
  exact hsrc _ _ ((mem_matEdges m hm e.1 e.2.1 e.2.2).1 he2).2

theorem fw_matrix_sorted (fa : FiniteAutomaton) (hs : fa.SortedTrans)
    (htc : ∀ u l t, t ∈ tgts fa u l → t ∈ fa.transitions.map Prod.fst) :
    MatSorted (floydWarshall (fa.transitions.map Prod.fst) (closureInit fa)) := by
  apply matSorted_fw _ _ (matSorted_closureInit fa)
  intro x y hxy
  have he := (matGet_closureInit fa hs x y).1 hxy
  exact ⟨mem_tgts_source fa _ _ _ he, htc _ _ _ he⟩

/-- The materialised automaton: original edges plus one ε-edge per ε-reachable
pair. -/
theorem materialize_fw_trExt (fa : FiniteAutomaton) (hs : fa.SortedTrans)
    (hkb : ∀ u ∈ fa.transitions.map Prod.fst, u < fa.last_state)
    (htc : ∀ u l t, t ∈ tgts fa u l → t ∈ fa.transitions.map Prod.fst) :
    TRExt fa (materializeClosure fa
        (floydWarshall (fa.transitions.map Prod.fst) (closureInit fa)))
      (matEdges (floydWarshall (fa.transitions.map Prod.fst) (closureInit fa))) ∧
    ∀ u l t, t ∈ tgts (materializeClosure fa
        (floydWarshall (fa.transitions.map Prod.fst) (closureInit fa))) u l ↔
      (t ∈ tgts fa u l ∨
        (l = AutomatonTransition.epsilon ∧ EVia fa (fun _ => True) u t)) := by
  have hmsorted := fw_matrix_sorted fa hs htc
  have hext := materialize_trExt fa _ hs hkb hmsorted
    (by
      intro u t hu
      have := (matGet_fw_closure fa hs htc u t).1 hu
      exact eVia_source fa _ _ _ this)
  refine ⟨hext, ?_⟩
  intro u l t
  rw [hext.tg u l t, mem_matEdges _ hmsorted, matGet_fw_closure fa hs htc]

theorem tgts_of_mem_row (fa : FiniteAutomaton) (hs : fa.SortedTrans)
    (p : Nat × AutomatonTransitionList) (hp : p ∈ fa.transitions)
    (l : AutomatonTransition) : tgts fa p.1 l = (mapGet? l p.2).getD [] := by
  unfold tgts
  rw [(mapGet?_eq_some_iff_mem hs.1.nodup p.1 p.2).2 (by cases p; exact hp)]
  rfl

theorem liftAccepts_transitions (fa : FiniteAutomaton) :
    (liftAccepts fa).transitions = fa.transitions := rfl

theorem liftAccepts_start (fa : FiniteAutomaton) :
    (liftAccepts fa).start_states = fa.start_states := rfl

theorem liftAccepts_last (fa : FiniteAutomaton) :
    (liftAccepts fa).last_state = fa.last_state := rfl

theorem liftInner_grows (u : Nat) : ∀ (ts : List Nat) (acc : List Nat) (x : Nat),
    x ∈ acc → x ∈ ts.foldl
      (fun acc2 t => if acc2.contains t then setInsert u acc2 else acc2) acc := by
  intro ts
  induction ts with
  | nil => intro acc x hx; exact hx
  | cons t rest ih =>
    intro acc x hx
    simp only [List.foldl_cons]
    by_cases hc : acc.contains t = true
    · rw [if_pos hc]
      exact ih _ x ((mem_setInsert u x acc).2 (Or.inr hx))
    · rw [if_neg hc]
      exact ih _ x hx

theorem liftOuter_grows : ∀ (rows : List (Nat × AutomatonTransitionList))
    (acc : List Nat) (x : Nat), x ∈ acc →
    x ∈ rows.foldl (fun a1 p => ((mapGet? AutomatonTransition.epsilon p.2).getD []).foldl
      (fun acc2 t => if acc2.contains t then setInsert p.1 acc2 else acc2) a1) acc := by
  intro rows
  induction rows with
  | nil => intro acc x hx; exact hx
  | cons p rest ih =>
    intro acc x hx
    simp only [List.foldl_cons]
    exact ih _ x (liftInner_grows p.1 _ acc x hx)

theorem liftInner_sound (fa : FiniteAutomaton) (u : Nat) :
    ∀ (ts : List Nat) (acc : List Nat),
    (∀ t ∈ ts, t ∈ tgts fa u AutomatonTransition.epsilon) →
    (∀ x ∈ acc, ∃ t ∈ fa.accept_states, EReach fa x [] t) →
    ∀ x ∈ ts.foldl (fun acc2 t => if acc2.contains t then setInsert u acc2 else acc2) acc,
      ∃ t ∈ fa.accept_states, EReach fa x [] t := by
  intro ts
  induction ts with
  | nil => intro acc _ hacc x hx; exact hacc x hx
  | cons t rest ih =>
    intro acc hts hacc x hx
    simp only [List.foldl_cons] at hx
    by_cases hc : acc.contains t = true
    · rw [if_pos hc] at hx
      refine ih _ (fun t2 ht2 => hts t2 (List.mem_cons_of_mem _ ht2)) ?_ x hx
      intro y hy
      rcases (mem_setInsert u y acc).1 hy with rfl | hy2
      · obtain ⟨tf, htf, hr⟩ := hacc t (List.elem_iff.1 hc)
        exact ⟨tf, htf, EReach.eps (hts t (List.mem_cons_self _ _)) hr⟩
      · exact hacc y hy2
    · rw [if_neg hc] at hx
      exact ih _ (fun t2 ht2 => hts t2 (List.mem_cons_of_mem _ ht2)) hacc x hx

theorem liftOuter_sound (fa : FiniteAutomaton) (hs : fa.SortedTrans) :
    ∀ (rows : List (Nat × AutomatonTransitionList)) (acc : List Nat),
    (∀ p ∈ rows, p ∈ fa.transitions) →
    (∀ x ∈ acc, ∃ t ∈ fa.accept_states, EReach fa x [] t) →
    ∀ x ∈ rows.foldl (fun a1 p =>
        ((mapGet? AutomatonTransition.epsilon p.2).getD []).foldl
          (fun acc2 t => if acc2.contains t then setInsert p.1 acc2 else acc2) a1) acc,
      ∃ t ∈ fa.accept_states, EReach fa x [] t := by
  intro rows
  induction rows with
  | nil => intro acc _ hacc x hx; exact hacc x hx
  | cons p rest ih =>
    intro acc hrows hacc x hx
    simp only [List.foldl_cons] at hx
    refine ih _ (fun q hq => hrows q (List.mem_cons_of_mem _ hq)) ?_ x hx
    apply liftInner_sound fa p.1 _ acc
    · intro t ht
      rw [tgts_of_mem_row fa hs p (hrows p (List.mem_cons_self _ _))]
      exact ht
    · exact hacc

theorem liftInner_complete (u : Nat) : ∀ (ts : List Nat) (acc : List Nat) (v : Nat),
    v ∈ ts → v ∈ acc →
    u ∈ ts.foldl (fun acc2 t => if acc2.contains t then setInsert u acc2 else acc2) acc := by
  intro ts
  induction ts with
  | nil => intro acc v hv; simp at hv
  | cons t rest ih =>
    intro acc v hv hvacc
    simp only [List.foldl_cons]
    rcases List.mem_cons.1 hv with rfl | hv2
    · rw [if_pos (List.elem_iff.2 hvacc)]
      exact liftInner_grows u rest _ u ((mem_setInsert u u acc).2 (Or.inl rfl))
    · by_cases hc : acc.contains t = true
      · rw [if_pos hc]
        exact ih _ v hv2 ((mem_setInsert u v acc).2 (Or.inr hvacc))
      · rw [if_neg hc]
        exact ih _ v hv2 hvacc

theorem liftOuter_complete (u : Nat) (rowu : AutomatonTransitionList) (v : Nat)
    (hv : v ∈ (mapGet? AutomatonTransition.epsilon rowu).getD []) :
    ∀ (rows : List (Nat × AutomatonTransitionList)) (acc : List Nat),
    (u, rowu) ∈ rows → v ∈ acc →
    u ∈ rows.foldl (fun a1 p =>
        ((mapGet? AutomatonTransition.epsilon p.2).getD []).foldl
          (fun acc2 t => if acc2.contains t then setInsert p.1 acc2 else acc2) a1) acc := by
  intro rows
  induction rows with
  | nil => intro acc h; simp at h
  | cons p rest ih =>
    intro acc hmem hvacc
    simp only [List.foldl_cons]
    rcases List.mem_cons.1 hmem with heq | hmem2
    · apply liftOuter_grows rest _ u
      rw [← heq]
      exact liftInner_complete u _ acc v hv hvacc
    · exact ih _ hmem2 (liftInner_grows p.1 _ acc v hvacc)

/-- What the accept-lifting pass guarantees: everything it marks can ε-reach an
original accept state, and one ε-step into an accept state is always marked. -/
theorem liftAccepts_spec (fa : FiniteAutomaton) (hs : fa.SortedTrans) :
    (∀ x ∈ fa.accept_states, x ∈ (liftAccepts fa).accept_states) ∧
    (∀ x ∈ (liftAccepts fa).accept_states, ∃ t ∈ fa.accept_states, EReach fa x [] t) ∧
    (∀ u v, v ∈ tgts fa u AutomatonTransition.epsilon → v ∈ fa.accept_states →
      u ∈ (liftAccepts fa).accept_states) := by
  refine ⟨?_, ?_, ?_⟩
  · intro x hx
    exact liftOuter_grows fa.transitions fa.accept_states x hx
  · intro x hx
    refine liftOuter_sound fa hs fa.transitions fa.accept_states (fun p hp => hp) ?_ x hx
    intro y hy
    exact ⟨y, hy, EReach.refl y⟩
  · intro u v hv hvacc
    have hukey : u ∈ fa.transitions.map Prod.fst := mem_tgts_source fa _ _ _ hv
    obtain ⟨p, hp, hp1⟩ := List.mem_map.1 hukey
    have hrow : tgts fa u AutomatonTransition.epsilon = (mapGet? AutomatonTransition.epsilon p.2).getD [] := by
      rw [← hp1]
      exact tgts_of_mem_row fa hs p hp AutomatonTransition.epsilon
    rw [hrow] at hv
    have hup : (u, p.2) ∈ fa.transitions := by
      rw [← hp1]
      have : (p.1, p.2) = p := rfl
      rw [this]
      exact hp
    exact liftOuter_complete u p.2 v hv fa.transitions fa.accept_states hup hvacc

theorem addEdges_map_targets (u : Nat) (l : AutomatonTransition) :
    ∀ (ds : List Nat) (g : FiniteAutomaton),
    ds.foldl (fun fa4 d => fa4.addTransition u l d) g =
      addEdges (ds.map (fun d => (u, l, d))) g := by
  intro ds
  induction ds with
  | nil => intro g; rfl
  | cons d rest ih =>
    intro g
    simp only [List.foldl_cons, List.map_cons]
    exact ih _

theorem entry_fold_eq (u : Nat) : ∀ (row2 : AutomatonTransitionList) (g : FiniteAutomaton),
    row2.foldl (fun fa3 e => e.2.foldl (fun fa4 d => fa4.addTransition u e.1 d) fa3) g =
      addEdges (row2.flatMap (fun e => e.2.map (fun d => (u, e.1, d)))) g := by
  intro row2
  induction row2 with
  | nil => intro g; rfl
  | cons e rest ih =>
    intro g
    simp only [List.foldl_cons, List.flatMap_cons]
    rw [addEdges_append, ih, addEdges_map_targets]

theorem bypass_inner_eq (snap : List (Nat × AutomatonTransitionList)) (u : Nat) :
    ∀ (ts : List Nat) (g : FiniteAutomaton),
    (∀ t ∈ ts, (mapGet? t snap).isSome = true) →
    ts.foldlM (fun fa2 t =>
      match mapGet? t snap with
      | none => none
      | some row2 =>
        some (row2.foldl
          (fun fa3 e => e.2.foldl (fun fa4 d => fa4.addTransition u e.1 d) fa3)
          fa2)) g =
      some (addEdges (ts.flatMap (fun t =>
        ((mapGet? t snap).getD []).flatMap (fun e =>
          e.2.map (fun d => (u, e.1, d))))) g) := by
  intro ts
  induction ts with
  | nil => intro g _; rfl
  | cons t rest ih =>
    intro g hok
    obtain ⟨row2, hrow2⟩ := Option.isSome_iff_exists.1 (hok t (List.mem_cons_self _ _))
    rw [List.foldlM_cons]
    rw [show (match mapGet? t snap with
      | none => none
      | some row2 =>
        some (row2.foldl
          (fun fa3 e => e.2.foldl (fun fa4 d => fa4.addTransition u e.1 d) fa3)
          g)) = some (row2.foldl
          (fun fa3 e => e.2.foldl (fun fa4 d => fa4.addTransition u e.1 d) fa3)
          g) from by rw [hrow2]]
    simp only [Option.bind_eq_bind]
    rw [Option.some_bind]
    rw [ih _ (fun t2 ht2 => hok t2 (List.mem_cons_of_mem _ ht2))]
    simp only [List.flatMap_cons]
    rw [addEdges_append, entry_fold_eq, hrow2]
    simp only [Option.getD_some]

theorem bypass_outer_eq (snap : List (Nat × AutomatonTransitionList)) :
    ∀ (rows : List (Nat × AutomatonTransitionList)) (g : FiniteAutomaton),
    (∀ p ∈ rows, ∀ t ∈ (mapGet? AutomatonTransition.epsilon p.2).getD [],
      (mapGet? t snap).isSome = true) →
    rows.foldlM (fun fa1 p =>
      ((mapGet? AutomatonTransition.epsilon p.2).getD []).foldlM
        (fun fa2 t =>
          match mapGet? t snap with
          | none => none
          | some row2 =>
            some (row2.foldl
              (fun fa3 e => e.2.foldl (fun fa4 d => fa4.addTransition p.1 e.1 d) fa3)
              fa2))
        fa1) g =
      some (addEdges (rows.flatMap (fun p =>
        ((mapGet? AutomatonTransition.epsilon p.2).getD []).flatMap (fun t =>
          ((mapGet? t snap).getD []).flatMap (fun e =>
            e.2.map (fun d => (p.1, e.1, d)))))) g) := by
  intro rows
  induction rows with
  | nil => intro g _; rfl
  | cons p rest ih =>
    intro g hok
    rw [List.foldlM_cons]
    rw [bypass_inner_eq snap p.1 _ g (hok p (List.mem_cons_self _ _))]
    simp only [Option.bind_eq_bind]
    rw [Option.some_bind]
    rw [ih _ (fun q hq => hok q (List.mem_cons_of_mem _ hq))]
    simp only [List.flatMap_cons]
    rw [addEdges_append]

/-- When every ε-target is a key of the snapshot, the bypass step succeeds and
equals installing the bypass edges. -/
theorem bypass_eq (fa : FiniteAutomaton)
    (hok : ∀ p ∈ fa.transitions, ∀ t ∈ (mapGet? AutomatonTransition.epsilon p.2).getD [],
      (mapGet? t fa.transitions).isSome = true) :
    bypassEpsilon fa = some (addEdges (bypassEdges fa.transitions) fa) :=
  bypass_outer_eq fa.transitions fa.transitions fa hok

theorem mem_tgts_iff_row (fa : FiniteAutomaton) (hs : fa.SortedTrans) (v : Nat)
    (l : AutomatonTransition) (t : Nat) :
    t ∈ tgts fa v l ↔
      ∃ e ∈ (mapGet? v fa.transitions).getD [], e.1 = l ∧ t ∈ e.2 := by
  unfold tgts
  constructor
  · intro h
    cases hrt : mapGet? l ((mapGet? v fa.transitions).getD []) with
    | none =>
      rw [hrt] at h
      simp at h
    | some ts =>
      rw [hrt] at h
      simp only [Option.getD_some] at h
      exact ⟨(l, ts), mapGet?_eq_some_mem hrt, rfl, h⟩
  · rintro ⟨e, he, rfl, ht⟩
    have hnd : ((((mapGet? v fa.transitions).getD []).map Prod.fst)).Nodup :=
      (sorted_row_get fa hs v).nodup
    rw [(mapGet?_eq_some_iff_mem hnd e.1 e.2).2 (by cases e; exact he)]
    exact ht

theorem mem_bypassEdges (fa : FiniteAutomaton) (hs : fa.SortedTrans)
    (u : Nat) (l : AutomatonTransition) (t : Nat) :
    (u, l, t) ∈ bypassEdges fa.transitions ↔
      ∃ v ∈ tgts fa u AutomatonTransition.epsilon, t ∈ tgts fa v l := by
  unfold bypassEdges
  simp only [List.mem_flatMap, List.mem_map, Prod.mk.injEq]
  constructor
  · rintro ⟨p, hp, v, hv, e, he, d, hd, rfl, rfl, rfl⟩
    refine ⟨v, ?_, ?_⟩
    · rw [tgts_of_mem_row fa hs p hp]
      exact hv
    · exact (mem_tgts_iff_row fa hs v _ _).2 ⟨e, he, rfl, hd⟩
  · rintro ⟨v, hv, ht⟩
    have hukey : u ∈ fa.transitions.map Prod.fst := mem_tgts_source fa _ _ _ hv
    obtain ⟨p, hp, hp1⟩ := List.mem_map.1 hukey
    obtain ⟨e, he, hel, hed⟩ := (mem_tgts_iff_row fa hs v _ _).1 ht
    refine ⟨p, hp, v, ?_, e, he, t, hed, ?_, ?_, rfl⟩
    · rw [← tgts_of_mem_row fa hs p hp, hp1]
      exact hv
    · exact hp1
    · exact hel

theorem mapGet?_map_values {κ β : Type} [DecidableEq κ] (f : β → β) (k : κ) :
    ∀ (m : List (κ × β)),
    mapGet? k (m.map (fun p => (p.1, f p.2))) = (mapGet? k m).map f := by
  intro m
  induction m with
  | nil => rfl
  | cons p rest ih =>
    by_cases hk : k = p.1
    · subst hk
      simp only [List.map_cons, mapGet?, if_pos rfl]
      rfl
    · simp only [List.map_cons, mapGet?, if_neg hk]
      exact ih

theorem mapGet?_mapRemove_self {κ β : Type} [DecidableEq κ] (k : κ) :
    ∀ (m : List (κ × β)), mapGet? k (mapRemove k m) = none := by
  intro m
  induction m with
  | nil => rfl
  | cons p rest ih =>
    by_cases hk : p.1 = k
    · simp only [mapRemove, List.filter_cons]
      rw [if_neg (by simp [hk])]
      exact ih
    · simp only [mapRemove, List.filter_cons]
      rw [if_pos (by simp [hk])]
      simp only [mapGet?]
      rw [if_neg (fun h => hk (by rw [h]))]
      exact ih

theorem mapGet?_mapRemove_ne {κ β : Type} [DecidableEq κ] (k k' : κ) (h : k' ≠ k) :
    ∀ (m : List (κ × β)), mapGet? k' (mapRemove k m) = mapGet? k' m := by
  intro m
  induction m with
  | nil => rfl
  | cons p rest ih =>
    by_cases hk : p.1 = k
    · simp only [mapRemove, List.filter_cons]
      rw [if_neg (by simp [hk])]
      simp only [mapGet?]
      rw [if_neg (fun h2 => h (by rw [h2, hk]))]
      exact ih
    · simp only [mapRemove, List.filter_cons]
      rw [if_pos (by simp [hk])]
      simp only [mapGet?]
      by_cases h2 : k' = p.1
      · rw [if_pos h2, if_pos h2]
      · rw [if_neg h2, if_neg h2]
        exact ih

theorem stripEpsilon_start (g : FiniteAutomaton) :
    (stripEpsilon g).start_states = g.start_states := rfl

theorem stripEpsilon_accept (g : FiniteAutomaton) :
    (stripEpsilon g).accept_states = g.accept_states := rfl

theorem tgts_stripEpsilon_eps (g : FiniteAutomaton) (u : Nat) :
    tgts (stripEpsilon g) u AutomatonTransition.epsilon = [] := by
  unfold tgts stripEpsilon
  rw [mapGet?_map_values]
  cases mapGet? u g.transitions with
  | none => rfl
  | some row =>
    rw [show Option.map (mapRemove AutomatonTransition.epsilon) (some row) =
      some (mapRemove AutomatonTransition.epsilon row) from rfl]
    simp only [Option.getD_some]
    rw [mapGet?_mapRemove_self]
    rfl

theorem tgts_stripEpsilon_sym (g : FiniteAutomaton) (u : Nat) (c : Char) :
    tgts (stripEpsilon g) u (AutomatonTransition.symbol c) =
      tgts g u (AutomatonTransition.symbol c) := by
  unfold tgts stripEpsilon
  rw [mapGet?_map_values]
  cases mapGet? u g.transitions with
  | none => rfl
  | some row =>
    rw [show Option.map (mapRemove AutomatonTransition.epsilon) (some row) =
      some (mapRemove AutomatonTransition.epsilon row) from rfl]
    simp only [Option.getD_some]
    rw [mapGet?_mapRemove_ne AutomatonTransition.epsilon (AutomatonTransition.symbol c)
      (fun h => AutomatonTransition.noConfusion h)]

theorem foldl_removeState_last : ∀ (l : List Nat) (g : FiniteAutomaton),
    (l.foldl FiniteAutomaton.removeState g).last_state = g.last_state := by
  intro l
  induction l with
  | nil => intro g; rfl
  | cons s rest ih => intro g; exact ih _

theorem foldl_removeState_start : ∀ (l : List Nat) (g : FiniteAutomaton),
    (l.foldl FiniteAutomaton.removeState g).start_states =
      g.start_states.filter (fun x => x ∉ l) := by
  intro l
  induction l with
  | nil =>
    intro g
    simp only [List.foldl_nil]
    exact (List.filter_eq_self.2 (fun a _ => by simp)).symm
  | cons s rest ih =>
    intro g
    simp only [List.foldl_cons]
    rw [ih]
    show (g.start_states.filter (fun x => x ≠ s)).filter (fun x => x ∉ rest) = _
    rw [List.filter_filter]
    apply List.filter_congr
    intro x _
    by_cases h1 : x = s <;> by_cases h2 : x ∈ rest <;>
      simp [h1, h2, List.mem_cons]

theorem foldl_removeState_accept : ∀ (l : List Nat) (g : FiniteAutomaton),
    (l.foldl FiniteAutomaton.removeState g).accept_states =
      g.accept_states.filter (fun x => x ∉ l) := by
  intro l
  induction l with
  | nil =>
    intro g
    simp only [List.foldl_nil]
    exact (List.filter_eq_self.2 (fun a _ => by simp)).symm
  | cons s rest ih =>
    intro g
    simp only [List.foldl_cons]
    rw [ih]
    show (g.accept_states.filter (fun x => x ≠ s)).filter (fun x => x ∉ rest) = _
    rw [List.filter_filter]
    apply List.filter_congr
    intro x _
    by_cases h1 : x = s <;> by_cases h2 : x ∈ rest <;>
      simp [h1, h2, List.mem_cons]

theorem foldl_removeState_transitions : ∀ (l : List Nat) (g : FiniteAutomaton),
    (l.foldl FiniteAutomaton.removeState g).transitions =
      g.transitions.filter (fun p => p.1 ∉ l) := by
  intro l
  induction l with
  | nil =>
    intro g
    simp only [List.foldl_nil]
    exact (List.filter_eq_self.2 (fun a _ => by simp)).symm
  | cons s rest ih =>
    intro g
    simp only [List.foldl_cons]
    rw [ih]
    show (g.transitions.filter (fun p => p.1 ≠ s)).filter (fun p => p.1 ∉ rest) = _
    rw [List.filter_filter]
    apply List.filter_congr
    intro x _
    by_cases h1 : x.1 = s <;> by_cases h2 : x.1 ∈ rest <;>
      simp [h1, h2, List.mem_cons]

theorem mapGet?_filter_keys {β : Type} (dead : List Nat) (u : Nat) (hu : u ∉ dead) :
    ∀ (m : List (Nat × β)),
    mapGet? u (m.filter (fun p => p.1 ∉ dead)) = mapGet? u m := by
  intro m
  induction m with
  | nil => rfl
  | cons p rest ih =>
    by_cases hp : p.1 ∉ dead
    · rw [List.filter_cons, if_pos (by simpa using hp)]
      simp only [mapGet?]
      by_cases h2 : u = p.1
      · rw [if_pos h2, if_pos h2]
      · rw [if_neg h2, if_neg h2]
        exact ih
    · rw [List.filter_cons, if_neg (by simpa using hp)]
      simp only [mapGet?]
      rw [if_neg (fun h => hp (by rw [← h]; exact hu))]
      exact ih

theorem mapGet?_filter_keys_sub {β : Type} (dead : List Nat) (u : Nat) (r : β)
    (m : List (Nat × β)) (hnd : (m.map Prod.fst).Nodup)
    (h : mapGet? u (m.filter (fun p => p.1 ∉ dead)) = some r) :
    mapGet? u m = some r := by
  have hmem : (u, r) ∈ m.filter (fun p => p.1 ∉ dead) := mapGet?_eq_some_mem h
  have hm : (u, r) ∈ m := (List.mem_filter.1 hmem).1
  exact (mapGet?_eq_some_iff_mem hnd u r).2 hm

theorem sorted_updFold : ∀ (ss : List Nat) (m : List (Nat × Nat)),
    ((m.map Prod.fst).Sorted (· < ·)) →
    ((((ss.foldl (fun m2 s => mapUpdate s 0 (fun n => n + 1) m2) m)).map Prod.fst).Sorted
      (· < ·)) := by
  intro ss
  induction ss with
  | nil => intro m hm; exact hm
  | cons s rest ih =>
    intro m hm
    simp only [List.foldl_cons]
    exact ih _ (sorted_map_fst_mapUpdate _ _ _ _ hm)

theorem cnt_mapUpdate (m : List (Nat × Nat)) (hm : (m.map Prod.fst).Sorted (· < ·))
    (d t : Nat) :
    (mapGet? t (mapUpdate d 0 (fun n => n + 1) m)).getD 0 =
      if t = d then (mapGet? t m).getD 0 + 1 else (mapGet? t m).getD 0 := by
  by_cases h : t = d
  · subst h
    rw [if_pos rfl, mapGet?_mapUpdate_self t 0 _ m hm]
    rfl
  · rw [if_neg h, mapGet?_mapUpdate_ne 0 _ _ h]

theorem cnt_le_updFold : ∀ (ss : List Nat) (m : List (Nat × Nat)),
    ((m.map Prod.fst).Sorted (· < ·)) → ∀ t,
    (mapGet? t m).getD 0 ≤
      (mapGet? t (ss.foldl (fun m2 s => mapUpdate s 0 (fun n => n + 1) m2) m)).getD 0 := by
  intro ss
  induction ss with
  | nil => intro m _ t; exact le_refl _
  | cons s rest ih =>
    intro m hm t
    simp only [List.foldl_cons]
    refine le_trans ?_ (ih _ (sorted_map_fst_mapUpdate _ _ _ _ hm) t)
    rw [cnt_mapUpdate m hm s t]
    split_ifs <;> omega

theorem cnt_pos_updFold : ∀ (ss : List Nat) (m : List (Nat × Nat)),
    ((m.map Prod.fst).Sorted (· < ·)) → ∀ t ∈ ss,
    1 ≤ (mapGet? t (ss.foldl (fun m2 s => mapUpdate s 0 (fun n => n + 1) m2) m)).getD 0 := by
  intro ss
  induction ss with
  | nil => intro m _ t ht; simp at ht
  | cons s rest ih =>
    intro m hm t ht
    simp only [List.foldl_cons]
    rcases List.mem_cons.1 ht with rfl | ht2
    · refine le_trans ?_ (cnt_le_updFold rest _ (sorted_map_fst_mapUpdate _ _ _ _ hm) t)
      rw [cnt_mapUpdate m hm t t, if_pos rfl]
      omega
    · exact ih _ (sorted_map_fst_mapUpdate _ _ _ _ hm) t ht2

theorem sorted_entryFold : ∀ (entries : AutomatonTransitionList) (m : List (Nat × Nat)),
    ((m.map Prod.fst).Sorted (· < ·)) →
    ((((entries.foldl (fun m2 e => e.2.foldl
        (fun m3 d => mapUpdate d 0 (fun n => n + 1) m3) m2) m)).map Prod.fst).Sorted
      (· < ·)) := by
  intro entries
  induction entries with
  | nil => intro m hm; exact hm
  | cons e rest ih =>
    intro m hm
    simp only [List.foldl_cons]
    exact ih _ (sorted_updFold e.2 m hm)

theorem cnt_le_entryFold : ∀ (entries : AutomatonTransitionList) (m : List (Nat × Nat)),
    ((m.map Prod.fst).Sorted (· < ·)) → ∀ t,
    (mapGet? t m).getD 0 ≤
      (mapGet? t (entries.foldl (fun m2 e => e.2.foldl
        (fun m3 d => mapUpdate d 0 (fun n => n + 1) m3) m2) m)).getD 0 := by
  intro entries
  induction entries with
  | nil => intro m _ t; exact le_refl _
  | cons e rest ih =>
    intro m hm t
    simp only [List.foldl_cons]
    exact le_trans (cnt_le_updFold e.2 m hm t) (ih _ (sorted_updFold e.2 m hm) t)

theorem cnt_pos_entryFold : ∀ (entries : AutomatonTransitionList) (m : List (Nat × Nat)),
    ((m.map Prod.fst).Sorted (· < ·)) → ∀ e ∈ entries, ∀ t ∈ e.2,
    1 ≤ (mapGet? t (entries.foldl (fun m2 e2 => e2.2.foldl
        (fun m3 d => mapUpdate d 0 (fun n => n + 1) m3) m2) m)).getD 0 := by
  intro entries
  induction entries with
  | nil => intro m _ e he; simp at he
  | cons e0 rest ih =>
    intro m hm e he t ht
    simp only [List.foldl_cons]
    rcases List.mem_cons.1 he with rfl | he2
    · refine le_trans (cnt_pos_updFold e.2 m hm t ht)
        (cnt_le_entryFold rest _ (sorted_updFold e.2 m hm) t)
    · exact ih _ (sorted_updFold e0.2 m hm) e he2 t ht

theorem sorted_rowsFold : ∀ (rows : List (Nat × AutomatonTransitionList))
    (m : List (Nat × Nat)), ((m.map Prod.fst).Sorted (· < ·)) →
    ((((rows.foldl (fun m1 p => p.2.foldl (fun m2 e => e.2.foldl
        (fun m3 d => mapUpdate d 0 (fun n => n + 1) m3) m2) m1) m)).map Prod.fst).Sorted
      (· < ·)) := by
  intro rows
  induction rows with
  | nil => intro m hm; exact hm
  | cons p rest ih =>
    intro m hm
    simp only [List.foldl_cons]
    exact ih _ (sorted_entryFold p.2 m hm)

theorem cnt_le_rowsFold : ∀ (rows : List (Nat × AutomatonTransitionList))
    (m : List (Nat × Nat)), ((m.map Prod.fst).Sorted (· < ·)) → ∀ t,
    (mapGet? t m).getD 0 ≤
      (mapGet? t (rows.foldl (fun m1 p => p.2.foldl (fun m2 e => e.2.foldl
        (fun m3 d => mapUpdate d 0 (fun n => n + 1) m3) m2) m1) m)).getD 0 := by
  intro rows
  induction rows with
  | nil => intro m _ t; exact le_refl _
  | cons p rest ih =>
    intro m hm t
    simp only [List.foldl_cons]
    exact le_trans (cnt_le_entryFold p.2 m hm t) (ih _ (sorted_entryFold p.2 m hm) t)

theorem cnt_pos_rowsFold : ∀ (rows : List (Nat × AutomatonTransitionList))
    (m : List (Nat × Nat)), ((m.map Prod.fst).Sorted (· < ·)) →
    ∀ p ∈ rows, ∀ e ∈ p.2, ∀ t ∈ e.2,
    1 ≤ (mapGet? t (rows.foldl (fun m1 p2 => p2.2.foldl (fun m2 e2 => e2.2.foldl
        (fun m3 d => mapUpdate d 0 (fun n => n + 1) m3) m2) m1) m)).getD 0 := by
  intro rows
  induction rows with
  | nil => intro m _ p hp; simp at hp
  | cons p0 rest ih =>
    intro m hm p hp e he t ht
    simp only [List.foldl_cons]
    rcases List.mem_cons.1 hp with rfl | hp2
    · refine le_trans (cnt_pos_entryFold p.2 m hm e he t ht)
        (cnt_le_rowsFold rest _ (sorted_entryFold p.2 m hm) t)
    · exact ih _ (sorted_entryFold p0.2 m hm) p hp2 e he t ht

theorem refCounts_pos_start (fa : FiniteAutomaton) (t : Nat)
    (ht : t ∈ fa.start_states) : 1 ≤ (mapGet? t (refCounts fa)).getD 0 := by
  unfold refCounts
  refine le_trans (cnt_pos_updFold fa.start_states [] (by simp) t ht)
    (cnt_le_rowsFold fa.transitions _ (sorted_updFold fa.start_states [] (by simp)) t)

theorem refCounts_pos_target (fa : FiniteAutomaton) (hs : fa.SortedTrans)
    (u : Nat) (l : AutomatonTransition) (t : Nat) (ht : t ∈ tgts fa u l) :
    1 ≤ (mapGet? t (refCounts fa)).getD 0 := by
  obtain ⟨e, he, hel, hete⟩ := (mem_tgts_iff_row fa hs u l t).1 ht
  have hukey : u ∈ fa.transitions.map Prod.fst := mem_tgts_source fa _ _ _ ht
  obtain ⟨p, hp, hp1⟩ := List.mem_map.1 hukey
  have hget : mapGet? u fa.transitions = some p.2 := by
    rw [← hp1]
    exact (mapGet?_eq_some_iff_mem hs.1.nodup p.1 p.2).2 (by cases p; exact hp)
  have hrowp : (mapGet? u fa.transitions).getD [] = p.2 := by
    rw [hget]
    rfl
  rw [hrowp] at he
  unfold refCounts
  exact cnt_pos_rowsFold fa.transitions _
    (sorted_updFold fa.start_states [] (by simp)) p hp e he t hete

theorem eliminateDead_eq (g : FiniteAutomaton) :
    eliminateDead g = ((g.transitions.map Prod.fst).filter
      (fun s => (mapGet? s (refCounts g)).getD 0 = 0)).foldl
        FiniteAutomaton.removeState g := rfl

/-- The dead-state sweep removes only unreferenced states, so acceptance of
every word is unchanged. -/
theorem eliminateDead_accepts (g : FiniteAutomaton) (hs : g.SortedTrans) (w : List Char) :
    EAccepts (eliminateDead g) w ↔ EAccepts g w := by
  have hdead : ∀ x, x ∈ (g.transitions.map Prod.fst).filter
      (fun s => (mapGet? s (refCounts g)).getD 0 = 0) →
      (mapGet? x (refCounts g)).getD 0 = 0 := by
    intro x hx
    simpa using (List.mem_filter.1 hx).2
  have hstart_alive : ∀ x ∈ g.start_states, x ∉ (g.transitions.map Prod.fst).filter
      (fun s => (mapGet? s (refCounts g)).getD 0 = 0) := by
    intro x hx hmem
    have h1 := refCounts_pos_start g x hx
    have h2 := hdead x hmem
    omega
  have htgt_alive : ∀ u l t, t ∈ tgts g u l →
      t ∉ (g.transitions.map Prod.fst).filter
        (fun s => (mapGet? s (refCounts g)).getD 0 = 0) := by
    intro u l t ht hmem
    have h1 := refCounts_pos_target g hs u l t ht
    have h2 := hdead t hmem
    omega
  have htr : (eliminateDead g).transitions = g.transitions.filter
      (fun p => p.1 ∉ (g.transitions.map Prod.fst).filter
        (fun s => (mapGet? s (refCounts g)).getD 0 = 0)) := by
    rw [eliminateDead_eq]
    exact foldl_removeState_transitions _ g
  have hst : (eliminateDead g).start_states = g.start_states.filter
      (fun x => x ∉ (g.transitions.map Prod.fst).filter
        (fun s => (mapGet? s (refCounts g)).getD 0 = 0)) := by
    rw [eliminateDead_eq]
    exact foldl_removeState_start _ g
  have hac : (eliminateDead g).accept_states = g.accept_states.filter
      (fun x => x ∉ (g.transitions.map Prod.fst).filter
        (fun s => (mapGet? s (refCounts g)).getD 0 = 0)) := by
    rw [eliminateDead_eq]
    exact foldl_removeState_accept _ g
  have htgts_alive : ∀ u, u ∉ (g.transitions.map Prod.fst).filter
      (fun s => (mapGet? s (refCounts g)).getD 0 = 0) →
      ∀ l, tgts (eliminateDead g) u l = tgts g u l := by
    intro u hu l
    unfold tgts
    rw [htr, mapGet?_filter_keys _ u hu]
  have htgts_sub : ∀ u l t, t ∈ tgts (eliminateDead g) u l → t ∈ tgts g u l := by
    intro u l t ht
    unfold tgts at ht ⊢
    rw [htr] at ht
    cases hr : mapGet? u (g.transitions.filter
        (fun p => p.1 ∉ (g.transitions.map Prod.fst).filter
          (fun s => (mapGet? s (refCounts g)).getD 0 = 0))) with
    | none =>
      rw [hr] at ht
      simp [mapGet?] at ht
    | some r =>
      rw [hr] at ht
      rw [mapGet?_filter_keys_sub _ u r g.transitions hs.1.nodup hr]
      exact ht
  constructor
  · rintro ⟨s0, hs0, t0, ht0, hr⟩
    rw [hst] at hs0
    rw [hac] at ht0
    refine ⟨s0, (List.mem_filter.1 hs0).1, t0, (List.mem_filter.1 ht0).1, ?_⟩
    clear hs0 ht0
    induction hr with
    | refl s => exact EReach.refl s
    | eps he _ ih => exact EReach.eps (htgts_sub _ _ _ he) ih
    | sym he _ ih => exact EReach.sym (htgts_sub _ _ _ he) ih
  · rintro ⟨s0, hs0, t0, ht0, hr⟩
    have hkey : ∀ v w2 t2, EReach g v w2 t2 →
        v ∉ (g.transitions.map Prod.fst).filter
          (fun s => (mapGet? s (refCounts g)).getD 0 = 0) →
        EReach (eliminateDead g) v w2 t2 ∧
          t2 ∉ (g.transitions.map Prod.fst).filter
            (fun s => (mapGet? s (refCounts g)).getD 0 = 0) := by
      intro v w2 t2 hr2 hv
      induction hr2 with
      | refl s => exact ⟨EReach.refl s, hv⟩
      | eps he hrest ih =>
        have htal := htgt_alive _ _ _ he
        obtain ⟨hp, hend⟩ := ih htal
        refine ⟨EReach.eps ?_ hp, hend⟩
        rw [htgts_alive _ hv]
        exact he
      | sym he hrest ih =>
        have htal := htgt_alive _ _ _ he
        obtain ⟨hp, hend⟩ := ih htal
        refine ⟨EReach.sym ?_ hp, hend⟩
        rw [htgts_alive _ hv]
        exact he
    obtain ⟨hp, hend⟩ := hkey s0 w t0 hr (hstart_alive s0 hs0)
    refine ⟨s0, ?_, t0, ?_, hp⟩
    · rw [hst]
      exact List.mem_filter.2 ⟨hs0, by simpa using hstart_alive s0 hs0⟩
    · rw [hac]
      exact List.mem_filter.2 ⟨ht0, by simpa using hend⟩

theorem eReach_append (fa : FiniteAutomaton) :
    ∀ (a : Nat) (w1 : List Char) (b : Nat), EReach fa a w1 b →
    ∀ (w2 : List Char) (c : Nat), EReach fa b w2 c → EReach fa a (w1 ++ w2) c := by
  intro a w1 b h1
  induction h1 with
  | refl s => intro w2 c h2; exact h2
  | eps he _ ih => intro w2 c h2; exact EReach.eps he (ih w2 c h2)
  | sym he _ ih => intro w2 c h2; exact EReach.sym he (ih w2 c h2)

theorem eVia_eReach_nil (fa : FiniteAutomaton) (P : Nat → Prop) :
    ∀ u v, EVia fa P u v → EReach fa u [] v := by
  intro u v h
  induction h with
  | single he => exact EReach.eps he (EReach.refl _)
  | cons he _ _ ih => exact EReach.eps he ih

theorem eVia_target (fa : FiniteAutomaton) (P : Nat → Prop)
    (htc : ∀ u l t, t ∈ tgts fa u l → t ∈ fa.transitions.map Prod.fst) :
    ∀ u t, EVia fa P u t → t ∈ fa.transitions.map Prod.fst := by
  intro u t h
  induction h with
  | single he => exact htc _ _ _ he
  | cons _ _ _ ih => exact ih

theorem sortedTrans_stripEpsilon (g : FiniteAutomaton) (hs : g.SortedTrans) :
    (stripEpsilon g).SortedTrans := by
  constructor
  · show ((g.transitions.map (fun p => (p.1, mapRemove AutomatonTransition.epsilon p.2))).map
      Prod.fst).Sorted (· < ·)
    rw [List.map_map]
    exact hs.1
  · intro p hp
    obtain ⟨q, hq, rfl⟩ := List.mem_map.1 hp
    show (((mapRemove AutomatonTransition.epsilon q.2).map Prod.fst)).Sorted (· < ·)
    have hsub : List.Sublist ((mapRemove AutomatonTransition.epsilon q.2).map Prod.fst)
        (q.2.map Prod.fst) :=
      List.Sublist.map Prod.fst (List.filter_sublist q.2)
    exact List.Pairwise.sublist hsub (hs.2 q hq)

theorem eliminateEpsilon_eq (fa : FiniteAutomaton) :
    eliminateEpsilon fa =
      match bypassEpsilon (liftAccepts (materializeClosure fa
        (floydWarshall (fa.transitions.map Prod.fst) (closureInit fa)))) with
      | none => none
      | some fa3 => some (eliminateDead (stripEpsilon fa3)) := rfl

/-- ε-elimination succeeds on every sorted automaton whose transition targets
are keys, and the accepted language is unchanged. -/
theorem eliminateEpsilon_preserves (fa : FiniteAutomaton) (hs : fa.SortedTrans)
    (hkb : ∀ u ∈ fa.transitions.map Prod.fst, u < fa.last_state)
    (htc : ∀ u l t, t ∈ tgts fa u l → t ∈ fa.transitions.map Prod.fst) :
    ∃ g, eliminateEpsilon fa = some g ∧ ∀ w, (EAccepts g w ↔ EAccepts fa w) := by
  obtain ⟨hext1, htg1⟩ := materialize_fw_trExt fa hs hkb htc
  set g1 := materializeClosure fa
    (floydWarshall (fa.transitions.map Prod.fst) (closureInit fa)) with hg1
  have hg1sorted : g1.SortedTrans := hext1.sorted
  have hg1acc : g1.accept_states = fa.accept_states := hext1.accepts
  have hg1st : g1.start_states = fa.start_states := hext1.starts
  have hg1last : g1.last_state = fa.last_state := by
    rw [hg1, materialize_eq, addEdges_last]
  have hg1keys : ∀ u, u ∈ g1.transitions.map Prod.fst ↔
      u ∈ fa.transitions.map Prod.fst := by
    intro u
    rw [hext1.keys u]
    constructor
    · rintro (h | ⟨h1, h2⟩)
      · exact h
      · rw [hg1last] at h2
        omega
    · exact Or.inl
  set g2 := liftAccepts g1 with hg2
  have hg2tr : g2.transitions = g1.transitions := liftAccepts_transitions g1
  have hg2sorted : g2.SortedTrans := by
    constructor
    · rw [hg2tr]
      exact hg1sorted.1
    · intro p hp
      rw [hg2tr] at hp
      exact hg1sorted.2 p hp
  have hg2tg : ∀ u l, tgts g2 u l = tgts g1 u l := by
    intro u l
    unfold tgts
    rw [hg2tr]
  obtain ⟨hliftmono, hliftsound, hliftcomp⟩ := liftAccepts_spec g1 hg1sorted
  have hok : ∀ p ∈ g2.transitions,
      ∀ t ∈ (mapGet? AutomatonTransition.epsilon p.2).getD [],
      (mapGet? t g2.transitions).isSome = true := by
    intro p hp t htmem
    have htg : t ∈ tgts g2 p.1 AutomatonTransition.epsilon := by
      rw [tgts_of_mem_row g2 hg2sorted p hp]
      exact htmem
    rw [hg2tg] at htg
    have hkey : t ∈ fa.transitions.map Prod.fst := by
      rcases (htg1 p.1 AutomatonTransition.epsilon t).1 htg with h | ⟨-, h⟩
      · exact htc _ _ _ h
      · exact eVia_target fa _ htc _ _ h
    apply mapGet?_isSome_of_mem
    rw [hg2tr]
    exact (hg1keys t).2 hkey
  have hbp := bypass_eq g2 hok
  set g3 := addEdges (bypassEdges g2.transitions) g2 with hg3
  have hext3 : TRExt g2 g3 (bypassEdges g2.transitions) := by
    apply trExt_addEdges _ _ hg2sorted
    · intro u hu
      rw [hg2tr] at hu
      have h1 : u < g1.last_state := hext1.kb u hu
      exact h1
    · intro e he
      have he2 : (e.1, e.2.1, e.2.2) ∈ bypassEdges g2.transitions := he
      obtain ⟨v, hv, -⟩ := (mem_bypassEdges g2 hg2sorted e.1 e.2.1 e.2.2).1 he2
      exact mem_tgts_source g2 _ _ _ hv
  have htg3 : ∀ u l t, t ∈ tgts g3 u l ↔
      (t ∈ tgts g2 u l ∨
        ∃ v ∈ tgts g2 u AutomatonTransition.epsilon, t ∈ tgts g2 v l) := by
    intro u l t
    rw [hext3.tg u l t, mem_bypassEdges g2 hg2sorted]
  set g4 := stripEpsilon g3 with hg4
  have hg4sorted : g4.SortedTrans := sortedTrans_stripEpsilon g3 hext3.sorted
  have hg4st : g4.start_states = fa.start_states := by
    rw [hg4, stripEpsilon_start, hext3.starts, hg2, liftAccepts_start, hg1st]
  have hg4acc : g4.accept_states = g2.accept_states := by
    rw [hg4, stripEpsilon_accept, hext3.accepts]
  have hg4eps : ∀ u, tgts g4 u AutomatonTransition.epsilon = [] := fun u =>
    tgts_stripEpsilon_eps g3 u
  have hg4sym : ∀ u c t, t ∈ tgts g4 u (AutomatonTransition.symbol c) ↔
      ∃ v, (u = v ∨ EVia fa (fun _ => True) u v) ∧
        t ∈ tgts fa v (AutomatonTransition.symbol c) := by
    intro u c t
    rw [hg4, tgts_stripEpsilon_sym, htg3]
    constructor
    · rintro (h | ⟨v, hv, htv⟩)
      · rw [hg2tg] at h
        rcases (htg1 u _ t).1 h with h2 | ⟨h2, -⟩
        · exact ⟨u, Or.inl rfl, h2⟩
        · exact absurd h2 (fun hh => AutomatonTransition.noConfusion hh)
      · rw [hg2tg] at hv htv
        rcases (htg1 u AutomatonTransition.epsilon v).1 hv with h2 | ⟨-, h2⟩
        · rcases (htg1 v _ t).1 htv with h3 | ⟨h3, -⟩
          · exact ⟨v, Or.inr (EVia.single h2), h3⟩
          · exact absurd h3 (fun hh => AutomatonTransition.noConfusion hh)
        · rcases (htg1 v _ t).1 htv with h3 | ⟨h3, -⟩
          · exact ⟨v, Or.inr h2, h3⟩
          · exact absurd h3 (fun hh => AutomatonTransition.noConfusion hh)
    · rintro ⟨v, hv, htv⟩
      rcases hv with rfl | hvia
      · refine Or.inl ?_
        rw [hg2tg]
        exact (htg1 u _ t).2 (Or.inl htv)
      · refine Or.inr ⟨v, ?_, ?_⟩
        · rw [hg2tg]
          exact (htg1 u AutomatonTransition.epsilon v).2 (Or.inr ⟨rfl, hvia⟩)
        · rw [hg2tg]
          exact (htg1 v _ t).2 (Or.inl htv)
  have hA2sound : ∀ x ∈ g2.accept_states, ∃ t ∈ fa.accept_states, EReach fa x [] t := by
    intro x hx
    obtain ⟨t, ht, hr⟩ := hliftsound x hx
    rw [hg1acc] at ht
    have hconv : ∀ a w2 b, EReach g1 a w2 b → w2 = [] → EReach fa a [] b := by
      intro a w2 b hr2
      induction hr2 with
      | refl s => intro _; exact EReach.refl s
      | eps he _ ih =>
        intro hw
        rcases (htg1 _ AutomatonTransition.epsilon _).1 he with h2 | ⟨-, h2⟩
        · exact EReach.eps h2 (ih hw)
        · exact eReach_append fa _ [] _ (eVia_eReach_nil fa _ _ _ h2) [] _ (ih hw)
      | sym _ _ _ =>
        intro hw
        exact absurd hw (by simp)
    exact ⟨t, ht, hconv x [] t hr rfl⟩
  have hA2mem : ∀ x ∈ fa.accept_states, x ∈ g2.accept_states := by
    intro x hx
    apply hliftmono
    rw [hg1acc]
    exact hx
  have hA2eps : ∀ u t, EVia fa (fun _ => True) u t → t ∈ fa.accept_states →
      u ∈ g2.accept_states := by
    intro u t hvia ht
    apply hliftcomp u t
    · exact (htg1 u AutomatonTransition.epsilon t).2 (Or.inr ⟨rfl, hvia⟩)
    · rw [hg1acc]
      exact ht
  have hfwd : ∀ v w2 t2, EReach fa v w2 t2 → t2 ∈ fa.accept_states →
      ∀ u, (u = v ∨ EVia fa (fun _ => True) u v) →
      ∃ t3 ∈ g4.accept_states, EReach g4 u w2 t3 := by
    intro v w2 t2 hr
    induction hr with
    | refl s =>
      intro ht2 u hu
      refine ⟨u, ?_, EReach.refl u⟩
      rw [hg4acc]
      rcases hu with rfl | hvia
      · exact hA2mem u ht2
      · exact hA2eps u s hvia ht2
    | eps he _ ih =>
      intro ht2 u hu
      refine ih ht2 u ?_
      rcases hu with rfl | hvia
      · exact Or.inr (EVia.single he)
      · exact Or.inr (eVia_trans fa _ _ _ _ hvia trivial (EVia.single he))
    | sym he _ ih =>
      intro ht2 u hu
      obtain ⟨t3, ht3, hp⟩ := ih ht2 _ (Or.inl rfl)
      refine ⟨t3, ht3, EReach.sym ?_ hp⟩
      exact (hg4sym u _ _).2 ⟨_, hu, he⟩
  have hbwd : ∀ u w2 t2, EReach g4 u w2 t2 → t2 ∈ g4.accept_states →
      ∃ t3 ∈ fa.accept_states, EReach fa u w2 t3 := by
    intro u w2 t2 hr
    induction hr with
    | refl s =>
      intro ht2
      rw [hg4acc] at ht2
      exact hA2sound s ht2
    | eps he _ _ =>
      intro ht2
      rw [hg4eps] at he
      simp at he
    | @sym s t u2 c w3 he _ ih =>
      intro ht2
      obtain ⟨t3, ht3, hp⟩ := ih ht2
      obtain ⟨v, hv, htv⟩ := (hg4sym _ _ _).1 he
      refine ⟨t3, ht3, ?_⟩
      have hmid : EReach fa v (c :: w3) t3 := EReach.sym htv hp
      rcases hv with rfl | hvia
      · exact hmid
      · exact eReach_append fa _ [] _ (eVia_eReach_nil fa _ _ _ hvia) _ _ hmid
  have hstripacc : ∀ w, EAccepts g4 w ↔ EAccepts fa w := by
    intro w
    constructor
    · rintro ⟨s0, hs0, t0, ht0, hr⟩
      rw [hg4st] at hs0
      obtain ⟨t3, ht3, hp⟩ := hbwd s0 w t0 hr ht0
      exact ⟨s0, hs0, t3, ht3, hp⟩
    · rintro ⟨s0, hs0, t0, ht0, hr⟩
      obtain ⟨t3, ht3, hp⟩ := hfwd s0 w t0 hr ht0 s0 (Or.inl rfl)
      refine ⟨s0, ?_, t3, ht3, hp⟩
      rw [hg4st]
      exact hs0
  refine ⟨eliminateDead g4, ?_, ?_⟩
  · rw [eliminateEpsilon_eq, ← hg1, ← hg2, hbp]
  · intro w
    rw [eliminateDead_accepts g4 hg4sorted w]
    exact hstripacc w

/-- Claim C1: for every regex `R` with a non-empty root and every word `w`, the
Thompson-style NFA built by `from_regex` accepts `w` under the standard
NFA-with-ε acceptance semantics iff `R` matches `w`, and `eliminate_epsilon`
succeeds on that NFA and leaves the accepted language unchanged. -/
theorem from_regex_language_and_eliminate_epsilon (R : RegexOps) :
    (∀ w, EAccepts (fromRegex ⟨some R⟩) w ↔ Matches R w) ∧
    ∃ g, eliminateEpsilon (fromRegex ⟨some R⟩) = some g ∧
      ∀ w, (EAccepts g w ↔ Matches R w) := by
  obtain ⟨hsort, hstart, hacc, hlast, hkeys, htg⟩ := fromRegex_spec R
  have hN2 : 2 ≤ (frag R 0 1 2).2 := frag_counter_le R 0 1 2
  have hkb : ∀ u ∈ (fromRegex ⟨some R⟩).transitions.map Prod.fst,
      u < (fromRegex ⟨some R⟩).last_state := by
    intro u hu
    rw [hlast]
    exact (hkeys u).1 hu
  have htc : ∀ u l t, t ∈ tgts (fromRegex ⟨some R⟩) u l →
      t ∈ (fromRegex ⟨some R⟩).transitions.map Prod.fst := by
    intro u l t ht
    have hmem := (htg u l t).1 ht
    have hsh := (frag_edge_shape R 0 1 2 u t l hmem).2
    refine (hkeys t).2 ?_
    rcases hsh with rfl | ⟨h1, h2⟩
    · omega
    · exact h2
  obtain ⟨g, hg, hw⟩ := eliminateEpsilon_preserves (fromRegex ⟨some R⟩) hsort hkb htc
  refine ⟨fun w => eAccepts_fromRegex R w, g, hg, fun w => ?_⟩
  exact (hw w).trans (eAccepts_fromRegex R w)

end Autore
